import Mathlib

/-!
# Balanced splitting of key-durations (package durchunk)

A shallow embedding of `src/pkg/durchunk/durchunk.go`.

Conventions of the embedding.

* A Go `time.Duration` is an `Int` number of nanoseconds and an `int64` is an
  `Int`; every `int64` addition and multiplication of the source is followed
  by `wrap64`, the reduction into the range of `int64`.
* A finite `float64` is the integer number of units of `2^-1074` that it
  holds.  A real quotient is rounded to the nearest `float64`, ties to even
  (`roundPos`, `roundRat`); values beyond the finite range do not occur for
  `int64` inputs.  `Seconds` is Go's `Duration.Seconds()` and `truncSeconds`
  is `int64(v.Seconds())`.
* `score` compares float64 seconds and converts their difference.  On totals
  that are whole numbers of seconds held in an `int64` these steps are exact
  (a whole number of seconds below `2^53` is a `float64`, and so is the
  difference of two of them), and `score` is embedded by its value there: the
  largest total minus the smallest one, in whole seconds (`wholeSeconds`).
  The totals are whole numbers of seconds as long as no product with
  `time.Second` wraps around; every result below that uses the value of
  `score` has hypotheses that exclude the wrap-around, and the results about
  the annealing loop itself hold for any score function.
* A run-time failure of the source (index out of range, `rand.Intn` with a
  non-positive argument, `make` with a negative length) is the value `none`.
* The random source is explicit: `Rand` gives the result of `rand.Shuffle`
  and, for every iteration of the annealing loop, the results of the random
  calls of that iteration (`Draw`).  `rand.Intn n` maps a raw draw `r` to
  `r % n`.  The result of `rand.Float64() < math.Exp(-delta/t)` is a bit of
  the draw, so the temperature has no other role in the embedding.
-/

set_option linter.unusedVariables false

namespace Durchunk

/-- Go's `time.Second`, in nanoseconds. -/
def Second : Int := 1000000000

/-- Go's `Chunk`: the keys of a chunk and its total duration (nanoseconds). -/
structure Chunk where
  Keys : List String
  Total : Int
deriving DecidableEq, Repr

/-- Go's `entry`: a key and its duration in whole seconds. -/
structure entry where
  Key : String
  Dur : Int
deriving DecidableEq, Repr

/-- Results of the random calls made by one iteration of the annealing loop.
`coin` is `rand.Float64() < 0.5`; `r1` to `r4` are the raw values behind the
calls of `rand.Intn`, in source order; `accept` is
`rand.Float64() < math.Exp(-delta/t)`. -/
structure Draw where
  coin : Bool
  r1 : Nat
  r2 : Nat
  r3 : Nat
  r4 : Nat
  accept : Bool
deriving DecidableEq, Repr

/-- The random source of one call: the permutation applied by `rand.Shuffle`
and the draws of each annealing iteration. -/
structure Rand where
  shuffle : (l : List entry) → { l' : List entry // l'.Perm l }
  draw : Nat → Draw

/-- Go's `rand.Intn(n)`: fails for `n = 0`, otherwise a value below `n`. -/
def Intn (n : Nat) (r : Nat) : Option Nat :=
  if n = 0 then none else some (r % n)

/-- The reduction of an integer into the range of `int64` (wrap-around). -/
def wrap64 (x : Int) : Int :=
  (x + 9223372036854775808) % 18446744073709551616 - 9223372036854775808

/-- The loop `sum := int64(0); for ... { sum += x }` over `int64` values. -/
def sum64 (l : List Int) : Int :=
  l.foldl (fun acc x => wrap64 (acc + x)) 0

/-- The quotient `a / b` rounded to the nearest natural number, ties to even. -/
def rneDiv (a b : Nat) : Nat :=
  if 2 * (a % b) < b then a / b
  else if b < 2 * (a % b) then a / b + 1
  else if (a / b) % 2 = 0 then a / b else a / b + 1

/-- The binade of `a / b`: the largest `i` up to the bound with
`2^(i - 1022) ≤ a / b`, and 0 in the subnormal range.  The spacing of the
float64 values around `a / b` is `2^i` units of `2^-1074`. -/
def findExp (a b : Nat) : Nat → Nat
  | 0 => 0
  | i + 1 => if b <<< (i + 1) ≤ a <<< 1022 then i + 1 else findExp a b i

/-- The float64 nearest to `a / b`, ties to even, in units of `2^-1074`. -/
def roundPos (a b : Nat) : Nat :=
  rneDiv (a <<< 1074) (b <<< findExp a b 2045) <<< findExp a b 2045

/-- The float64 nearest to `num / den`, in units of `2^-1074`. -/
def roundRat (num : Int) (den : Nat) : Int :=
  if num < 0 then -(roundPos num.natAbs den : Int) else (roundPos num.natAbs den : Int)

/-- Go's `Duration.Seconds()`: `sec := d / Second; nsec := d % Second;
return float64(sec) + float64(nsec)/1e9`, in units of `2^-1074`. -/
def Seconds (d : Int) : Int :=
  let sec := d.tdiv Second
  let nsec := d.tmod Second
  roundRat (roundRat sec 1 + roundRat (roundRat nsec 1) (1000000000 <<< 1074)) (1 <<< 1074)

/-- The expression `int64(v.Seconds())`: the float64 seconds, truncated toward
zero. -/
def truncSeconds (v : Int) : Int := (Seconds v).tdiv ((1 <<< 1074 : Nat) : Int)

/-- The whole seconds of a duration, truncated toward zero. -/
def wholeSeconds (v : Int) : Int := v.tdiv Second

/-- The first loop of `SplitBalanced`: the entries in input order and the map
`globalDurMap` (a later pair with the same key overwrites the map entry; a key
that is absent reads as 0). -/
def collect : List (String × Int) → List entry × (String → Int) → List entry × (String → Int)
  | [], acc => acc
  | (k, v) :: rest, acc =>
    let sec := truncSeconds v
    collect rest (acc.1 ++ [{ Key := k, Dur := sec }], fun k' => if k' = k then sec else acc.2 k')

/-- The inner loop of `greedyPartition`:
`for i := 1; i < m; i++ { if sums[i] < sums[best] { best = i } }`,
with `k` iterations left. -/
def pickLoop (sums : List Int) : Nat → Nat → Nat → Option Nat
  | _, 0, best => some best
  | i, k + 1, best =>
    (sums[i]?).bind fun si =>
    (sums[best]?).bind fun sb =>
    pickLoop sums (i + 1) k (if si < sb then i else best)

/-- The index `best` chosen by `greedyPartition` for one entry. -/
def pickBest (sums : List Int) (m : Nat) : Option Nat :=
  pickLoop sums 1 (m - 1) 0

/-- One pass of the outer loop body of `greedyPartition`. -/
def greedyStep (m : Nat) (st : List Chunk × List Int) (e : entry) :
    Option (List Chunk × List Int) :=
  (pickBest st.2 m).bind fun best =>
  (st.1[best]?).bind fun c =>
  (st.2[best]?).bind fun s =>
  some (st.1.set best
          { Keys := c.Keys ++ [e.Key], Total := wrap64 (wrap64 (s + e.Dur) * Second) },
        st.2.set best (wrap64 (s + e.Dur)))

/-- The outer loop of `greedyPartition` over the shuffled entries. -/
def greedyLoop (m : Nat) : List entry → List Chunk × List Int → Option (List Chunk × List Int)
  | [], st => some st
  | e :: es, st => (greedyStep m st e).bind (greedyLoop m es)

/-- Go's `greedyPartition`. -/
def greedyPartition (rng : Rand) (entries : List entry) (m : Int) : Option (List Chunk) :=
  if m < 0 then none
  else
    (greedyLoop m.toNat (rng.shuffle entries).val
      (List.replicate m.toNat { Keys := [], Total := 0 }, List.replicate m.toNat 0)).map Prod.fst

/-- Go's `copyChunks`. -/
def copyChunks (chunks : List Chunk) : List Chunk :=
  chunks.map fun c => { Keys := c.Keys, Total := c.Total }

/-- The loop of `score`: running minimum and maximum of the totals. -/
def minMax (rest : List Chunk) (mm : Int × Int) : Int × Int :=
  rest.foldl (fun mm c =>
    (if c.Total < mm.1 then c.Total else mm.1, if c.Total > mm.2 then c.Total else mm.2)) mm

/-- Go's `score`, by its value on totals that are whole numbers of seconds:
the largest total minus the smallest one, in whole seconds. -/
def score : List Chunk → Option Int
  | [] => none
  | c0 :: rest =>
    let mm := minMax rest (c0.Total, c0.Total)
    some (wholeSeconds (mm.2 - mm.1))

/-- The first branch of the annealing loop body (move one key from a chunk to
another).  `some none` is the `continue` of the source. -/
def relocate (d : Draw) (next : List Chunk) : Option (Option (List Chunk)) :=
  (Intn next.length d.r1).bind fun fromIdx =>
  (next[fromIdx]?).bind fun cf =>
  if cf.Keys.length = 0 then some none
  else
    (Intn next.length d.r2).bind fun toIdx =>
    if fromIdx = toIdx then some none
    else
      (Intn cf.Keys.length d.r3).bind fun idx =>
      (cf.Keys[idx]?).bind fun val =>
      let next1 := next.set fromIdx
        { cf with Keys := cf.Keys.take idx ++ cf.Keys.drop (idx + 1) }
      (next1[toIdx]?).bind fun ct =>
      some (some (next1.set toIdx { ct with Keys := ct.Keys ++ [val] }))

/-- The second branch of the annealing loop body (exchange one key of a chunk
with one key of another).  `some none` is the `continue` of the source. -/
def swapKeys (d : Draw) (next : List Chunk) : Option (Option (List Chunk)) :=
  (Intn next.length d.r1).bind fun a =>
  (Intn next.length d.r2).bind fun b =>
  if a = b then some none
  else
    (next[a]?).bind fun ca =>
    if ca.Keys.length = 0 then some none
    else
      (next[b]?).bind fun cb =>
      if cb.Keys.length = 0 then some none
      else
        (Intn ca.Keys.length d.r3).bind fun ia =>
        (Intn cb.Keys.length d.r4).bind fun ib =>
        (ca.Keys[ia]?).bind fun ka =>
        (cb.Keys[ib]?).bind fun kb =>
        let next1 := next.set a { ca with Keys := ca.Keys.set ia kb }
        (next1[b]?).bind fun cb1 =>
        some (some (next1.set b { cb1 with Keys := cb1.Keys.set ib ka }))

/-- The loop that recomputes every `Total` from the duration map. -/
def retotal (durMap : String → Int) (chunks : List Chunk) : List Chunk :=
  chunks.map fun c => { c with Total := wrap64 (sum64 (c.Keys.map durMap) * Second) }

/-- The variables of the annealing loop. -/
structure SAState where
  best : List Chunk
  bestScore : Int
  current : List Chunk
  currentScore : Int
deriving DecidableEq, Repr

/-- The acceptance test of the loop body:
`if delta < 0 || rand.Float64() < math.Exp(-delta/t) { current = next; currentScore = nextScore }`. -/
def acceptNext (d : Draw) (st : SAState) (next : List Chunk) (nextScore : Int) : SAState :=
  let delta := nextScore - st.currentScore
  if delta < 0 ∨ d.accept = true then
    { st with current := next, currentScore := nextScore }
  else st

/-- The end of the loop body:
`if currentScore < bestScore { best = copyChunks(current); bestScore = currentScore }`. -/
def recordBest (st : SAState) : SAState :=
  if st.currentScore < st.bestScore then
    { st with best := copyChunks st.current, bestScore := st.currentScore }
  else st

/-- One iteration of the loop of `simulatedAnnealing`. -/
def saIter (durMap : String → Int) (d : Draw) (st : SAState) : Option SAState :=
  let next := copyChunks st.current
  (if d.coin = true then relocate d next else swapKeys d next).bind fun r =>
  match r with
  | none => some st
  | some moved =>
    let next := retotal durMap moved
    (score next).bind fun nextScore =>
    some (recordBest (acceptNext d st next nextScore))

/-- The loop `for i := range iterations`, at iteration `i` with `k` left. -/
def saLoop (durMap : String → Int) (draw : Nat → Draw) : Nat → Nat → SAState → Option SAState
  | _, 0, st => some st
  | i, k + 1, st => (saIter durMap (draw i) st).bind (saLoop durMap draw (i + 1) k)

/-- Go's `simulatedAnnealing`.  The temperatures only enter the acceptance
test, whose result is part of the draw. -/
def simulatedAnnealing (rng : Rand) (chunks : List Chunk) (iterations : Int)
    (tempStart tempEnd : Rat) (durMap : String → Int) : Option (List Chunk) :=
  let best := copyChunks chunks
  (score best).bind fun bestScore =>
  let current := copyChunks chunks
  (saLoop durMap rng.draw 0 iterations.toNat
    { best := best, bestScore := bestScore, current := current, currentScore := bestScore }).map
    fun st => st.best

/-- Go's `SplitBalanced`. -/
def SplitBalanced (rng : Rand) (data : List (String × Int)) (chunkCount : Int) :
    Option (List Chunk) :=
  let acc := collect data ([], fun _ => 0)
  let entries := acc.1
  let globalDurMap := acc.2
  (greedyPartition rng entries chunkCount).bind fun chunks =>
  (simulatedAnnealing rng chunks 50000 1000 (1 / 100) globalDurMap).bind fun chunks =>
  some (retotal globalDurMap chunks)

/-- A concrete random source: the shuffle reverses the entries, and the draws
of iteration `i` are computed from `i`. -/
def sampleRand : Rand where
  shuffle := fun l => ⟨l.reverse, List.reverse_perm l⟩
  draw := fun i => ⟨i % 2 == 0, i, i / 2, i / 3, i / 5, i % 3 == 0⟩

/-- All keys of a partition, chunk after chunk. -/
def allKeys (chunks : List Chunk) : List String :=
  (chunks.map Chunk.Keys).flatten

/-! ## Predicates used in the statements -/

/-- The state of the greedy loop is well formed: `m` chunks, `m` running sums,
and every chunk total is its running sum times `Second` in `int64`. -/
def GInv (m : Nat) (st : List Chunk × List Int) : Prop :=
  st.1.length = m ∧ st.2.length = m ∧
    ∀ (j : Nat) (c : Chunk) (s : Int), st.1[j]? = some c → st.2[j]? = some s →
      c.Total = wrap64 (s * Second)

/-- Every running sum of the greedy loop is the `int64` sum of the mapped
durations of the keys of its chunk. -/
def SumsOf (durMap : String → Int) (st : List Chunk × List Int) : Prop :=
  ∀ (j : Nat) (c : Chunk) (s : Int), st.1[j]? = some c → st.2[j]? = some s →
    s = sum64 (c.Keys.map durMap)

/-- Every running sum of the greedy loop lies between 0 and `B`, and two
running sums differ by at most `W`. -/
def SumsWithin (B W : Int) (st : List Chunk × List Int) : Prop :=
  (∀ (j : Nat) (s : Int), st.2[j]? = some s → 0 ≤ s ∧ s ≤ B) ∧
  ∀ (j k : Nat) (s t : Int), st.2[j]? = some s → st.2[k]? = some t → s - t ≤ W

/-- Every chunk total is the `int64` sum of the mapped durations of its keys,
times `Second` in `int64`. -/
def Retotaled (durMap : String → Int) (chunks : List Chunk) : Prop :=
  ∀ c ∈ chunks, c.Total = wrap64 (sum64 (c.Keys.map durMap) * Second)

/-- Every chunk total is the exact sum of the mapped durations of its keys,
in nanoseconds. -/
def ExactTotals (durMap : String → Int) (chunks : List Chunk) : Prop :=
  ∀ c ∈ chunks, c.Total = (c.Keys.map durMap).sum * Second

/-- The totals of a partition differ by at most `W` seconds. -/
def Spread (W : Int) (chunks : List Chunk) : Prop :=
  ∀ c ∈ chunks, ∀ c' ∈ chunks, c.Total - c'.Total ≤ W * Second

/-- A candidate built from `init` by the loop: same chunk count, same keys,
totals recomputed from the duration map. -/
def Cand (durMap : String → Int) (init c : List Chunk) : Prop :=
  c.length = init.length ∧ (allKeys c).Perm (allKeys init) ∧ Retotaled durMap c

/-- The invariant of the annealing loop started on `init`, whose score is `s0`. -/
structure SAInv (durMap : String → Int) (init : List Chunk) (s0 : Int) (st : SAState) : Prop where
  best_ok : st.best = init ∨ Cand durMap init st.best
  cur_ok : st.current = init ∨ Cand durMap init st.current
  scoreB : score st.best = some st.bestScore
  scoreC : score st.current = some st.currentScore
  le0 : st.bestScore ≤ s0

/-- The entry built from one input pair. -/
def toEntry (kv : String × Int) : entry := { Key := kv.1, Dur := truncSeconds kv.2 }

/-- The duration the input sequence gives for a key (0 for a key that is absent). -/
def durationOf (data : List (String × Int)) (k : String) : Int :=
  (data.lookup k).getD 0

/-- The candidate that one iteration accepts as `current`, with its score;
`none` when the iteration skips, fails or rejects its candidate. -/
def saAccepted (durMap : String → Int) (d : Draw) (st : SAState) : Option (List Chunk × Int) :=
  match (if d.coin = true then relocate d (copyChunks st.current)
      else swapKeys d (copyChunks st.current)) with
  | some (some moved) =>
    match score (retotal durMap moved) with
    | some nextScore =>
      if nextScore - st.currentScore < 0 ∨ d.accept = true then
        some (retotal durMap moved, nextScore)
      else none
    | none => none
  | _ => none

/-- The candidates accepted as `current` by the loop, in the order of the
iterations, each with its score. -/
def acceptedRun (durMap : String → Int) (draw : Nat → Draw) :
    Nat → Nat → SAState → List (List Chunk × Int)
  | _, 0, _ => []
  | i, k + 1, st =>
    match saIter durMap (draw i) st with
    | none => []
    | some st1 =>
      (saAccepted durMap (draw i) st).toList ++ acceptedRun durMap draw (i + 1) k st1

/-- The candidates accepted as `current` during a call of `simulatedAnnealing`. -/
def acceptedCandidates (rng : Rand) (chunks : List Chunk) (iterations : Int)
    (durMap : String → Int) : List (List Chunk × Int) :=
  match score (copyChunks chunks) with
  | none => []
  | some s0 =>
    acceptedRun durMap rng.draw 0 iterations.toNat
      { best := copyChunks chunks, bestScore := s0, current := copyChunks chunks,
        currentScore := s0 }

/-- The update of `best` seen from a list of accepted candidates: keep the
first one that scores strictly below everything before it. -/
def keepBest (b : List Chunk × Int) (x : List Chunk × Int) : List Chunk × Int :=
  if x.2 < b.2 then x else b

/-- A random source whose shuffle leaves the order alone and whose every
iteration takes the first branch and draws `from = to = 0`, so that every
iteration ends at a `continue`. -/
def idleRand : Rand where
  shuffle := fun l => ⟨l, List.Perm.refl l⟩
  draw := fun _ => ⟨true, 0, 0, 0, 0, false⟩

/-- The input of `TestSplitBalanced_ManyChunks`: keys a..j with 3, 2, 1, 4, 5,
6, 7, 8, 9 and 10 seconds. -/
def manyChunksData : List (String × Int) :=
  [("a", 3000000000), ("b", 2000000000), ("c", 1000000000), ("d", 4000000000),
   ("e", 5000000000), ("f", 6000000000), ("g", 7000000000), ("h", 8000000000),
   ("i", 9000000000), ("j", 10000000000)]

end Durchunk

/-! # Package command

A shallow embedding of `createTestInfos`, `splitTests` and the line sequence
of `generateScriptFiles` in `src/cmd/testsplitter/command/command.go`.  A Go
map is an association list with its entries in iteration order; reading a key
that is absent gives the zero value. -/

namespace Command

open Durchunk

/-- Go's `types.TestInfo`. -/
structure TestInfo where
  Package : String
  Function : String
  Duration : Int
deriving DecidableEq, Repr

/-- Go's `types.NodeTest`. -/
structure NodeTest where
  NodeIndex : Nat
  TotalDuration : Int
  Funcs : List (String × List String)
  Flags : String
deriving DecidableEq, Repr

/-- Go's `types.TestLine`. -/
structure TestLine where
  Package : String
  TestPattern : String
  Flags : String
deriving DecidableEq, Repr

/-- Go's `createTestInfos`: for every package of `testFunctions` and every
function of the package, `key := fmt.Sprintf("%s.%s", pkg, fn)`,
`duration := c.testDurations[key]`, replaced by `5 * time.Second` when it is 0. -/
def createTestInfos (testFunctions : List (String × List String))
    (testDurations : List (String × Int)) : List TestInfo :=
  testFunctions.flatMap fun pf =>
    pf.2.map fun fn =>
      let key := pf.1 ++ "." ++ fn
      let duration := (testDurations.lookup key).getD 0
      { Package := pf.1, Function := fn,
        Duration := if duration = 0 then 5 * Second else duration }

/-- The key that `splitTests` gives to `SplitBalanced`:
`fmt.Sprintf("%s:%s", test.Package, test.Function)`. -/
def testKey (pkg fn : String) : String := pkg ++ ":" ++ fn

/-- The statements `s := strings.Index(key, ":")` and
`pkg, fn := key[:s], key[s+1:]`; without a colon `s` is -1 and the slice fails. -/
def splitKey (key : String) : Option (String × String) :=
  let s := key.data.indexOf ':'
  if s < key.data.length then
    some (String.mk (key.data.take s), String.mk (key.data.drop (s + 1)))
  else none

/-- The statement `nt.Funcs[pkg] = append(nt.Funcs[pkg], fn)`. -/
def appendFunc : List (String × List String) → String → String → List (String × List String)
  | [], pkg, fn => [(pkg, [fn])]
  | (p, fs) :: rest, pkg, fn =>
    if p = pkg then (p, fs ++ [fn]) :: rest else (p, fs) :: appendFunc rest pkg fn

/-- The loop over `chunk.Keys` that fills `nt.Funcs`. -/
def buildFuncs : List String → List (String × List String) →
    Option (List (String × List String))
  | [], funcs => some funcs
  | key :: rest, funcs =>
    (splitKey key).bind fun pf => buildFuncs rest (appendFunc funcs pf.1 pf.2)

/-- The loop `for i, chunk := range chunks` of `splitTests`, from index `i`. -/
def nodeTestsFrom (flags : String) : Nat → List Chunk → Option (List NodeTest)
  | _, [] => some []
  | i, chunk :: rest =>
    (buildFuncs chunk.Keys []).bind fun funcs =>
    (nodeTestsFrom flags (i + 1) rest).map fun nts =>
      { NodeIndex := i, TotalDuration := chunk.Total, Funcs := funcs, Flags := flags } :: nts

/-- Go's `splitTests`: the node tests that `c.nodeTests` yields. -/
def splitTests (rng : Rand) (Nodes : Int) (TestFlags : List String)
    (testInfos : List TestInfo) : Option (List NodeTest) :=
  let dataSeq := testInfos.map fun test => (testKey test.Package test.Function, test.Duration)
  (SplitBalanced rng dataSeq Nodes).bind fun chunks =>
  nodeTestsFrom (" ".intercalate TestFlags) 0 chunks

/-- The loop of Go's `slices.Chunk(s, n)` (standard library) on the rest of
the slice: `for i := 0; i < len(s); i += n`, yielding `s[i:i+min(n, len(s[i:]))]`;
the first argument bounds the number of passes. -/
def chunkLoop (n : Nat) : Nat → List String → List (List String)
  | 0, _ => []
  | fuel + 1, s => if s.length = 0 then [] else s.take n :: chunkLoop n fuel (s.drop n)

/-- Go's `slices.Chunk(s, n)`, which fails for `n < 1`. -/
def slicesChunk (s : List String) (n : Int) : Option (List (List String)) :=
  if n < 1 then none else some (chunkLoop n.toNat s.length s)

/-- The test lines that `linesSeq` yields for one package of a node. -/
def packageLines (MaxFunctions : Int) (pkg : String) (funcs : List String) (flags : String) :
    Option (List TestLine) :=
  if MaxFunctions > 0 then
    (slicesChunk funcs MaxFunctions).map fun groups =>
      groups.map fun g =>
        { Package := pkg, TestPattern := "^(" ++ "|".intercalate g ++ ")$", Flags := flags }
  else
    some [{ Package := pkg, TestPattern := "^(" ++ "|".intercalate funcs ++ ")$",
            Flags := flags }]

/-- The sequence `linesSeq` of `generateScriptFiles` for the packages of a node. -/
def linesSeq (MaxFunctions : Int) (flags : String) :
    List (String × List String) → Option (List TestLine)
  | [] => some []
  | (pkg, funcs) :: rest =>
    (packageLines MaxFunctions pkg funcs flags).bind fun ls =>
    (linesSeq MaxFunctions flags rest).map fun more => ls ++ more

/-- The (package, function) pairs held by a `Funcs` map. -/
def funcPairs (funcs : List (String × List String)) : List (String × String) :=
  funcs.flatMap fun pf => pf.2.map fun fn => (pf.1, fn)

/-- The test infos of `TestSplitTests_FunctionLevel`. -/
def sampleTestInfos : List TestInfo :=
  [{ Package := "pkg1", Function := "TestA", Duration := 10000000000 },
   { Package := "pkg1", Function := "TestB", Duration := 5000000000 },
   { Package := "pkg2", Function := "TestC", Duration := 15000000000 },
   { Package := "pkg2", Function := "TestD", Duration := 7000000000 }]

end Command

/-! # Package scanner

A shallow embedding of `ScanTestFunctions` in
`src/internal/scanner/functions.go`.  The file system and `go/parser` are a
parameter `parseDir`: for a package directory it gives the names of the
function declarations that `ast.Inspect` visits in the `_test.go` files, in
visiting order, or `none` when the directory is missing or fails to parse.
`unicode.IsUpper` is the parameter `isUpper`. -/

namespace Scanner

/-- Go's `token.IsExported`: the first character of the name is upper case. -/
def IsExported (isUpper : Char → Bool) (name : String) : Bool :=
  match name.data with
  | [] => false
  | c :: _ => isUpper c

/-- The condition of `ScanTestFunctions` on the name of a function declaration. -/
def isTestName (isUpper : Char → Bool) (name : String) : Bool :=
  IsExported isUpper name && "Test".data.isPrefixOf name.data && name != "Test" &&
    name != "TestMain"

/-- The assignment `funcs[pkg] = functions` on a Go map. -/
def mapSet : List (String × List String) → String → List String → List (String × List String)
  | [], k, v => [(k, v)]
  | (k0, v0) :: rest, k, v => if k0 = k then (k, v) :: rest else (k0, v0) :: mapSet rest k v

/-- Go's `ScanTestFunctions`: the loop over `packages`, from the map built so
far. -/
def scanLoop (isUpper : Char → Bool) (parseDir : String → Option (List String)) :
    List String → List (String × List String) → List (String × List String)
  | [], funcs => funcs
  | pkg :: rest, funcs =>
    match parseDir pkg with
    | none => scanLoop isUpper parseDir rest funcs
    | some decls =>
      let functions := decls.filter (isTestName isUpper)
      if functions.length > 0 then scanLoop isUpper parseDir rest (mapSet funcs pkg functions)
      else scanLoop isUpper parseDir rest funcs

/-- Go's `ScanTestFunctions`. -/
def ScanTestFunctions (isUpper : Char → Bool) (parseDir : String → Option (List String))
    (packages : List String) : List (String × List String) :=
  scanLoop isUpper parseDir packages []

/-- The entry that the result must hold for a package: its test function
names, or no entry when the package was skipped or has no test function. -/
def expectedEntry (isUpper : Char → Bool) (parseDir : String → Option (List String))
    (pkg : String) : Option (List String) :=
  match parseDir pkg with
  | none => none
  | some decls =>
    if decls.filter (isTestName isUpper) = [] then none
    else some (decls.filter (isTestName isUpper))

/-- A parse result in the shape of the file of `TestParseTestFunctions`, with
the two reserved names added. -/
def sampleParseDir (pkg : String) : Option (List String) :=
  if pkg = "example" then
    some ["TestExample", "TestAnother", "BenchmarkExample", "helperFunction", "TestMain",
      "Test"]
  else if pkg = "plain" then some ["helper"]
  else none

end Scanner

namespace Durchunk

/-! ## Basic facts -/

theorem copyChunks_eq (chunks : List Chunk) : copyChunks chunks = chunks := by
  unfold copyChunks
  induction chunks with
  | nil => rfl
  | cons c cs ih => simp [ih]

theorem Second_pos : (0 : Int) < Second := by decide

theorem wholeSeconds_mul (n : Int) : wholeSeconds (n * Second) = n := by
  unfold wholeSeconds
  exact Int.mul_tdiv_cancel n (by decide)

/-! ## int64 arithmetic -/

theorem wrap64_of_range {x : Int} (h1 : -9223372036854775808 ≤ x)
    (h2 : x < 9223372036854775808) : wrap64 x = x := by
  unfold wrap64
  omega

theorem wrap64_zero : wrap64 0 = 0 := by decide

theorem sum64_nil : sum64 [] = 0 := rfl

theorem sum64_append_singleton (l : List Int) (x : Int) :
    sum64 (l ++ [x]) = wrap64 (sum64 l + x) := by
  unfold sum64
  rw [List.foldl_append]
  rfl

theorem foldl_wrap_exact (l : List Int) :
    ∀ acc : Int, (acc.natAbs + (l.map Int.natAbs).sum : Nat) < 9223372036854775808 →
      l.foldl (fun acc x => wrap64 (acc + x)) acc = acc + l.sum := by
  induction l with
  | nil => intro acc _; simp
  | cons x xs ih =>
    intro acc h
    simp only [List.map_cons, List.sum_cons] at h
    have hw : wrap64 (acc + x) = acc + x := wrap64_of_range (by omega) (by omega)
    simp only [List.foldl_cons, List.sum_cons, hw]
    rw [ih (acc + x) (by omega)]
    omega

/-- While the absolute values sum to less than `2^63` the `int64` sum is the
exact sum. -/
theorem sum64_exact (l : List Int) (h : (l.map Int.natAbs).sum < 9223372036854775808) :
    sum64 l = l.sum := by
  have := foldl_wrap_exact l 0 (by simpa using h)
  unfold sum64
  rw [this]
  omega

theorem natAbs_sum_le (l : List Int) : l.sum.natAbs ≤ (l.map Int.natAbs).sum := by
  induction l with
  | nil => simp
  | cons x xs ih =>
    simp only [List.sum_cons, List.map_cons]
    omega

/-! ## float64 rounding -/

theorem rneDiv_ge (a b t : Nat) (hb : 0 < b) (h : t * b ≤ a) : t ≤ rneDiv a b := by
  have h1 : t ≤ a / b := (Nat.le_div_iff_mul_le hb).mpr h
  unfold rneDiv
  split
  · exact h1
  · split
    · omega
    · split <;> omega

theorem rneDiv_le (a b t : Nat) (hb : 0 < b) (h : a ≤ t * b) : rneDiv a b ≤ t := by
  have hdm := Nat.div_add_mod a b
  have hmod : a % b < b := Nat.mod_lt a hb
  by_cases hr : a % b = 0
  · have h1 : a / b ≤ t := by
      have : b * (a / b) ≤ t * b := by omega
      rw [Nat.mul_comm] at this
      exact Nat.le_of_mul_le_mul_right this hb
    unfold rneDiv
    rw [if_pos (by omega)]
    exact h1
  · have h1 : a / b < t := by
      by_contra hcon
      have hle : t ≤ a / b := by omega
      have : t * b ≤ (a / b) * b := Nat.mul_le_mul_right b hle
      rw [Nat.mul_comm (a / b) b] at this
      omega
    unfold rneDiv
    split
    · omega
    · split
      · omega
      · split <;> omega

theorem findExp_le (a b J : Nat) (h : a * 2 ^ 1022 < 2 ^ (J + 1) * b) :
    ∀ n, findExp a b n ≤ J := by
  intro n
  induction n with
  | zero => simp [findExp]
  | succ n ih =>
    unfold findExp
    split
    · next ht =>
      rw [Nat.shiftLeft_eq, Nat.shiftLeft_eq] at ht
      by_contra hcon
      have hJ : J + 1 ≤ n + 1 := by omega
      have hp : 2 ^ (J + 1) ≤ 2 ^ (n + 1) := Nat.pow_le_pow_right (by decide) hJ
      have : 2 ^ (J + 1) * b ≤ b * 2 ^ (n + 1) := by
        rw [Nat.mul_comm b]
        exact Nat.mul_le_mul_right b hp
      omega
    · exact ih

theorem roundPos_ge (a b g J : Nat) (hb : 0 < b) (hJ : a * 2 ^ 1022 < 2 ^ (J + 1) * b)
    (hg : 2 ^ J ∣ g) (h : g * b ≤ a * 2 ^ 1074) : g ≤ roundPos a b := by
  have hi := findExp_le a b J hJ 2045
  obtain ⟨t, rfl⟩ := hg
  obtain ⟨k, hk⟩ : ∃ k, J = findExp a b 2045 + k := ⟨J - findExp a b 2045, by omega⟩
  unfold roundPos
  rw [Nat.shiftLeft_eq, Nat.shiftLeft_eq, Nat.shiftLeft_eq]
  have hpos : 0 < b * 2 ^ findExp a b 2045 := Nat.mul_pos hb (by positivity)
  have key : (2 ^ k * t) ≤ rneDiv (a * 2 ^ 1074) (b * 2 ^ findExp a b 2045) := by
    apply rneDiv_ge _ _ _ hpos
    calc 2 ^ k * t * (b * 2 ^ findExp a b 2045)
        = 2 ^ (findExp a b 2045 + k) * t * b := by rw [Nat.pow_add]; ring
      _ = 2 ^ J * t * b := by rw [← hk]
      _ ≤ a * 2 ^ 1074 := h
  calc 2 ^ J * t = 2 ^ k * t * 2 ^ findExp a b 2045 := by rw [hk, Nat.pow_add]; ring
    _ ≤ _ := Nat.mul_le_mul_right _ key

theorem roundPos_le (a b g J : Nat) (hb : 0 < b) (hJ : a * 2 ^ 1022 < 2 ^ (J + 1) * b)
    (hg : 2 ^ J ∣ g) (h : a * 2 ^ 1074 ≤ g * b) : roundPos a b ≤ g := by
  have hi := findExp_le a b J hJ 2045
  obtain ⟨t, rfl⟩ := hg
  obtain ⟨k, hk⟩ : ∃ k, J = findExp a b 2045 + k := ⟨J - findExp a b 2045, by omega⟩
  unfold roundPos
  rw [Nat.shiftLeft_eq, Nat.shiftLeft_eq, Nat.shiftLeft_eq]
  have hpos : 0 < b * 2 ^ findExp a b 2045 := Nat.mul_pos hb (by positivity)
  have key : rneDiv (a * 2 ^ 1074) (b * 2 ^ findExp a b 2045) ≤ 2 ^ k * t := by
    apply rneDiv_le _ _ _ hpos
    calc a * 2 ^ 1074 ≤ 2 ^ J * t * b := h
      _ = 2 ^ (findExp a b 2045 + k) * t * b := by rw [← hk]
      _ = 2 ^ k * t * (b * 2 ^ findExp a b 2045) := by rw [Nat.pow_add]; ring
  calc _ ≤ 2 ^ k * t * 2 ^ findExp a b 2045 := Nat.mul_le_mul_right _ key
    _ = 2 ^ J * t := by rw [hk, Nat.pow_add]; ring

theorem rneDiv_le_of_lt_mid (a b t : Nat) (hb : 0 < b) (h : 2 * a < (2 * t + 1) * b) :
    rneDiv a b ≤ t := by
  have hdm := Nat.div_add_mod a b
  have hmod : a % b < b := Nat.mod_lt a hb
  have h1 : a / b ≤ t := by
    by_contra hcon
    have hle : t + 1 ≤ a / b := by omega
    have h2 : (t + 1) * b ≤ (a / b) * b := Nat.mul_le_mul_right b hle
    rw [Nat.mul_comm (a / b) b] at h2
    have h3 : (2 * t + 1) * b = 2 * (t * b) + b := by ring
    have h4 : (t + 1) * b = t * b + b := by ring
    omega
  by_cases heq : a / b = t
  · have hr : 2 * (a % b) < b := by
      have h3 : (2 * t + 1) * b = 2 * (b * t) + b := by ring
      rw [heq] at hdm
      omega
    unfold rneDiv
    rw [if_pos hr]
    exact h1
  · unfold rneDiv
    split
    · exact h1
    · split
      · omega
      · split <;> omega

theorem roundPos_le_of_exp (a b g J : Nat) (hb : 0 < b) (hi : findExp a b 2045 ≤ J)
    (hg : 2 ^ J ∣ g) (h : a * 2 ^ 1074 ≤ g * b) : roundPos a b ≤ g := by
  obtain ⟨t, rfl⟩ := hg
  obtain ⟨k, hk⟩ : ∃ k, J = findExp a b 2045 + k := ⟨J - findExp a b 2045, by omega⟩
  unfold roundPos
  rw [Nat.shiftLeft_eq, Nat.shiftLeft_eq, Nat.shiftLeft_eq]
  have hpos : 0 < b * 2 ^ findExp a b 2045 := Nat.mul_pos hb (by positivity)
  have key : rneDiv (a * 2 ^ 1074) (b * 2 ^ findExp a b 2045) ≤ 2 ^ k * t := by
    apply rneDiv_le _ _ _ hpos
    calc a * 2 ^ 1074 ≤ 2 ^ J * t * b := h
      _ = 2 ^ (findExp a b 2045 + k) * t * b := by rw [← hk]
      _ = 2 ^ k * t * (b * 2 ^ findExp a b 2045) := by rw [Nat.pow_add]; ring
  calc _ ≤ 2 ^ k * t * 2 ^ findExp a b 2045 := Nat.mul_le_mul_right _ key
    _ = 2 ^ J * t := by rw [hk, Nat.pow_add]; ring

/-- A value below the middle of the last step before a point `g` of the
coarsest grid of its binade is rounded to at most half a step below `g`. -/
theorem roundPos_le_mid (a b t J : Nat) (hb : 0 < b)
    (hJ : a * 2 ^ 1022 < 2 ^ (J + 1 + 1) * b)
    (h : a * 2 ^ 1074 + 2 ^ J * b < 2 ^ (J + 1) * t * b) :
    roundPos a b + 2 ^ J ≤ 2 ^ (J + 1) * t := by
  have hi := findExp_le a b (J + 1) hJ 2045
  have ht : 1 ≤ t := by
    by_contra hcon
    have : t = 0 := by omega
    subst this
    simp at h
  obtain ⟨s, rfl⟩ : ∃ s, t = s + 1 := ⟨t - 1, by omega⟩
  have e2 : 2 ^ (J + 1) * (s + 1) = 2 ^ J * (2 * s + 1) + 2 ^ J := by
    rw [Nat.pow_succ]; ring
  by_cases he : findExp a b 2045 ≤ J
  · have := roundPos_le_of_exp a b (2 ^ J * (2 * s + 1)) J hb he (Dvd.intro _ rfl) (by
      have e3 : 2 ^ (J + 1) * (s + 1) * b = 2 ^ J * (2 * s + 1) * b + 2 ^ J * b := by
        rw [e2]; ring
      omega)
    omega
  · have hE : findExp a b 2045 = J + 1 := by omega
    unfold roundPos
    rw [Nat.shiftLeft_eq, Nat.shiftLeft_eq, Nat.shiftLeft_eq, hE]
    have hpos : 0 < b * 2 ^ (J + 1) := Nat.mul_pos hb (by positivity)
    have key : rneDiv (a * 2 ^ 1074) (b * 2 ^ (J + 1)) ≤ s := by
      apply rneDiv_le_of_lt_mid _ _ _ hpos
      have e3 : 2 ^ (J + 1) * (s + 1) * b = (2 * s + 1) * (b * 2 ^ J) + 2 ^ J * b := by
        rw [Nat.pow_succ]; ring
      have e4 : (2 * s + 1) * (b * 2 ^ (J + 1)) = 2 * ((2 * s + 1) * (b * 2 ^ J)) := by
        rw [Nat.pow_succ]; ring
      omega
    have := Nat.mul_le_mul_right (2 ^ (J + 1)) key
    have e5 : 2 ^ (J + 1) * (s + 1) = s * 2 ^ (J + 1) + 2 ^ (J + 1) := by ring
    have e6 : 2 ^ J ≤ 2 ^ (J + 1) := Nat.pow_le_pow_right (by decide) (by omega)
    omega

theorem roundPos_zero (b : Nat) (hb : 0 < b) : roundPos 0 b = 0 := by
  have := roundPos_le 0 b 0 0 hb (by rw [Nat.zero_mul]; positivity) (dvd_zero _)
    (by rw [Nat.zero_mul, Nat.zero_mul])
  omega

theorem roundPos_int (n : Nat) (hn : n < 2 ^ 53) : roundPos n 1 = n * 2 ^ 1074 := by
  have hJ : n * 2 ^ 1022 < 2 ^ (1074 + 1) * 1 := by
    have : n * 2 ^ 1022 < 2 ^ 53 * 2 ^ 1022 := Nat.mul_lt_mul_of_pos_right hn (by positivity)
    calc n * 2 ^ 1022 < 2 ^ 53 * 2 ^ 1022 := this
      _ = 2 ^ (1074 + 1) * 1 := by norm_num
  have h1 := roundPos_ge n 1 (n * 2 ^ 1074) 1074 (by decide) hJ (Dvd.intro_left _ rfl)
    (by omega)
  have h2 := roundPos_le n 1 (n * 2 ^ 1074) 1074 (by decide) hJ (Dvd.intro_left _ rfl)
    (by omega)
  omega

theorem roundPos_frac (nsec : Nat) (hn : nsec < 10 ^ 9) :
    roundPos (nsec * 2 ^ 1074) (10 ^ 9 * 2 ^ 1074) ≤ (2 ^ 34 - 17) * 2 ^ 1040 := by
  apply roundPos_le _ _ _ 1021 (by positivity)
  · calc nsec * 2 ^ 1074 * 2 ^ 1022 < 10 ^ 9 * 2 ^ 1074 * 2 ^ 1022 := by
          apply Nat.mul_lt_mul_of_pos_right _ (by positivity)
          exact Nat.mul_lt_mul_of_pos_right hn (by positivity)
      _ = 2 ^ (1021 + 1) * (10 ^ 9 * 2 ^ 1074) := by ring
  · exact ⟨(2 ^ 34 - 17) * 2 ^ 19, by norm_num⟩
  · have h1 : nsec * 2 ^ 34 ≤ (2 ^ 34 - 17) * 10 ^ 9 := by
      have : nsec ≤ 10 ^ 9 - 1 := by omega
      calc nsec * 2 ^ 34 ≤ (10 ^ 9 - 1) * 2 ^ 34 := Nat.mul_le_mul_right _ this
        _ ≤ (2 ^ 34 - 17) * 10 ^ 9 := by norm_num
    calc nsec * 2 ^ 1074 * 2 ^ 1074 = nsec * 2 ^ 34 * (2 ^ 1040 * 2 ^ 1074) := by
          rw [show (2 : Nat) ^ 1074 = 2 ^ 34 * 2 ^ 1040 by norm_num]; ring
      _ ≤ (2 ^ 34 - 17) * 10 ^ 9 * (2 ^ 1040 * 2 ^ 1074) := Nat.mul_le_mul_right _ h1
      _ = (2 ^ 34 - 17) * 2 ^ 1040 * (10 ^ 9 * 2 ^ 1074) := by ring

theorem roundPos_sum (sec q : Nat) (hs : sec + 1 ≤ 2 ^ 24) (hq : q ≤ (2 ^ 34 - 17) * 2 ^ 1040) :
    sec * 2 ^ 1074 ≤ roundPos (sec * 2 ^ 1074 + q) (2 ^ 1074) ∧
    roundPos (sec * 2 ^ 1074 + q) (2 ^ 1074) < (sec + 1) * 2 ^ 1074 := by
  have e74 : (2 : Nat) ^ 1074 = 2 ^ 29 * 2 ^ 1045 := by norm_num
  have hq2 : q + 2 ^ 1044 < 2 ^ 1074 := by
    have : (2 ^ 34 - 17) * 2 ^ 1040 + 2 ^ 1044 < 2 ^ 1074 := by norm_num
    omega
  have h3 : (sec + 1) * 2 ^ 1074 = sec * 2 ^ 1074 + 2 ^ 1074 := by ring
  have hlt : sec * 2 ^ 1074 + q < 2 ^ 24 * 2 ^ 1074 := by
    have h1 : (sec + 1) * 2 ^ 1074 ≤ 2 ^ 24 * 2 ^ 1074 := Nat.mul_le_mul_right _ hs
    omega
  have hJ : (sec * 2 ^ 1074 + q) * 2 ^ 1022 < 2 ^ (1044 + 1 + 1) * 2 ^ 1074 := by
    calc (sec * 2 ^ 1074 + q) * 2 ^ 1022 < 2 ^ 24 * 2 ^ 1074 * 2 ^ 1022 :=
          Nat.mul_lt_mul_of_pos_right hlt (by positivity)
      _ = 2 ^ (1044 + 1 + 1) * 2 ^ 1074 := by norm_num
  have hJ1 : (sec * 2 ^ 1074 + q) * 2 ^ 1022 < 2 ^ (1045 + 1) * 2 ^ 1074 := by
    calc (sec * 2 ^ 1074 + q) * 2 ^ 1022 < 2 ^ 24 * 2 ^ 1074 * 2 ^ 1022 :=
          Nat.mul_lt_mul_of_pos_right hlt (by positivity)
      _ = 2 ^ (1045 + 1) * 2 ^ 1074 := by norm_num
  constructor
  · apply roundPos_ge _ _ _ 1045 (by positivity) hJ1
    · exact ⟨sec * 2 ^ 29, by rw [e74]; ring⟩
    · exact Nat.mul_le_mul_right _ (by omega)
  · have hmid := roundPos_le_mid (sec * 2 ^ 1074 + q) (2 ^ 1074) ((sec + 1) * 2 ^ 29) 1044
      (by positivity) hJ (by
        have e1 : 2 ^ (1044 + 1) * ((sec + 1) * 2 ^ 29) * 2 ^ 1074 =
            (sec + 1) * 2 ^ 1074 * 2 ^ 1074 := by rw [e74]; ring
        have e2 : (sec * 2 ^ 1074 + q) * 2 ^ 1074 + 2 ^ 1044 * 2 ^ 1074 =
            (sec * 2 ^ 1074 + q + 2 ^ 1044) * 2 ^ 1074 := by ring
        rw [e1, e2]
        exact Nat.mul_lt_mul_of_pos_right (by omega) (by positivity))
    have e3 : 2 ^ (1044 + 1) * ((sec + 1) * 2 ^ 29) = (sec + 1) * 2 ^ 1074 := by rw [e74]; ring
    have hp : 0 < 2 ^ 1044 := by positivity
    omega

theorem roundRat_natCast (m den : Nat) : roundRat (m : Int) den = (roundPos m den : Int) := by
  unfold roundRat
  rw [if_neg (by omega), Int.natAbs_ofNat]

/-- The float64 seconds of a non-negative duration below 2^24 seconds, then
converted to int64, are the whole seconds of the duration. -/
theorem truncSeconds_natCast (d : Nat) (hd : d / 10 ^ 9 + 1 ≤ 2 ^ 24) :
    truncSeconds (d : Int) = ((d / 10 ^ 9 : Nat) : Int) := by
  have hsec : ((d : Int)).tdiv Second = ((d / 10 ^ 9 : Nat) : Int) := by
    rw [Int.ofNat_tdiv]; rfl
  have hnsec : ((d : Int)).tmod Second = ((d % 10 ^ 9 : Nat) : Int) := by
    rw [Int.ofNat_tmod]; rfl
  have hn : d % 10 ^ 9 < 10 ^ 9 := Nat.mod_lt _ (by norm_num)
  have hA := roundPos_int (d / 10 ^ 9) (by
    have : (2 : Nat) ^ 24 ≤ 2 ^ 53 := by norm_num
    omega)
  have hB := roundPos_int (d % 10 ^ 9) (by
    have : (10 : Nat) ^ 9 ≤ 2 ^ 53 := by norm_num
    omega)
  have hQ := roundPos_frac (d % 10 ^ 9) hn
  have hR := roundPos_sum (d / 10 ^ 9) _ hd hQ
  unfold truncSeconds Seconds
  simp only [hsec, hnsec, roundRat_natCast, hA, hB, Nat.shiftLeft_eq, Nat.one_mul]
  rw [show (1000000000 : Nat) = 10 ^ 9 by norm_num]
  rw [← Int.natCast_add, roundRat_natCast, ← Int.ofNat_tdiv]
  have hdiv : roundPos (d / 10 ^ 9 * 2 ^ 1074 +
      roundPos (d % 10 ^ 9 * 2 ^ 1074) (10 ^ 9 * 2 ^ 1074)) (2 ^ 1074) / 2 ^ 1074 =
      d / 10 ^ 9 := by
    apply Nat.div_eq_of_lt_le
    · exact hR.1
    · exact hR.2
  rw [hdiv]

theorem truncSeconds_whole_natCast (n : Nat) (hn : n < 2 ^ 53) :
    truncSeconds ((n * 10 ^ 9 : Nat) : Int) = (n : Int) := by
  have hsec : (((n * 10 ^ 9 : Nat) : Int)).tdiv Second = (n : Int) := by
    rw [show Second = ((10 ^ 9 : Nat) : Int) by rfl, ← Int.ofNat_tdiv,
      Nat.mul_div_cancel _ (by norm_num)]
  have hnsec : (((n * 10 ^ 9 : Nat) : Int)).tmod Second = ((0 : Nat) : Int) := by
    rw [show Second = ((10 ^ 9 : Nat) : Int) by rfl, ← Int.ofNat_tmod, Nat.mul_mod_left]
  have hA := roundPos_int n hn
  have hJ : n * 2 ^ 1074 * 2 ^ 1022 < 2 ^ (1074 + 1) * 2 ^ 1074 := by
    calc n * 2 ^ 1074 * 2 ^ 1022 < 2 ^ 53 * 2 ^ 1074 * 2 ^ 1022 := by
          apply Nat.mul_lt_mul_of_pos_right _ (by positivity)
          exact Nat.mul_lt_mul_of_pos_right hn (by positivity)
      _ = 2 ^ (1074 + 1) * 2 ^ 1074 := by norm_num
  have h1 := roundPos_ge (n * 2 ^ 1074) (2 ^ 1074) (n * 2 ^ 1074) 1074 (by positivity) hJ
    (Dvd.intro_left _ rfl) (le_refl _)
  have h2 := roundPos_le (n * 2 ^ 1074) (2 ^ 1074) (n * 2 ^ 1074) 1074 (by positivity) hJ
    (Dvd.intro_left _ rfl) (le_refl _)
  have hR : roundPos (n * 2 ^ 1074) (2 ^ 1074) = n * 2 ^ 1074 := Nat.le_antisymm h2 h1
  unfold truncSeconds Seconds
  simp only [hsec, hnsec, roundRat_natCast, hA, Nat.shiftLeft_eq, Nat.one_mul,
    roundPos_zero 1 (by decide), roundPos_zero (1000000000 * 2 ^ 1074) (by positivity)]
  rw [← Int.natCast_add, Nat.add_zero, roundRat_natCast, hR, ← Int.ofNat_tdiv,
    Nat.mul_div_cancel _ (by positivity)]

theorem roundRat_neg (x : Int) (den : Nat) (hd : 0 < den) :
    roundRat (-x) den = -roundRat x den := by
  unfold roundRat
  rcases lt_trichotomy x 0 with h | h | h
  · rw [if_neg (by omega), if_pos h, Int.natAbs_neg, Int.neg_neg]
  · subst h
    simp only [Int.neg_zero, lt_irrefl, if_false, Int.natAbs_zero, roundPos_zero den hd,
      Int.natCast_zero]
  · rw [if_pos (by omega), if_neg (by omega), Int.natAbs_neg]

theorem neg_tmod (a b : Int) : (-a).tmod b = -(a.tmod b) := by
  rw [Int.tmod_def, Int.tmod_def, Int.neg_tdiv]
  ring

theorem truncSeconds_neg (v : Int) : truncSeconds (-v) = -truncSeconds v := by
  unfold truncSeconds Seconds
  simp only [Int.neg_tdiv, neg_tmod, roundRat_neg _ 1 (by decide),
    roundRat_neg _ (1000000000 <<< 1074) (by rw [Nat.shiftLeft_eq]; positivity),
    ← Int.neg_add, roundRat_neg _ (1 <<< 1074) (by rw [Nat.shiftLeft_eq]; positivity)]

/-- For a duration of less than 2^24 seconds in absolute value the expression
`int64(v.Seconds())` is the number of whole seconds, truncated toward zero. -/
theorem truncSeconds_eq_tdiv (v : Int) (h : v.natAbs < 16777216 * 10 ^ 9) :
    truncSeconds v = v.tdiv Second := by
  have key : ∀ d : Nat, d < 16777216 * 10 ^ 9 →
      truncSeconds (d : Int) = (d : Int).tdiv Second := by
    intro d hd
    have h1 : d / 10 ^ 9 < 16777216 := (Nat.div_lt_iff_lt_mul (by norm_num)).mpr hd
    rw [truncSeconds_natCast d (by
      have : (2 : Nat) ^ 24 = 16777216 := by norm_num
      omega), Int.ofNat_tdiv]
    rfl
  rcases Int.natAbs_eq v with hv | hv
  · rw [hv]
    exact key _ h
  · rw [hv, truncSeconds_neg, Int.neg_tdiv, key _ h]

/-- For a whole number of seconds the expression `int64(v.Seconds())` is that
number, whatever its size within int64. -/
theorem truncSeconds_whole (n : Int) (h : n.natAbs < 2 ^ 53) :
    truncSeconds (n * Second) = n := by
  have key : ∀ m : Nat, m < 2 ^ 53 → truncSeconds ((m : Int) * Second) = (m : Int) := by
    intro m hm
    have := truncSeconds_whole_natCast m hm
    rw [Int.natCast_mul] at this
    exact this
  rcases Int.natAbs_eq n with hn | hn
  · rw [hn]
    exact key _ h
  · rw [hn, Int.neg_mul, truncSeconds_neg, key _ h]

theorem Intn_some {n : Nat} (h : 0 < n) (r : Nat) : ∃ v, Intn n r = some v ∧ v < n := by
  refine ⟨r % n, ?_, Nat.mod_lt r h⟩
  simp [Intn, Nat.pos_iff_ne_zero.mp h]

/-! ## score -/

theorem minMax_spec (rest : List Chunk) :
    ∀ (mm : Int × Int) (seen : List Chunk),
      (∀ c ∈ seen, mm.1 ≤ c.Total ∧ c.Total ≤ mm.2) →
      (∃ c ∈ seen, c.Total = mm.1) → (∃ c ∈ seen, c.Total = mm.2) →
      (∀ c ∈ seen ++ rest, (minMax rest mm).1 ≤ c.Total ∧ c.Total ≤ (minMax rest mm).2) ∧
      (∃ c ∈ seen ++ rest, c.Total = (minMax rest mm).1) ∧
      (∃ c ∈ seen ++ rest, c.Total = (minMax rest mm).2) := by
  induction rest with
  | nil =>
    intro mm seen h1 h2 h3
    simpa [minMax] using ⟨h1, h2, h3⟩
  | cons c cs ih =>
    intro mm seen h1 h2 h3
    have key := ih (if c.Total < mm.1 then c.Total else mm.1,
        if c.Total > mm.2 then c.Total else mm.2) (seen ++ [c]) ?_ ?_ ?_
    · simpa [minMax] using key
    · intro x hx
      rcases List.mem_append.mp hx with hx | hx
      · have := h1 x hx
        constructor <;> dsimp only <;> split <;> omega
      · simp at hx
        subst hx
        constructor <;> dsimp only <;> split <;> omega
    · dsimp only
      split
      · exact ⟨c, by simp, rfl⟩
      · obtain ⟨x, hx, hxe⟩ := h2
        exact ⟨x, by simp [hx], hxe⟩
    · dsimp only
      split
      · exact ⟨c, by simp, rfl⟩
      · obtain ⟨x, hx, hxe⟩ := h3
        exact ⟨x, by simp [hx], hxe⟩

/-- The value of `score` on a non-empty list: the truncated seconds of the
largest total minus the smallest total. -/
theorem score_spec (chunks : List Chunk) (h : chunks ≠ []) :
    ∃ cmin ∈ chunks, ∃ cmax ∈ chunks,
      (∀ c ∈ chunks, cmin.Total ≤ c.Total ∧ c.Total ≤ cmax.Total) ∧
      score chunks = some (wholeSeconds (cmax.Total - cmin.Total)) := by
  cases chunks with
  | nil => exact absurd rfl h
  | cons c0 rest =>
    obtain ⟨hb, ⟨cmin, hmin, emin⟩, ⟨cmax, hmax, emax⟩⟩ :=
      minMax_spec rest (c0.Total, c0.Total) [c0] (by simp) ⟨c0, by simp, rfl⟩ ⟨c0, by simp, rfl⟩
    refine ⟨cmin, by simpa using hmin, cmax, by simpa using hmax, ?_, ?_⟩
    · intro c hc
      rw [emin, emax]
      exact hb c (by simpa using hc)
    · simp [score, emin, emax]

theorem score_isSome (chunks : List Chunk) (h : chunks ≠ []) : (score chunks).isSome = true := by
  obtain ⟨_, _, _, _, _, e⟩ := score_spec chunks h
  simp [e]

theorem score_nil : score [] = none := rfl

theorem ne_nil_of_score {c : List Chunk} {s : Int} (h : score c = some s) : c ≠ [] := by
  intro hcon
  rw [hcon] at h
  cases h

/-! ## greedyPartition -/

theorem pickLoop_spec (sums : List Int) :
    ∀ (k i best : Nat) (sb0 : Int), i + k = sums.length → best < i →
      sums[best]? = some sb0 →
      (∀ j sj, j < i → sums[j]? = some sj → sb0 ≤ sj ∧ (j < best → sb0 < sj)) →
      ∃ b sb, pickLoop sums i k best = some b ∧ sums[b]? = some sb ∧
        ∀ j sj, sums[j]? = some sj → sb ≤ sj ∧ (j < b → sb < sj) := by
  intro k
  induction k with
  | zero =>
    intro i best sb0 hlen hlt hb hmin
    refine ⟨best, sb0, rfl, hb, ?_⟩
    intro j sj hj
    have hjl : j < sums.length := by
      by_contra hcon
      rw [List.getElem?_eq_none (by omega)] at hj
      cases hj
    exact hmin j sj (by omega) hj
  | succ k ih =>
    intro i best sb0 hlen hlt hb hmin
    have hi : i < sums.length := by omega
    have hsi : sums[i]? = some sums[i] := List.getElem?_eq_getElem hi
    simp only [pickLoop, hsi, hb, Option.some_bind]
    by_cases hcmp : sums[i] < sb0
    · rw [if_pos hcmp]
      refine ih (i + 1) i sums[i] (by omega) (by omega) hsi ?_
      intro j sj hj hjs
      by_cases hji : j = i
      · subst hji
        rw [hsi] at hjs
        cases hjs
        exact ⟨le_refl _, fun h => absurd h (lt_irrefl _)⟩
      · have := hmin j sj (by omega) hjs
        exact ⟨by omega, fun _ => by omega⟩
    · rw [if_neg hcmp]
      refine ih (i + 1) best sb0 (by omega) (by omega) hb ?_
      intro j sj hj hjs
      by_cases hji : j = i
      · subst hji
        rw [hsi] at hjs
        cases hjs
        exact ⟨by omega, fun h => by omega⟩
      · exact hmin j sj (by omega) hjs

theorem pickBest_spec (sums : List Int) (m : Nat) (hm : 1 ≤ m) (hl : sums.length = m) :
    ∃ b sb, pickBest sums m = some b ∧ sums[b]? = some sb ∧
      ∀ j sj, sums[j]? = some sj → sb ≤ sj ∧ (j < b → sb < sj) := by
  have h0 : 0 < sums.length := by omega
  have hs0 : sums[0]? = some sums[0] := List.getElem?_eq_getElem h0
  refine pickLoop_spec sums (m - 1) 1 0 sums[0] (by omega) (by omega) hs0 ?_
  intro j sj hj hjs
  have : j = 0 := by omega
  subst this
  rw [hs0] at hjs
  cases hjs
  exact ⟨le_refl _, fun h => absurd h (lt_irrefl _)⟩

theorem getElem?_lt_of_some {α : Type} {l : List α} {i : Nat} {a : α} (h : l[i]? = some a) :
    i < l.length := by
  by_contra hcon
  rw [List.getElem?_eq_none (by omega)] at h
  cases h

theorem GInv_init (m : Nat) :
    GInv m (List.replicate m { Keys := [], Total := 0 }, List.replicate m 0) := by
  refine ⟨by simp, by simp, ?_⟩
  intro j c s hc hs
  have hj : j < m := by simpa using getElem?_lt_of_some hc
  simp only [List.getElem?_replicate, hj, if_true, Option.some.injEq] at hc hs
  subst hc hs
  rw [Int.zero_mul, wrap64_zero]

/-- One pass of the greedy loop on a well-formed state: the chosen chunk has
the smallest running sum, no chunk before it has the same running sum, and
only that chunk and its running sum change. -/
theorem greedyStep_spec (m : Nat) (hm : 1 ≤ m) (st : List Chunk × List Int) (hinv : GInv m st)
    (e : entry) :
    ∃ b c s, st.1[b]? = some c ∧ st.2[b]? = some s ∧ c.Total = wrap64 (s * Second) ∧
      (∀ j sj, st.2[j]? = some sj → s ≤ sj ∧ (j < b → s < sj)) ∧
      greedyStep m st e =
        some (st.1.set b
                { Keys := c.Keys ++ [e.Key], Total := wrap64 (wrap64 (s + e.Dur) * Second) },
              st.2.set b (wrap64 (s + e.Dur))) := by
  obtain ⟨h1, h2, h3⟩ := hinv
  obtain ⟨b, sb, hpick, hsb, hmin⟩ := pickBest_spec st.2 m hm h2
  have hb : b < m := h2 ▸ getElem?_lt_of_some hsb
  have hcb : st.1[b]? = some st.1[b] := List.getElem?_eq_getElem (by omega)
  have htot := h3 b _ sb hcb hsb
  refine ⟨b, st.1[b], sb, hcb, hsb, htot, hmin, ?_⟩
  simp only [greedyStep, hpick, hcb, hsb, Option.some_bind]

theorem greedyStep_GInv (m : Nat) (hm : 1 ≤ m) (st st' : List Chunk × List Int)
    (hinv : GInv m st) (e : entry) (h : greedyStep m st e = some st') : GInv m st' := by
  obtain ⟨b, c, s, hc, hs, htot, _, hstep⟩ := greedyStep_spec m hm st hinv e
  rw [hstep] at h
  cases h
  obtain ⟨h1, h2, h3⟩ := hinv
  refine ⟨by simp [h1], by simp [h2], ?_⟩
  intro j cj sj hcj hsj
  simp only [List.getElem?_set] at hcj hsj
  by_cases hbj : b = j
  · have hb1 := getElem?_lt_of_some hc
    have hb2 := getElem?_lt_of_some hs
    simp only [hbj, if_true] at hcj hsj
    rw [if_pos (hbj ▸ hb1)] at hcj
    rw [if_pos (hbj ▸ hb2)] at hsj
    cases hcj
    cases hsj
    rfl
  · simp only [hbj, if_false] at hcj hsj
    exact h3 j cj sj hcj hsj

theorem greedyLoop_append (m : Nat) (es fs : List entry) :
    ∀ st, greedyLoop m (es ++ fs) st = (greedyLoop m es st).bind (greedyLoop m fs) := by
  induction es with
  | nil => intro st; simp [greedyLoop]
  | cons e es ih =>
    intro st
    simp only [List.cons_append, greedyLoop]
    cases greedyStep m st e with
    | none => simp
    | some st1 => simp [ih]

/-- On a well-formed state with at least one chunk the greedy loop runs to the
end, and the final state is well formed. -/
theorem greedyLoop_some (m : Nat) (hm : 1 ≤ m) (es : List entry) :
    ∀ st, GInv m st → ∃ st', greedyLoop m es st = some st' ∧ GInv m st' := by
  induction es with
  | nil => intro st h; exact ⟨st, rfl, h⟩
  | cons e es ih =>
    intro st h
    obtain ⟨b, c, s, _, _, _, _, hstep⟩ := greedyStep_spec m hm st h e
    have h1 := greedyStep_GInv m hm st _ h e hstep
    obtain ⟨st', hl, hi⟩ := ih _ h1
    exact ⟨st', by simp [greedyLoop, hstep, hl], hi⟩

theorem greedyLoop_inv (m : Nat) (hm : 1 ≤ m) (P : List Chunk × List Int → Prop)
    (es : List entry) :
    (∀ st e st', e ∈ es → GInv m st → P st → greedyStep m st e = some st' → P st') →
    ∀ st st', GInv m st → P st → greedyLoop m es st = some st' → P st' := by
  induction es with
  | nil =>
    intro _ st st' _ hp h
    simp only [greedyLoop, Option.some.injEq] at h
    exact h ▸ hp
  | cons e es ih =>
    intro hstep st st' hinv hp h
    obtain ⟨b, c, s, _, _, _, _, hs⟩ := greedyStep_spec m hm st hinv e
    simp only [greedyLoop, hs, Option.some_bind] at h
    refine ih (fun st e' st' he' => hstep st e' st' (List.mem_cons_of_mem _ he')) _ st'
      (greedyStep_GInv m hm st _ hinv e hs) (hstep st e _ (List.mem_cons_self _ _) hinv hp hs) h

/-! ## Counting keys and totals over a partition -/

theorem sum_map_set {M : Type} [AddCommMonoid M] (f : Chunk → M) :
    ∀ (l : List Chunk) (i : Nat) (c c' : Chunk), l[i]? = some c →
      ((l.set i c').map f).sum + f c = (l.map f).sum + f c' := by
  intro l
  induction l with
  | nil => intro i c c' h; simp at h
  | cons x xs ih =>
    intro i c c' h
    cases i with
    | zero =>
      simp only [List.getElem?_cons_zero, Option.some.injEq] at h
      subst h
      simp only [List.set_cons_zero, List.map_cons, List.sum_cons]
      abel
    | succ i =>
      simp only [List.getElem?_cons_succ] at h
      simp only [List.set_cons_succ, List.map_cons, List.sum_cons, add_assoc, ih i c c' h]

theorem count_allKeys (k : String) (l : List Chunk) :
    (allKeys l).count k = (l.map fun c => c.Keys.count k).sum := by
  unfold allKeys
  rw [List.count_flatten, List.map_map]
  rfl

theorem length_allKeys (l : List Chunk) :
    (allKeys l).length = (l.map fun c => c.Keys.length).sum := by
  unfold allKeys
  rw [List.length_flatten, List.map_map]
  rfl

theorem mem_set_cases {l : List Chunk} {i : Nat} {c x : Chunk} (h : x ∈ l.set i c) :
    x = c ∨ x ∈ l := by
  rcases List.mem_or_eq_of_mem_set h with h | h
  · exact Or.inr h
  · exact Or.inl h

theorem retotal_eq_of_Retotaled (durMap : String → Int) (chunks : List Chunk)
    (h : Retotaled durMap chunks) : retotal durMap chunks = chunks := by
  unfold retotal
  induction chunks with
  | nil => rfl
  | cons c cs ih =>
    have hc := h c (List.mem_cons_self _ _)
    have hcs : Retotaled durMap cs := fun x hx => h x (List.mem_cons_of_mem _ hx)
    simp only [List.map_cons, ih hcs, ← hc]

theorem Retotaled_retotal (durMap : String → Int) (chunks : List Chunk) :
    Retotaled durMap (retotal durMap chunks) := by
  intro c hc
  simp only [retotal, List.mem_map] at hc
  obtain ⟨x, _, rfl⟩ := hc
  rfl

theorem length_retotal (durMap : String → Int) (chunks : List Chunk) :
    (retotal durMap chunks).length = chunks.length := by
  simp [retotal]

theorem allKeys_retotal (durMap : String → Int) (chunks : List Chunk) :
    allKeys (retotal durMap chunks) = allKeys chunks := by
  simp [allKeys, retotal, List.map_map, Function.comp_def]

/-! ## Invariants of the greedy loop -/

theorem greedyStep_keys (m : Nat) (hm : 1 ≤ m) (st st' : List Chunk × List Int)
    (hinv : GInv m st) (e : entry) (h : greedyStep m st e = some st') :
    (allKeys st'.1).Perm (allKeys st.1 ++ [e.Key]) := by
  obtain ⟨b, c, s, hc, _, _, _, hstep⟩ := greedyStep_spec m hm st hinv e
  rw [hstep] at h
  cases h
  rw [List.perm_iff_count]
  intro k
  have key := sum_map_set (fun c => c.Keys.count k) st.1 b c
    { Keys := c.Keys ++ [e.Key], Total := wrap64 (wrap64 (s + e.Dur) * Second) } hc
  simp only [List.count_append, count_allKeys] at key ⊢
  omega

theorem greedyLoop_keys (m : Nat) (hm : 1 ≤ m) (es : List entry) :
    ∀ st st', GInv m st → greedyLoop m es st = some st' →
      (allKeys st'.1).Perm (allKeys st.1 ++ es.map entry.Key) := by
  induction es with
  | nil =>
    intro st st' _ h
    simp only [greedyLoop, Option.some.injEq] at h
    subst h
    simp
  | cons e es ih =>
    intro st st' hinv h
    obtain ⟨b, c, s, _, _, _, _, hs⟩ := greedyStep_spec m hm st hinv e
    have hk := greedyStep_keys m hm st _ hinv e hs
    simp only [greedyLoop, hs, Option.some_bind] at h
    have h2 := ih _ st' (greedyStep_GInv m hm st _ hinv e hs) h
    refine h2.trans ?_
    simpa using hk.append_right (es.map entry.Key)

theorem greedyStep_SumsOf (durMap : String → Int) (m : Nat) (hm : 1 ≤ m)
    (st st' : List Chunk × List Int) (hinv : GInv m st) (e : entry)
    (he : durMap e.Key = e.Dur) (hp : SumsOf durMap st)
    (h : greedyStep m st e = some st') : SumsOf durMap st' := by
  obtain ⟨b, c, s, hc, hs, _, _, hstep⟩ := greedyStep_spec m hm st hinv e
  rw [hstep] at h
  cases h
  intro j cj sj hcj hsj
  simp only [List.getElem?_set] at hcj hsj
  by_cases hbj : b = j
  · have hb1 := getElem?_lt_of_some hc
    have hb2 := getElem?_lt_of_some hs
    simp only [hbj, if_true] at hcj hsj
    rw [if_pos (hbj ▸ hb1)] at hcj
    rw [if_pos (hbj ▸ hb2)] at hsj
    cases hcj
    cases hsj
    have e1 := hp b c s hc hs
    simp only [List.map_append, List.map_cons, List.map_nil]
    rw [sum64_append_singleton, he, ← e1]
  · simp only [hbj, if_false] at hcj hsj
    exact hp j cj sj hcj hsj

/-- In a well-formed state whose running sums are those of the keys, every
total is recomputed from the keys. -/
theorem Retotaled_of_SumsOf (durMap : String → Int) (m : Nat) (st : List Chunk × List Int)
    (hinv : GInv m st) (hp : SumsOf durMap st) : Retotaled durMap st.1 := by
  intro c hc
  obtain ⟨j, hj⟩ := List.getElem?_of_mem hc
  have hjl : j < st.2.length := by
    have := getElem?_lt_of_some hj
    rw [hinv.2.1, ← hinv.1]
    exact this
  have hs : st.2[j]? = some st.2[j] := List.getElem?_eq_getElem hjl
  have e1 := hinv.2.2 j c _ hj hs
  have e2 := hp j c _ hj hs
  rw [e1, ← e2]

theorem greedyStep_SumsWithin (B W : Int) (m : Nat) (hm : 1 ≤ m)
    (st st' : List Chunk × List Int) (hinv : GInv m st) (e : entry)
    (he0 : 0 ≤ e.Dur) (heW : e.Dur ≤ W) (hB : B + e.Dur < 9223372036854775808)
    (hp : SumsWithin B W st) (h : greedyStep m st e = some st') :
    SumsWithin (B + e.Dur) W st' := by
  obtain ⟨b, c, s, hc, hs, _, hmin, hstep⟩ := greedyStep_spec m hm st hinv e
  rw [hstep] at h
  cases h
  obtain ⟨hp1, hp2⟩ := hp
  have hsB := hp1 b s hs
  have hw : wrap64 (s + e.Dur) = s + e.Dur := wrap64_of_range (by omega) (by omega)
  have hb2 := getElem?_lt_of_some hs
  have hval : ∀ (j : Nat) (x : Int), (st.2.set b (wrap64 (s + e.Dur)))[j]? = some x →
      (j = b ∧ x = s + e.Dur) ∨ (j ≠ b ∧ st.2[j]? = some x) := by
    intro j x hx
    simp only [List.getElem?_set] at hx
    by_cases hbj : b = j
    · simp only [hbj, if_true] at hx
      rw [if_pos (hbj ▸ hb2)] at hx
      cases hx
      exact Or.inl ⟨hbj.symm, hw⟩
    · simp only [hbj, if_false] at hx
      exact Or.inr ⟨fun h => hbj h.symm, hx⟩
  constructor
  · intro j x hx
    rcases hval j x hx with ⟨_, rfl⟩ | ⟨_, hx⟩
    · omega
    · have := hp1 j x hx
      omega
  · intro j k x y hx hy
    rcases hval j x hx with ⟨_, rfl⟩ | ⟨_, hx⟩ <;> rcases hval k y hy with ⟨_, rfl⟩ | ⟨_, hy⟩
    · omega
    · have := (hmin k y hy).1
      omega
    · have := hp2 j b x s hx hs
      omega
    · exact hp2 j k x y hx hy

theorem greedyLoop_SumsWithin (W : Int) (m : Nat) (hm : 1 ≤ m) (es : List entry) :
    ∀ (B : Int) (st st' : List Chunk × List Int), GInv m st → SumsWithin B W st →
      (∀ e ∈ es, 0 ≤ e.Dur ∧ e.Dur ≤ W) →
      B + (es.map entry.Dur).sum < 9223372036854775808 →
      greedyLoop m es st = some st' → SumsWithin (B + (es.map entry.Dur).sum) W st' := by
  induction es with
  | nil =>
    intro B st st' _ hp _ _ h
    simp only [greedyLoop, Option.some.injEq] at h
    subst h
    simpa using hp
  | cons e es ih =>
    intro B st st' hinv hp hd hB h
    obtain ⟨b, c, s, _, _, _, _, hs⟩ := greedyStep_spec m hm st hinv e
    simp only [greedyLoop, hs, Option.some_bind] at h
    have he := hd e (List.mem_cons_self _ _)
    have hrest : 0 ≤ (es.map entry.Dur).sum := by
      apply List.sum_nonneg
      intro x hx
      obtain ⟨y, hy, rfl⟩ := List.mem_map.mp hx
      exact (hd y (List.mem_cons_of_mem _ hy)).1
    simp only [List.map_cons, List.sum_cons] at hB ⊢
    have h1 := greedyStep_SumsWithin B W m hm st _ hinv e he.1 he.2 (by omega) hp hs
    have h2 := ih (B + e.Dur) _ st' (greedyStep_GInv m hm st _ hinv e hs) h1
      (fun x hx => hd x (List.mem_cons_of_mem _ hx)) (by omega) h
    rw [Int.add_assoc] at h2
    exact h2

/-- While the running sums stay within `B` seconds and `B` seconds fit an
`int64` of nanoseconds, the totals differ by at most `W` seconds. -/
theorem Spread_of_SumsWithin (B W : Int) (m : Nat) (st : List Chunk × List Int)
    (hinv : GInv m st) (hp : SumsWithin B W st) (hB : B * Second < 9223372036854775808) :
    Spread W st.1 := by
  have key : ∀ c ∈ st.1, ∃ (j : Nat) (s : Int), st.2[j]? = some s ∧ c.Total = s * Second := by
    intro c hc
    obtain ⟨j, hj⟩ := List.getElem?_of_mem hc
    have hjl : j < st.2.length := by
      have := getElem?_lt_of_some hj
      rw [hinv.2.1, ← hinv.1]
      exact this
    have hs : st.2[j]? = some st.2[j] := List.getElem?_eq_getElem hjl
    refine ⟨j, _, hs, ?_⟩
    rw [hinv.2.2 j c _ hj hs]
    have hr := hp.1 j _ hs
    have hS : Second = 1000000000 := rfl
    rw [hS] at hB ⊢
    exact wrap64_of_range (by omega) (by omega)
  intro c hc c' hc'
  obtain ⟨j, s, hs, e1⟩ := key c hc
  obtain ⟨k, t, ht, e2⟩ := key c' hc'
  have := hp.2 j k s t hs ht
  rw [e1, e2, ← Int.sub_mul]
  exact Int.mul_le_mul_of_nonneg_right this (le_of_lt Second_pos)

/-! ## The two moves of the annealing loop -/

theorem count_erase_add (k : String) :
    ∀ (l : List String) (i : Nat) (a : String), l[i]? = some a →
      (l.take i ++ l.drop (i + 1)).count k + [a].count k = l.count k := by
  intro l
  induction l with
  | nil => intro i a h; simp at h
  | cons x xs ih =>
    intro i a h
    cases i with
    | zero =>
      simp only [List.getElem?_cons_zero, Option.some.injEq] at h
      subst h
      simp only [List.take_zero, List.nil_append, zero_add, List.drop_succ_cons, List.drop_zero,
        List.count_cons, List.count_nil]
    | succ i =>
      simp only [List.getElem?_cons_succ] at h
      have := ih i a h
      simp only [List.take_succ_cons, List.cons_append, List.drop_succ_cons, List.count_cons,
        List.count_nil, List.count_append] at this ⊢
      omega

theorem count_set_add (k : String) :
    ∀ (l : List String) (i : Nat) (a b : String), l[i]? = some a →
      (l.set i b).count k + [a].count k = l.count k + [b].count k := by
  intro l
  induction l with
  | nil => intro i a b h; simp at h
  | cons x xs ih =>
    intro i a b h
    cases i with
    | zero =>
      simp only [List.getElem?_cons_zero, Option.some.injEq] at h
      subst h
      simp only [List.set_cons_zero, List.count_cons, List.count_nil]
      omega
    | succ i =>
      simp only [List.getElem?_cons_succ] at h
      have := ih i a b h
      simp only [List.set_cons_succ, List.count_cons, List.count_nil] at this ⊢
      omega

/-- The relocate branch on a non-empty partition never fails; it either skips
the iteration or yields a partition with the same number of chunks and the
same keys. -/
theorem relocate_spec (d : Draw) (next : List Chunk) (h : next ≠ []) :
    relocate d next = some none ∨
    ∃ moved, relocate d next = some (some moved) ∧ moved.length = next.length ∧
      (allKeys moved).Perm (allKeys next) := by
  have hlen : 0 < next.length := List.length_pos.mpr h
  obtain ⟨fi, hfi, hfl⟩ := Intn_some hlen d.r1
  obtain ⟨ti, hti, htl⟩ := Intn_some hlen d.r2
  have hcf : next[fi]? = some next[fi] := List.getElem?_eq_getElem hfl
  by_cases hk : next[fi].Keys.length = 0
  · left
    simp only [relocate, hfi, hcf, Option.some_bind, if_pos hk]
  by_cases hft : fi = ti
  · left
    simp only [relocate, hfi, hcf, hti, Option.some_bind, if_neg hk, if_pos hft]
  right
  obtain ⟨idx, hidx, hil⟩ := Intn_some (Nat.pos_of_ne_zero hk) d.r3
  have hval : next[fi].Keys[idx]? = some next[fi].Keys[idx] := List.getElem?_eq_getElem hil
  have hct : (next.set fi ⟨next[fi].Keys.take idx ++ next[fi].Keys.drop (idx + 1),
      next[fi].Total⟩)[ti]? = some next[ti] := by
    rw [List.getElem?_set_ne hft]
    exact List.getElem?_eq_getElem htl
  refine ⟨(next.set fi ⟨next[fi].Keys.take idx ++ next[fi].Keys.drop (idx + 1),
      next[fi].Total⟩).set ti ⟨next[ti].Keys ++ [next[fi].Keys[idx]], next[ti].Total⟩, ?_, ?_, ?_⟩
  · simp only [relocate, hfi, hcf, hti, hidx, hval, hct, Option.some_bind, if_neg hk, if_neg hft]
  · simp
  · rw [List.perm_iff_count]
    intro k
    have e1 := sum_map_set (fun c => c.Keys.count k) _ ti _
      ⟨next[ti].Keys ++ [next[fi].Keys[idx]], next[ti].Total⟩ hct
    have e2 := sum_map_set (fun c => c.Keys.count k) next fi _
      ⟨next[fi].Keys.take idx ++ next[fi].Keys.drop (idx + 1), next[fi].Total⟩ hcf
    have e3 := count_erase_add k _ idx _ hval
    simp only [List.count_append, count_allKeys] at e1 e2 e3 ⊢
    omega

/-- The swap branch on a non-empty partition never fails; it either skips the
iteration or yields a partition with the same number of chunks and the same
keys. -/
theorem swapKeys_spec (d : Draw) (next : List Chunk) (h : next ≠ []) :
    swapKeys d next = some none ∨
    ∃ moved, swapKeys d next = some (some moved) ∧ moved.length = next.length ∧
      (allKeys moved).Perm (allKeys next) := by
  have hlen : 0 < next.length := List.length_pos.mpr h
  obtain ⟨a, ha, hal⟩ := Intn_some hlen d.r1
  obtain ⟨b, hb, hbl⟩ := Intn_some hlen d.r2
  have hca : next[a]? = some next[a] := List.getElem?_eq_getElem hal
  have hcb : next[b]? = some next[b] := List.getElem?_eq_getElem hbl
  by_cases hab : a = b
  · left
    simp only [swapKeys, ha, hb, Option.some_bind, if_pos hab]
  by_cases hka : next[a].Keys.length = 0
  · left
    simp only [swapKeys, ha, hb, hca, Option.some_bind, if_neg hab, if_pos hka]
  by_cases hkb : next[b].Keys.length = 0
  · left
    simp only [swapKeys, ha, hb, hca, hcb, Option.some_bind, if_neg hab, if_neg hka, if_pos hkb]
  right
  obtain ⟨ia, hia, hial⟩ := Intn_some (Nat.pos_of_ne_zero hka) d.r3
  obtain ⟨ib, hib, hibl⟩ := Intn_some (Nat.pos_of_ne_zero hkb) d.r4
  have hva : next[a].Keys[ia]? = some next[a].Keys[ia] := List.getElem?_eq_getElem hial
  have hvb : next[b].Keys[ib]? = some next[b].Keys[ib] := List.getElem?_eq_getElem hibl
  have hcb1 : (next.set a ⟨next[a].Keys.set ia next[b].Keys[ib], next[a].Total⟩)[b]? =
      some next[b] := by
    rw [List.getElem?_set_ne hab]
    exact hcb
  refine ⟨(next.set a ⟨next[a].Keys.set ia next[b].Keys[ib], next[a].Total⟩).set b
      ⟨next[b].Keys.set ib next[a].Keys[ia], next[b].Total⟩, ?_, ?_, ?_⟩
  · simp only [swapKeys, ha, hb, hca, hcb, hia, hib, hva, hvb, hcb1,
      Option.some_bind, if_neg hab, if_neg hka, if_neg hkb]
  · simp
  · rw [List.perm_iff_count]
    intro k
    have e1 := sum_map_set (fun c => c.Keys.count k) _ b _
      ⟨next[b].Keys.set ib next[a].Keys[ia], next[b].Total⟩ hcb1
    have e2 := sum_map_set (fun c => c.Keys.count k) next a _
      ⟨next[a].Keys.set ia next[b].Keys[ib], next[a].Total⟩ hca
    have e3 := count_set_add k _ ia _ next[b].Keys[ib] hva
    have e4 := count_set_add k _ ib _ next[a].Keys[ia] hvb
    simp only [List.count_append, count_allKeys] at e1 e2 e3 e4 ⊢
    omega

/-! ## The annealing loop -/

/-- One iteration on a non-empty current partition never fails: it leaves the
state alone (the `continue` of the source) or it builds a candidate with the
same chunk count and keys, scores it, and runs the acceptance test and the
update of `best`. -/
theorem saIter_spec (durMap : String → Int) (d : Draw) (st : SAState) (h : st.current ≠ []) :
    saIter durMap d st = some st ∨
    ∃ moved nextScore, moved.length = st.current.length ∧
      (allKeys moved).Perm (allKeys st.current) ∧
      score (retotal durMap moved) = some nextScore ∧
      saIter durMap d st =
        some (recordBest (acceptNext d st (retotal durMap moved) nextScore)) := by
  have hmove : (if d.coin = true then relocate d st.current else swapKeys d st.current) = some none ∨
      ∃ moved, (if d.coin = true then relocate d st.current else swapKeys d st.current) =
        some (some moved) ∧ moved.length = st.current.length ∧
        (allKeys moved).Perm (allKeys st.current) := by
    by_cases hc : d.coin = true
    · simpa only [if_pos hc] using relocate_spec d st.current h
    · simpa only [if_neg hc] using swapKeys_spec d st.current h
  rcases hmove with hm | ⟨moved, hm, hl, hp⟩
  · left
    simp only [saIter, copyChunks_eq, hm, Option.some_bind]
  · right
    have hne : retotal durMap moved ≠ [] := by
      intro hcon
      have h1 := length_retotal durMap moved
      rw [hcon] at h1
      have h2 : 0 < st.current.length := List.length_pos.mpr h
      simp only [List.length_nil] at h1
      omega
    obtain ⟨cmin, _, cmax, _, _, hs⟩ := score_spec _ hne
    refine ⟨moved, _, hl, hp, hs, ?_⟩
    simp only [saIter, copyChunks_eq, hm, Option.some_bind, hs]

theorem length_of_ok {durMap : String → Int} {init c : List Chunk}
    (h : c = init ∨ Cand durMap init c) : c.length = init.length := by
  rcases h with h | h
  · rw [h]
  · exact h.1

theorem keys_of_ok {durMap : String → Int} {init c : List Chunk}
    (h : c = init ∨ Cand durMap init c) : (allKeys c).Perm (allKeys init) := by
  rcases h with h | h
  · rw [h]
  · exact h.2.1

theorem ne_nil_of_ok {durMap : String → Int} {init c : List Chunk} (hi : init ≠ [])
    (h : c = init ∨ Cand durMap init c) : c ≠ [] := by
  intro hcon
  have h1 := length_of_ok h
  have h2 : 0 < init.length := List.length_pos.mpr hi
  rw [hcon] at h1
  simp only [List.length_nil] at h1
  omega

theorem recordBest_inv (durMap : String → Int) (init : List Chunk) (s0 : Int) (st : SAState)
    (h : SAInv durMap init s0 st) : SAInv durMap init s0 (recordBest st) := by
  unfold recordBest
  split
  · next hlt =>
    refine ⟨?_, h.cur_ok, ?_, h.scoreC, ?_⟩
    · simpa only [copyChunks_eq] using h.cur_ok
    · simpa only [copyChunks_eq] using h.scoreC
    · have := h.le0
      show st.currentScore ≤ s0
      omega
  · exact h

theorem acceptNext_inv (durMap : String → Int) (init : List Chunk) (s0 : Int) (d : Draw)
    (st : SAState) (h : SAInv durMap init s0 st) (next : List Chunk) (nextScore : Int)
    (hc : Cand durMap init next) (hs : score next = some nextScore) :
    SAInv durMap init s0 (acceptNext d st next nextScore) := by
  unfold acceptNext
  dsimp only
  split
  · exact ⟨h.best_ok, Or.inr hc, h.scoreB, hs, h.le0⟩
  · exact h

theorem saIter_inv (durMap : String → Int) (init : List Chunk) (hi : init ≠ []) (s0 : Int)
    (d : Draw) (st : SAState) (h : SAInv durMap init s0 st) :
    ∃ st', saIter durMap d st = some st' ∧ SAInv durMap init s0 st' := by
  rcases saIter_spec durMap d st (ne_nil_of_ok hi h.cur_ok) with hs | ⟨moved, ns, hl, hp, hsc, hs⟩
  · exact ⟨st, hs, h⟩
  · refine ⟨_, hs, recordBest_inv _ _ _ _ (acceptNext_inv _ _ _ _ _ h _ _ ?_ hsc)⟩
    refine ⟨?_, ?_, Retotaled_retotal _ _⟩
    · rw [length_retotal, hl]
      exact length_of_ok h.cur_ok
    · rw [allKeys_retotal]
      exact hp.trans (keys_of_ok h.cur_ok)

theorem saLoop_inv (durMap : String → Int) (draw : Nat → Draw) (init : List Chunk)
    (hi : init ≠ []) (s0 : Int) :
    ∀ (k i : Nat) (st : SAState), SAInv durMap init s0 st →
      ∃ st', saLoop durMap draw i k st = some st' ∧ SAInv durMap init s0 st' := by
  intro k
  induction k with
  | zero => intro i st h; exact ⟨st, rfl, h⟩
  | succ k ih =>
    intro i st h
    obtain ⟨st1, h1, hinv1⟩ := saIter_inv durMap init hi s0 (draw i) st h
    obtain ⟨st2, h2, hinv2⟩ := ih (i + 1) st1 hinv1
    exact ⟨st2, by simp only [saLoop, h1, Option.some_bind, h2], hinv2⟩

/-- On a non-empty partition `simulatedAnnealing` returns a partition that is
the initial one or a recomputed candidate with the same chunk count and keys,
and whose score does not exceed the initial score. -/
theorem simulatedAnnealing_spec (rng : Rand) (init : List Chunk) (hi : init ≠ [])
    (iterations : Int) (tempStart tempEnd : Rat) (durMap : String → Int) :
    ∃ best s0 sb, simulatedAnnealing rng init iterations tempStart tempEnd durMap = some best ∧
      (best = init ∨ Cand durMap init best) ∧
      score init = some s0 ∧ score best = some sb ∧ sb ≤ s0 := by
  obtain ⟨s0, hs0⟩ : ∃ s0, score init = some s0 := by
    obtain ⟨_, _, _, _, _, e⟩ := score_spec init hi
    exact ⟨_, e⟩
  obtain ⟨st', hl, hinv⟩ := saLoop_inv durMap rng.draw init hi s0 iterations.toNat 0
    { best := init, bestScore := s0, current := init, currentScore := s0 }
    ⟨Or.inl rfl, Or.inl rfl, hs0, hs0, le_refl _⟩
  refine ⟨st'.best, s0, st'.bestScore, ?_, hinv.best_ok, hs0, hinv.scoreB, hinv.le0⟩
  simp only [simulatedAnnealing, copyChunks_eq, hs0, Option.some_bind, hl, Option.map_some']

/-! ## The input loop of SplitBalanced -/

theorem collect_entries (data : List (String × Int)) :
    ∀ acc : List entry × (String → Int), (collect data acc).1 = acc.1 ++ data.map toEntry := by
  induction data with
  | nil => intro acc; simp [collect]
  | cons kv rest ih =>
    intro acc
    obtain ⟨k, v⟩ := kv
    simp only [collect, ih, List.map_cons, List.append_assoc, List.singleton_append, toEntry]

theorem collect_map_other (data : List (String × Int)) :
    ∀ (acc : List entry × (String → Int)) (k : String), k ∉ data.map Prod.fst →
      (collect data acc).2 k = acc.2 k := by
  induction data with
  | nil => intro acc k _; rfl
  | cons kv rest ih =>
    intro acc k hk
    obtain ⟨k0, v⟩ := kv
    simp only [List.map_cons, List.mem_cons, not_or] at hk
    simp only [collect]
    rw [ih _ k hk.2]
    simp only [if_neg hk.1]

theorem collect_map_nodup (data : List (String × Int)) :
    ∀ (acc : List entry × (String → Int)), (data.map Prod.fst).Nodup →
      ∀ kv ∈ data, (collect data acc).2 kv.1 = truncSeconds kv.2 := by
  induction data with
  | nil => intro acc _ kv hkv; cases hkv
  | cons kv0 rest ih =>
    intro acc hnd kv hkv
    obtain ⟨k0, v0⟩ := kv0
    simp only [List.map_cons, List.nodup_cons] at hnd
    simp only [collect]
    rcases List.mem_cons.mp hkv with h | h
    · subst h
      rw [collect_map_other rest _ _ hnd.1]
      simp only [if_true]
    · exact ih _ hnd.2 kv h

theorem collect_keys (data : List (String × Int)) :
    (collect data ([], fun _ => 0)).1.map entry.Key = data.map Prod.fst := by
  rw [collect_entries]
  simp [toEntry, List.map_map, Function.comp_def]

theorem collect_consistent (data : List (String × Int)) (hnd : (data.map Prod.fst).Nodup) :
    ∀ e ∈ (collect data ([], fun _ => 0)).1, (collect data ([], fun _ => 0)).2 e.Key = e.Dur := by
  intro e he
  rw [collect_entries] at he
  simp only [List.nil_append, List.mem_map] at he
  obtain ⟨kv, hkv, rfl⟩ := he
  exact collect_map_nodup data _ hnd kv hkv

/-! ## greedyPartition as a whole -/

theorem allKeys_replicate (n : Nat) : allKeys (List.replicate n { Keys := [], Total := 0 }) = [] := by
  induction n with
  | zero => rfl
  | succ n ih =>
    simp only [allKeys, List.replicate_succ, List.map_cons, List.flatten_cons, List.nil_append] at ih ⊢
    exact ih

theorem GInv_SumsOf_init (durMap : String → Int) (m : Nat) :
    SumsOf durMap (List.replicate m { Keys := [], Total := 0 }, List.replicate m 0) := by
  intro j c s hc hs
  have hj : j < m := by simpa using getElem?_lt_of_some hc
  simp only [List.getElem?_replicate, hj, if_true, Option.some.injEq] at hc hs
  subst hc hs
  rfl

theorem SumsWithin_init (W : Int) (hW : 0 ≤ W) (m : Nat) :
    SumsWithin 0 W (List.replicate m { Keys := [], Total := 0 }, List.replicate m 0) := by
  have key : ∀ (j : Nat) (s : Int), (List.replicate m (0 : Int))[j]? = some s → s = 0 := by
    intro j s hs
    have hj : j < m := by simpa using getElem?_lt_of_some hs
    simp only [List.getElem?_replicate, hj, if_true, Option.some.injEq] at hs
    exact hs.symm
  constructor
  · intro j s hs
    rw [key j s hs]
    exact ⟨le_refl _, le_refl _⟩
  · intro j k s t hs ht
    rw [key j s hs, key k t ht]
    simpa using hW

/-- For at least one chunk `greedyPartition` returns `m` chunks holding the
keys of the entries; the totals are the `int64` totals of any duration map
that agrees with the entries, and they spread by at most the largest entry
when the entries are non-negative and their sum fits an `int64` of
nanoseconds. -/
theorem greedyPartition_spec (rng : Rand) (entries : List entry) (m : Int) (hm : 1 ≤ m) :
    ∃ chunks, greedyPartition rng entries m = some chunks ∧ chunks.length = m.toNat ∧
      (allKeys chunks).Perm (entries.map entry.Key) ∧
      (∀ durMap : String → Int, (∀ e ∈ entries, durMap e.Key = e.Dur) → Retotaled durMap chunks) ∧
      (∀ W : Int, 0 ≤ W → (∀ e ∈ entries, 0 ≤ e.Dur ∧ e.Dur ≤ W) →
        (entries.map entry.Dur).sum * Second < 9223372036854775808 → Spread W chunks) := by
  have hm1 : 1 ≤ m.toNat := by omega
  have hperm := (rng.shuffle entries).property
  have hmem : ∀ e, e ∈ (rng.shuffle entries).val → e ∈ entries := fun e he => hperm.subset he
  obtain ⟨st', hl, hinv⟩ := greedyLoop_some m.toNat hm1 (rng.shuffle entries).val _
    (GInv_init m.toNat)
  refine ⟨st'.1, ?_, hinv.1, ?_, ?_, ?_⟩
  · simp only [greedyPartition, if_neg (show ¬ m < 0 by omega), hl, Option.map_some']
  · have := greedyLoop_keys m.toNat hm1 _ _ _ (GInv_init m.toNat) hl
    simp only [allKeys_replicate, List.nil_append] at this
    exact this.trans (hperm.map entry.Key)
  · intro durMap hd
    refine Retotaled_of_SumsOf durMap m.toNat st' hinv ?_
    refine greedyLoop_inv m.toNat hm1 (fun st => SumsOf durMap st) _ ?_ _ _
      (GInv_init m.toNat) (GInv_SumsOf_init durMap m.toNat) hl
    intro st e st1 he hi hp hs
    exact greedyStep_SumsOf durMap m.toNat hm1 st st1 hi e (hd e (hmem e he)) hp hs
  · intro W hW hd hsum
    have hse : ((rng.shuffle entries).val.map entry.Dur).sum = (entries.map entry.Dur).sum :=
      (hperm.map entry.Dur).sum_eq
    have hS : Second = 1000000000 := rfl
    rw [hS] at hsum
    have hw := greedyLoop_SumsWithin W m.toNat hm1 (rng.shuffle entries).val 0 _ st'
      (GInv_init m.toNat) (SumsWithin_init W hW m.toNat) (fun e he => hd e (hmem e he))
      (by rw [hse]; omega) hl
    rw [hse, Int.zero_add] at hw
    exact Spread_of_SumsWithin _ W m.toNat st' hinv hw (by rw [hS]; exact hsum)

/-! ## SplitBalanced as a whole -/

/-- The shape of every successful run: the greedy partition `g`, the refined
partition `best`, and the output, which is `best` with recomputed totals. -/
theorem SplitBalanced_spec (rng : Rand) (data : List (String × Int)) (chunkCount : Int)
    (hm : 1 ≤ chunkCount) :
    ∃ g best s0 sb,
      greedyPartition rng (collect data ([], fun _ => 0)).1 chunkCount = some g ∧
      g.length = chunkCount.toNat ∧
      (allKeys g).Perm (data.map Prod.fst) ∧
      simulatedAnnealing rng g 50000 1000 (1 / 100) (collect data ([], fun _ => 0)).2 = some best ∧
      (best = g ∨ Cand (collect data ([], fun _ => 0)).2 g best) ∧
      score g = some s0 ∧ score best = some sb ∧ sb ≤ s0 ∧
      SplitBalanced rng data chunkCount = some (retotal (collect data ([], fun _ => 0)).2 best) := by
  obtain ⟨g, hg, hlen, hkeys, _, _⟩ :=
    greedyPartition_spec rng (collect data ([], fun _ => 0)).1 chunkCount hm
  have hne : g ≠ [] := by
    intro hcon
    rw [hcon] at hlen
    simp only [List.length_nil] at hlen
    omega
  obtain ⟨best, s0, sb, hsa, hok, hs0, hsb, hle⟩ :=
    simulatedAnnealing_spec rng g hne 50000 1000 (1 / 100) (collect data ([], fun _ => 0)).2
  refine ⟨g, best, s0, sb, hg, hlen, ?_, hsa, hok, hs0, hsb, hle, ?_⟩
  · rw [← collect_keys]
    exact hkeys
  · simp only [SplitBalanced, hg, hsa, Option.some_bind]

/-! ## Helpers for the claims -/

theorem score_whole (l : List Chunk) (h : l ≠ [])
    (hw : ∀ c ∈ l, ∃ n : Int, c.Total = n * Second) :
    ∃ cmin ∈ l, ∃ cmax ∈ l, (∀ c ∈ l, cmin.Total ≤ c.Total ∧ c.Total ≤ cmax.Total) ∧
      ∃ s, score l = some s ∧ s * Second = cmax.Total - cmin.Total := by
  obtain ⟨cmin, hmin, cmax, hmax, hb, hs⟩ := score_spec l h
  obtain ⟨n1, e1⟩ := hw cmin hmin
  obtain ⟨n2, e2⟩ := hw cmax hmax
  refine ⟨cmin, hmin, cmax, hmax, hb, n2 - n1, ?_, ?_⟩
  · rw [hs, e1, e2, ← Int.sub_mul, wholeSeconds_mul]
  · rw [e1, e2, Int.sub_mul]

theorem whole_of_Exact (durMap : String → Int) (l : List Chunk) (h : ExactTotals durMap l) :
    ∀ c ∈ l, ∃ n : Int, c.Total = n * Second :=
  fun c hc => ⟨_, h c hc⟩

theorem allKeys_cons (c : Chunk) (cs : List Chunk) : allKeys (c :: cs) = c.Keys ++ allKeys cs := by
  simp [allKeys]

theorem sum_keys_le_allKeys (f : String → Nat) (l : List Chunk) :
    ∀ c ∈ l, (c.Keys.map f).sum ≤ ((allKeys l).map f).sum := by
  induction l with
  | nil => intro c hc; cases hc
  | cons x xs ih =>
    intro c hc
    rw [allKeys_cons, List.map_append, List.sum_append]
    rcases List.mem_cons.mp hc with h | h
    · subst h
      omega
    · have := ih c h
      omega

/-- While the absolute weights of all keys, in nanoseconds, sum to less than
`2^63`, the `int64` totals are the exact sums. -/
theorem ExactTotals_of_Retotaled (durMap : String → Int) (l : List Chunk)
    (h : Retotaled durMap l)
    (hb : ((allKeys l).map fun k => (durMap k).natAbs).sum * 1000000000 < 9223372036854775808) :
    ExactTotals durMap l := by
  intro c hc
  have h1 := sum_keys_le_allKeys (fun k => (durMap k).natAbs) l c hc
  have h2 := natAbs_sum_le (c.Keys.map durMap)
  rw [List.map_map] at h2
  have h3 : (List.map (Int.natAbs ∘ durMap) c.Keys).sum =
      (c.Keys.map fun k => (durMap k).natAbs).sum := rfl
  have hex : sum64 (c.Keys.map durMap) = (c.Keys.map durMap).sum := by
    apply sum64_exact
    rw [List.map_map, h3]
    omega
  rw [h c hc, hex]
  have hS : Second = 1000000000 := rfl
  rw [hS]
  exact wrap64_of_range (by omega) (by omega)

theorem sum_total_of_Exact (durMap : String → Int) (l : List Chunk) (h : ExactTotals durMap l) :
    (l.map Chunk.Total).sum = ((allKeys l).map durMap).sum * Second := by
  induction l with
  | nil => simp [allKeys]
  | cons c cs ih =>
    have h1 := h c (List.mem_cons_self _ _)
    have h2 := ih fun x hx => h x (List.mem_cons_of_mem _ hx)
    simp only [List.map_cons, List.sum_cons, allKeys_cons, List.map_append,
      List.sum_append, Int.add_mul, h1, h2]

theorem sum_durMap_data (durMap : String → Int) (data : List (String × Int))
    (h : ∀ kv ∈ data, durMap kv.1 * Second = kv.2) :
    ((data.map Prod.fst).map durMap).sum * Second = (data.map Prod.snd).sum := by
  induction data with
  | nil => simp
  | cons kv rest ih =>
    have h1 := h kv (List.mem_cons_self _ _)
    have h2 := ih fun x hx => h x (List.mem_cons_of_mem _ hx)
    simp only [List.map_cons, List.sum_cons, Int.add_mul, h1, h2]

theorem length_le_empty_add_keys (durMap : String → Int) (l : List Chunk) :
    l.length ≤ (retotal durMap l).countP (fun c => decide (c.Keys = [] ∧ c.Total = 0)) +
      (allKeys l).length := by
  induction l with
  | nil => simp [retotal, allKeys]
  | cons c cs ih =>
    have ih1 : cs.length ≤ List.countP (fun c => decide (c.Keys = [] ∧ c.Total = 0))
        (List.map (fun c => (⟨c.Keys, wrap64 (sum64 (c.Keys.map durMap) * Second)⟩ : Chunk))
          cs) + (allKeys cs).length := ih
    simp only [retotal, List.map_cons, List.countP_cons, allKeys_cons, List.length_append,
      List.length_cons]
    by_cases hk : c.Keys = []
    · simp only [hk, List.map_nil, sum64_nil, Int.zero_mul, wrap64_zero, and_self, decide_True,
        if_true, List.length_nil]
      omega
    · have : 0 < c.Keys.length := List.length_pos.mpr hk
      omega

theorem exists_max_snd (data : List (String × Int)) (h : data ≠ []) :
    ∃ kv ∈ data, ∀ kv' ∈ data, kv'.2 ≤ kv.2 := by
  induction data with
  | nil => exact absurd rfl h
  | cons x xs ih =>
    by_cases hx : xs = []
    · subst hx
      exact ⟨x, by simp, by simp⟩
    · obtain ⟨y, hy, hmax⟩ := ih hx
      by_cases hxy : y.2 ≤ x.2
      · refine ⟨x, by simp, ?_⟩
        intro z hz
        rcases List.mem_cons.mp hz with hz | hz
        · rw [hz]
        · exact le_trans (hmax z hz) hxy
      · refine ⟨y, List.mem_cons_of_mem _ hy, ?_⟩
        intro z hz
        rcases List.mem_cons.mp hz with hz | hz
        · rw [hz]; omega
        · exact hmax z hz

theorem wholeSeconds_nonneg {v : Int} (h : 0 ≤ v) : 0 ≤ wholeSeconds v :=
  Int.tdiv_nonneg h (le_of_lt Second_pos)

theorem wholeSeconds_mono {v w : Int} (h0 : 0 ≤ v) (h : v ≤ w) :
    wholeSeconds v ≤ wholeSeconds w := by
  unfold wholeSeconds
  rw [Int.tdiv_eq_ediv h0 (le_of_lt Second_pos),
    Int.tdiv_eq_ediv (le_trans h0 h) (le_of_lt Second_pos)]
  exact Int.ediv_le_ediv Second_pos h

theorem wholeSeconds_mul_le {v : Int} (h0 : 0 ≤ v) : wholeSeconds v * Second ≤ v := by
  unfold wholeSeconds
  rw [Int.tdiv_eq_ediv h0 (le_of_lt Second_pos)]
  exact Int.ediv_mul_le v (ne_of_gt Second_pos)

/-- Below `2^24` seconds the conversion through `float64` is the truncation
toward zero. -/
theorem truncSeconds_eq_wholeSeconds (v : Int) (h : v.natAbs < 16777216 * 10 ^ 9) :
    truncSeconds v = wholeSeconds v :=
  truncSeconds_eq_tdiv v h

theorem natAbs_wholeSeconds_le (v : Int) : (wholeSeconds v).natAbs * 1000000000 ≤ v.natAbs := by
  unfold wholeSeconds Second
  rw [Int.natAbs_tdiv]
  exact Nat.div_mul_le_self _ _

theorem natAbs_le_sum_of_mem (data : List (String × Int)) :
    ∀ kv ∈ data, kv.2.natAbs ≤ (data.map fun kv => kv.2.natAbs).sum := by
  induction data with
  | nil => intro kv hkv; cases hkv
  | cons x xs ih =>
    intro kv hkv
    simp only [List.map_cons, List.sum_cons]
    rcases List.mem_cons.mp hkv with h | h
    · subst h
      omega
    · have := ih kv h
      omega

/-- Where the conversion to seconds is the truncation toward zero, the
weights, in nanoseconds, are bounded by the durations. -/
theorem sum_natAbs_trunc_le (data : List (String × Int))
    (hp : ∀ kv ∈ data, truncSeconds kv.2 = wholeSeconds kv.2) :
    (data.map fun kv => (truncSeconds kv.2).natAbs).sum * 1000000000 ≤
      (data.map fun kv => kv.2.natAbs).sum := by
  induction data with
  | nil => simp
  | cons x xs ih =>
    have h1 := ih fun kv hkv => hp kv (List.mem_cons_of_mem _ hkv)
    have h2 := natAbs_wholeSeconds_le x.2
    rw [← hp x (List.mem_cons_self _ _)] at h2
    simp only [List.map_cons, List.sum_cons]
    omega

theorem sum_natAbs_durMap (data : List (String × Int)) (hnd : (data.map Prod.fst).Nodup) :
    ((data.map Prod.fst).map fun k => ((collect data ([], fun _ => 0)).2 k).natAbs).sum =
      (data.map fun kv => (truncSeconds kv.2).natAbs).sum := by
  rw [List.map_map]
  apply congrArg List.sum
  apply List.map_congr_left
  intro kv hkv
  simp only [Function.comp_apply, collect_map_nodup data _ hnd kv hkv]

theorem sum_natAbs_entries (data : List (String × Int)) :
    ((collect data ([], fun _ => 0)).1.map fun e => e.Dur.natAbs).sum =
      (data.map fun kv => (truncSeconds kv.2).natAbs).sum := by
  rw [collect_entries, List.nil_append, List.map_map]
  rfl

theorem sum_le_sum_natAbs (l : List Int) : l.sum ≤ ((l.map Int.natAbs).sum : Nat) := by
  have := natAbs_sum_le l
  omega

/-- A partition of the input keys whose totals are recomputed from the weight
map has exact totals while the weights, in nanoseconds, fit an `int64`. -/
theorem ExactTotals_of_data (data : List (String × Int)) (hnd : (data.map Prod.fst).Nodup)
    (l : List Chunk) (hperm : (allKeys l).Perm (data.map Prod.fst))
    (hR : Retotaled (collect data ([], fun _ => 0)).2 l)
    (hsum : (data.map fun kv => (truncSeconds kv.2).natAbs).sum * 1000000000 <
      9223372036854775808) :
    ExactTotals (collect data ([], fun _ => 0)).2 l := by
  apply ExactTotals_of_Retotaled _ l hR
  rw [(hperm.map _).sum_eq, sum_natAbs_durMap data hnd]
  exact hsum

theorem retotal_of_ok (durMap : String → Int) (g best : List Chunk) (hg : Retotaled durMap g)
    (h : best = g ∨ Cand durMap g best) : Retotaled durMap best := by
  rcases h with h | h
  · rw [h]; exact hg
  · exact h.2.2

/-- The shape of a run whose weights, in nanoseconds, fit an `int64`: the
greedy partition and the refined partition have exact totals, the refined
partition is returned as it is, and its spread is bounded by any bound on
non-negative weights. -/
theorem SplitBalanced_exact (rng : Rand) (data : List (String × Int)) (chunkCount : Int)
    (h : 1 ≤ chunkCount) (hnd : (data.map Prod.fst).Nodup)
    (hsum : (data.map fun kv => (truncSeconds kv.2).natAbs).sum * 1000000000 <
      9223372036854775808) :
    ∃ g best s0 sb,
      greedyPartition rng (collect data ([], fun _ => 0)).1 chunkCount = some g ∧
      score g = some s0 ∧ score best = some sb ∧ sb ≤ s0 ∧
      (allKeys best).Perm (data.map Prod.fst) ∧
      ExactTotals (collect data ([], fun _ => 0)).2 g ∧
      ExactTotals (collect data ([], fun _ => 0)).2 best ∧
      (∀ W : Int, 0 ≤ W → (∀ kv ∈ data, 0 ≤ truncSeconds kv.2 ∧ truncSeconds kv.2 ≤ W) →
        Spread W g) ∧
      SplitBalanced rng data chunkCount = some best := by
  obtain ⟨g, best, s0, sb, hg, _, hkeys, _, hok, hs0, hsb, hle, hout⟩ :=
    SplitBalanced_spec rng data chunkCount h
  obtain ⟨g', hg', _, _, hret, hspread⟩ :=
    greedyPartition_spec rng (collect data ([], fun _ => 0)).1 chunkCount h
  rw [hg] at hg'
  cases hg'
  have hRg := hret _ (collect_consistent data hnd)
  have hRb := retotal_of_ok _ g best hRg hok
  have hpb := (keys_of_ok hok).trans hkeys
  refine ⟨g, best, s0, sb, hg, hs0, hsb, hle, hpb,
    ExactTotals_of_data data hnd g hkeys hRg hsum,
    ExactTotals_of_data data hnd best hpb hRb hsum, ?_, ?_⟩
  · intro W hW hb
    apply hspread W hW
    · intro e he
      rw [collect_entries] at he
      simp only [List.nil_append, List.mem_map] at he
      obtain ⟨kv, hkv, rfl⟩ := he
      exact hb kv hkv
    · have h1 := sum_le_sum_natAbs ((collect data ([], fun _ => 0)).1.map entry.Dur)
      rw [List.map_map] at h1
      have h2 := sum_natAbs_entries data
      have h3 : (List.map (Int.natAbs ∘ entry.Dur) (collect data ([], fun _ => 0)).1).sum =
          ((collect data ([], fun _ => 0)).1.map fun e => e.Dur.natAbs).sum := rfl
      have hS : Second = 1000000000 := rfl
      rw [hS]
      omega
  · rw [hout, retotal_eq_of_Retotaled _ best hRb]

/-! ## Draws that never move a key -/

theorem relocate_same_index (d : Draw) (next : List Chunk) (hne : next ≠ [])
    (hd : d.r1 = d.r2) : relocate d next = some none := by
  have hlen : 0 < next.length := List.length_pos.mpr hne
  obtain ⟨fi, hfi, hfl⟩ := Intn_some hlen d.r1
  have hcf : next[fi]? = some next[fi] := List.getElem?_eq_getElem hfl
  by_cases hk : next[fi].Keys.length = 0
  · simp only [relocate, hfi, hcf, Option.some_bind, if_pos hk]
  · simp only [relocate, hfi, hcf, ← hd, Option.some_bind, if_neg hk, if_true]

theorem saLoop_same_index (durMap : String → Int) (draw : Nat → Draw)
    (hd : ∀ i, (draw i).coin = true ∧ (draw i).r1 = (draw i).r2) :
    ∀ (k i : Nat) (st : SAState), st.current ≠ [] → saLoop durMap draw i k st = some st := by
  intro k
  induction k with
  | zero => intro i st _; rfl
  | succ k ih =>
    intro i st hne
    have hit : saIter durMap (draw i) st = some st := by
      simp only [saIter, copyChunks_eq, if_pos (hd i).1,
        relocate_same_index (draw i) st.current hne (hd i).2, Option.some_bind]
    simp only [saLoop, hit, Option.some_bind, ih (i + 1) st hne]

theorem simulatedAnnealing_same_index (rng : Rand)
    (hd : ∀ i, (rng.draw i).coin = true ∧ (rng.draw i).r1 = (rng.draw i).r2)
    (chunks : List Chunk) (hne : chunks ≠ []) (iterations : Int) (tempStart tempEnd : Rat)
    (durMap : String → Int) :
    simulatedAnnealing rng chunks iterations tempStart tempEnd durMap = some chunks := by
  obtain ⟨s0, hs0⟩ : ∃ s0, score chunks = some s0 := by
    obtain ⟨_, _, _, _, _, e⟩ := score_spec chunks hne
    exact ⟨_, e⟩
  have hl := saLoop_same_index durMap rng.draw hd iterations.toNat 0
    { best := chunks, bestScore := s0, current := chunks, currentScore := s0 } hne
  simp only [simulatedAnnealing, copyChunks_eq, hs0, Option.some_bind, hl, Option.map_some']

theorem SplitBalanced_of_parts (rng : Rand) (data : List (String × Int)) (chunkCount : Int)
    (g best : List Chunk)
    (hg : greedyPartition rng (collect data ([], fun _ => 0)).1 chunkCount = some g)
    (hsa : simulatedAnnealing rng g 50000 1000 (1 / 100) (collect data ([], fun _ => 0)).2 =
      some best) :
    SplitBalanced rng data chunkCount =
      some (retotal (collect data ([], fun _ => 0)).2 best) := by
  simp only [SplitBalanced, hg, hsa, Option.some_bind]

/-- The spread of the returned totals is bounded by any bound `W` on the
weights, for non-negative weights that, in nanoseconds, fit an `int64`, and
distinct keys. -/
theorem SplitBalanced_spread_seconds (rng : Rand) (data : List (String × Int))
    (chunkCount : Int) (h : 1 ≤ chunkCount) (hnd : (data.map Prod.fst).Nodup) (W : Int)
    (hW : 0 ≤ W) (hb : ∀ kv ∈ data, 0 ≤ truncSeconds kv.2 ∧ truncSeconds kv.2 ≤ W)
    (hsum : (data.map fun kv => (truncSeconds kv.2).natAbs).sum * 1000000000 <
      9223372036854775808) :
    ∃ out, SplitBalanced rng data chunkCount = some out ∧
      ∀ c ∈ out, ∀ c' ∈ out, c.Total - c'.Total ≤ W * Second := by
  obtain ⟨g, best, s0, sb, _, hs0, hsb, hle, _, hEg, hEb, hspread, hout⟩ :=
    SplitBalanced_exact rng data chunkCount h hnd hsum
  have hSg : Spread W g := hspread W hW hb
  have hgne : g ≠ [] := ne_nil_of_score hs0
  have hbne : best ≠ [] := ne_nil_of_score hsb
  obtain ⟨gmin, hgmin, gmax, hgmax, _, sg, hsg, hsge⟩ :=
    score_whole g hgne (whole_of_Exact _ g hEg)
  obtain ⟨bmin, _, bmax, _, hbb, sb', hsb', hsbe⟩ :=
    score_whole best hbne (whole_of_Exact _ best hEb)
  rw [hs0] at hsg
  rw [hsb] at hsb'
  cases hsg
  cases hsb'
  have h1 : s0 * Second ≤ W * Second := by
    rw [hsge]
    exact hSg gmax hgmax gmin hgmin
  have h2 : sb * Second ≤ s0 * Second :=
    Int.mul_le_mul_of_nonneg_right hle (le_of_lt Second_pos)
  refine ⟨_, hout, ?_⟩
  intro c hc c' hc'
  have b1 := hbb c hc
  have b2 := hbb c' hc'
  omega

set_option maxRecDepth 100000 in
/-- A duration of 16 777 216.999 999 999 seconds: its `float64` seconds are
16 777 217, one nanosecond more than the duration. -/
theorem truncSeconds_rounds_up : truncSeconds 16777216999999999 = 16777217 := by decide

/-- Where the conversion to seconds is the truncation toward zero, the input
loop can be read with `wholeSeconds`. -/
theorem collect_of_whole (data : List (String × Int)) :
    ∀ acc : List entry × (String → Int),
      (∀ kv ∈ data, truncSeconds kv.2 = wholeSeconds kv.2) →
      collect data acc = data.foldl (fun (acc : List entry × (String → Int)) kv =>
        (acc.1 ++ [⟨kv.1, wholeSeconds kv.2⟩],
          fun k => if k = kv.1 then wholeSeconds kv.2 else acc.2 k)) acc := by
  induction data with
  | nil => intro acc _; rfl
  | cons x xs ih =>
    intro acc h
    obtain ⟨k, v⟩ := x
    have hv : truncSeconds v = wholeSeconds v := h (k, v) (List.mem_cons_self _ _)
    simp only [collect, List.foldl_cons, hv]
    exact ih _ fun kv hkv => h kv (List.mem_cons_of_mem _ hkv)

/-- A run whose draws never move a key returns the greedy partition, with
its totals recomputed. -/
theorem SplitBalanced_idle (data : List (String × Int)) (chunkCount : Int) (g : List Chunk)
    (hg : greedyPartition idleRand (collect data ([], fun _ => 0)).1 chunkCount = some g)
    (hne : g ≠ []) :
    SplitBalanced idleRand data chunkCount =
      some (retotal (collect data ([], fun _ => 0)).2 g) :=
  SplitBalanced_of_parts idleRand data chunkCount g g hg
    (simulatedAnnealing_same_index idleRand (fun _ => ⟨rfl, rfl⟩) g hne 50000 1000 (1 / 100)
      (collect data ([], fun _ => 0)).2)

/-- A duration of 5 000 000 000 whole seconds is converted exactly. -/
theorem truncSeconds_large :
    truncSeconds 5000000000000000000 = wholeSeconds 5000000000000000000 :=
  (truncSeconds_whole 5000000000 (by decide)).trans (by decide)

/-- The input loop on a list of durations of 5 000 000 000 seconds each. -/
theorem collect_large (data : List (String × Int))
    (h : ∀ kv ∈ data, kv.2 = 5000000000000000000) :
    collect data ([], fun _ => 0) = data.foldl (fun (acc : List entry × (String → Int)) kv =>
      (acc.1 ++ [⟨kv.1, wholeSeconds kv.2⟩],
        fun k => if k = kv.1 then wholeSeconds kv.2 else acc.2 k)) ([], fun _ => 0) :=
  collect_of_whole data _ fun kv hkv => by rw [h kv hkv]; exact truncSeconds_large

/-- The input loop on the single duration 16 777 216 999 999 999 ns. -/
theorem collect_rounds_up :
    collect [("a", 16777216999999999)] ([], fun _ => 0) =
      ([⟨"a", 16777217⟩], fun k => if k = "a" then 16777217 else 0) := by
  simp only [collect, truncSeconds_rounds_up, List.nil_append]

/-! ## The claims -/

/-- C1: for every input, every `chunkCount ≥ 1` and every outcome of the random
draws, `SplitBalanced` returns exactly `chunkCount` chunks. -/
theorem SplitBalanced_chunk_count (rng : Rand) (data : List (String × Int)) (chunkCount : Int)
    (h : 1 ≤ chunkCount) :
    ∃ out, SplitBalanced rng data chunkCount = some out ∧ (out.length : Int) = chunkCount := by
  obtain ⟨g, best, s0, sb, _, hlen, _, _, hok, _, _, _, hout⟩ :=
    SplitBalanced_spec rng data chunkCount h
  refine ⟨_, hout, ?_⟩
  rw [length_retotal, length_of_ok hok, hlen]
  omega

theorem SplitBalanced_chunk_count_witness :
    (1 : Int) ≤ 3 ∧
    ∃ out, SplitBalanced sampleRand [("a", 1000000000), ("b", 2000000000)] 3 = some out ∧
      (out.length : Int) = 3 :=
  ⟨by decide, SplitBalanced_chunk_count sampleRand _ 3 (by decide)⟩

/-- C2: for pairwise distinct input keys, every `chunkCount ≥ 1` and every
outcome of the random draws, the keys of the returned chunks, taken together,
are a permutation of the input keys: over all chunks every input key occurs
exactly once and no other key occurs; for `chunkCount = 1` the single chunk
holds exactly the input keys. -/
theorem SplitBalanced_keys_conserved (rng : Rand) (data : List (String × Int))
    (chunkCount : Int) (h : 1 ≤ chunkCount) (hnd : (data.map Prod.fst).Nodup) :
    ∃ out, SplitBalanced rng data chunkCount = some out ∧
      (allKeys out).Perm (data.map Prod.fst) ∧ (allKeys out).Nodup ∧
      (∀ k, (out.map fun c => c.Keys.count k).sum = if k ∈ data.map Prod.fst then 1 else 0) ∧
      (chunkCount = 1 → ∃ c, out = [c] ∧ c.Keys.Perm (data.map Prod.fst)) := by
  obtain ⟨g, best, s0, sb, _, hlen, hkeys, _, hok, _, _, _, hout⟩ :=
    SplitBalanced_spec rng data chunkCount h
  have hperm : (allKeys (retotal (collect data ([], fun _ => 0)).2 best)).Perm
      (data.map Prod.fst) := by
    rw [allKeys_retotal]
    exact (keys_of_ok hok).trans hkeys
  have hnodup := hperm.nodup_iff.mpr hnd
  refine ⟨_, hout, hperm, hnodup, ?_, ?_⟩
  · intro k
    rw [← count_allKeys, hperm.count_eq]
    split
    · next hk => exact List.count_eq_one_of_mem hnd hk
    · next hk => exact List.count_eq_zero_of_not_mem hk
  · intro h1
    have hl : (retotal (collect data ([], fun _ => 0)).2 best).length = 1 := by
      rw [length_retotal, length_of_ok hok, hlen, h1]
      rfl
    match hr : retotal (collect data ([], fun _ => 0)).2 best, hl with
    | [c], _ =>
      refine ⟨c, rfl, ?_⟩
      rw [hr] at hperm
      simpa [allKeys] using hperm

theorem SplitBalanced_keys_conserved_witness :
    (1 : Int) ≤ 2 ∧
    (([("a", 3000000000), ("b", 2000000000), ("c", 1000000000), ("d", 4000000000)] :
      List (String × Int)).map Prod.fst).Nodup ∧
    ∃ out, SplitBalanced sampleRand
        [("a", 3000000000), ("b", 2000000000), ("c", 1000000000), ("d", 4000000000)] 2 =
          some out ∧
      (allKeys out).Perm (([("a", 3000000000), ("b", 2000000000), ("c", 1000000000),
        ("d", 4000000000)] : List (String × Int)).map Prod.fst) ∧ (allKeys out).Nodup ∧
      (∀ k, (out.map fun c => c.Keys.count k).sum =
        if k ∈ ([("a", 3000000000), ("b", 2000000000), ("c", 1000000000),
          ("d", 4000000000)] : List (String × Int)).map Prod.fst then 1 else 0) ∧
      ((2 : Int) = 1 → ∃ c, out = [c] ∧ c.Keys.Perm (([("a", 3000000000), ("b", 2000000000),
        ("c", 1000000000), ("d", 4000000000)] : List (String × Int)).map Prod.fst)) :=
  ⟨by decide, by decide, SplitBalanced_keys_conserved sampleRand _ 2 (by decide) (by decide)⟩

/-- Counterexample to C3 as stated: two keys of 5 000 000 000 seconds each, put
into one chunk, give that chunk the total -8 446 744 073 709 551 616 ns, because
the product of 10 000 000 000 seconds and `time.Second` wraps around in
`int64`; the sum of the two durations is 10 000 000 000 000 000 000 ns. -/
theorem SplitBalanced_total_wraps :
    SplitBalanced idleRand
        [("a", 5000000000000000000), ("b", 5000000000000000000)] 1 =
      some [⟨["a", "b"], -8446744073709551616⟩] ∧
    (([⟨["a", "b"], -8446744073709551616⟩] : List Chunk).map Chunk.Total).sum ≠
      (([("a", 5000000000000000000), ("b", 5000000000000000000)] :
        List (String × Int)).map Prod.snd).sum := by
  refine ⟨?_, by decide⟩
  have hc := collect_large [("a", 5000000000000000000), ("b", 5000000000000000000)]
    (by decide)
  have hg : greedyPartition idleRand
      (collect [("a", 5000000000000000000), ("b", 5000000000000000000)] ([], fun _ => 0)).1 1 =
      some [⟨["a", "b"], -8446744073709551616⟩] := by
    rw [hc]
    decide
  refine (SplitBalanced_idle _ 1 _ hg (by decide)).trans ?_
  rw [hc]
  decide

/-- C3, amended: for pairwise distinct keys whose durations are whole numbers
of seconds and whose absolute values sum to less than `2^63` nanoseconds,
every `chunkCount ≥ 1` and every outcome of the random draws, the sum of
`Total` over the returned chunks equals the sum of the input durations. -/
theorem SplitBalanced_total_conserved (rng : Rand) (data : List (String × Int))
    (chunkCount : Int) (h : 1 ≤ chunkCount) (hnd : (data.map Prod.fst).Nodup)
    (hw : ∀ kv ∈ data, Second ∣ kv.2)
    (hsum : (data.map fun kv => kv.2.natAbs).sum < 9223372036854775808) :
    ∃ out, SplitBalanced rng data chunkCount = some out ∧
      (out.map Chunk.Total).sum = (data.map Prod.snd).sum := by
  have htr : ∀ kv ∈ data, truncSeconds kv.2 = wholeSeconds kv.2 := by
    intro kv hkv
    obtain ⟨n, hn⟩ := hw kv hkv
    have hle := natAbs_le_sum_of_mem data kv hkv
    have hS : Second = 1000000000 := rfl
    rw [hS] at hn
    rw [hn, Int.mul_comm]
    have e1 : (1000000000 : Int) = Second := rfl
    rw [e1, wholeSeconds_mul]
    exact truncSeconds_whole n (by norm_num; omega)
  have hb := sum_natAbs_trunc_le data htr
  obtain ⟨g, best, s0, sb, _, _, _, _, hperm, _, hEb, _, hout⟩ :=
    SplitBalanced_exact rng data chunkCount h hnd (by omega)
  refine ⟨_, hout, ?_⟩
  rw [sum_total_of_Exact _ best hEb, (hperm.map _).sum_eq]
  apply sum_durMap_data
  intro kv hkv
  rw [collect_map_nodup data _ hnd kv hkv, htr kv hkv]
  exact Int.tdiv_mul_cancel (hw kv hkv)

theorem SplitBalanced_total_conserved_witness :
    (1 : Int) ≤ 2 ∧
    (([("a", 3000000000), ("b", 2000000000), ("c", 1000000000), ("d", 4000000000)] :
      List (String × Int)).map Prod.fst).Nodup ∧
    (∀ kv ∈ ([("a", 3000000000), ("b", 2000000000), ("c", 1000000000), ("d", 4000000000)] :
      List (String × Int)), Second ∣ kv.2) ∧
    (([("a", 3000000000), ("b", 2000000000), ("c", 1000000000), ("d", 4000000000)] :
      List (String × Int)).map fun kv => kv.2.natAbs).sum < 9223372036854775808 ∧
    ∃ out, SplitBalanced sampleRand
        [("a", 3000000000), ("b", 2000000000), ("c", 1000000000), ("d", 4000000000)] 2 =
          some out ∧
      (out.map Chunk.Total).sum = (([("a", 3000000000), ("b", 2000000000), ("c", 1000000000),
        ("d", 4000000000)] : List (String × Int)).map Prod.snd).sum :=
  ⟨by decide, by decide, by decide, by decide,
    SplitBalanced_total_conserved sampleRand _ 2 (by decide) (by decide) (by decide)
      (by decide)⟩

/-- Counterexample to C4 as stated, in two ways.  The single duration
16 777 216 999 999 999 ns is converted through `float64` to 16 777 217 whole
seconds, so with two chunks the totals 16 777 217 000 000 000 ns and 0 differ
by more than the largest (and only) input duration.  Three durations of
5 000 000 000 seconds each put two keys into the first of two chunks, whose
total wraps around in `int64` to -8 446 744 073 709 551 616 ns, so the totals
differ by more than 5 000 000 000 seconds. -/
theorem SplitBalanced_spread_exceeds_largest :
    (SplitBalanced idleRand [("a", 16777216999999999)] 2 =
        some [⟨["a"], 16777217000000000⟩, ⟨[], 0⟩] ∧
      ¬ ((16777217000000000 : Int) - 0 ≤ 16777216999999999)) ∧
    (SplitBalanced idleRand [("a", 5000000000000000000), ("b", 5000000000000000000),
          ("c", 5000000000000000000)] 2 =
        some [⟨["a", "c"], -8446744073709551616⟩, ⟨["b"], 5000000000000000000⟩] ∧
      ¬ ((5000000000000000000 : Int) - (-8446744073709551616) ≤ 5000000000000000000)) := by
  refine ⟨⟨?_, by decide⟩, ⟨?_, by decide⟩⟩
  · have hg : greedyPartition idleRand
        (collect [("a", 16777216999999999)] ([], fun _ => 0)).1 2 =
        some [⟨["a"], 16777217000000000⟩, ⟨[], 0⟩] := by
      rw [collect_rounds_up]
      decide
    refine (SplitBalanced_idle _ 2 _ hg (by decide)).trans ?_
    rw [collect_rounds_up]
    decide
  · have hc := collect_large [("a", 5000000000000000000), ("b", 5000000000000000000),
      ("c", 5000000000000000000)] (by decide)
    have hg : greedyPartition idleRand
        (collect [("a", 5000000000000000000), ("b", 5000000000000000000),
          ("c", 5000000000000000000)] ([], fun _ => 0)).1 2 =
        some [⟨["a", "c"], -8446744073709551616⟩, ⟨["b"], 5000000000000000000⟩] := by
      rw [hc]
      decide
    refine (SplitBalanced_idle _ 2 _ hg (by decide)).trans ?_
    rw [hc]
    decide

/-- C4, amended: for a non-empty input with pairwise distinct keys and
durations that are non-negative, each below `2^24` seconds, and sum to less
than `2^63` nanoseconds, every `chunkCount ≥ 1` and every outcome of the random
draws, the largest chunk `Total` minus the smallest one does not exceed the
largest single input duration. -/
theorem SplitBalanced_spread_le_largest (rng : Rand) (data : List (String × Int))
    (chunkCount : Int) (h : 1 ≤ chunkCount) (hne : data ≠ [])
    (hnd : (data.map Prod.fst).Nodup) (hnn : ∀ kv ∈ data, 0 ≤ kv.2)
    (hsmall : ∀ kv ∈ data, kv.2 < 16777216 * Second)
    (hsum : (data.map fun kv => kv.2.natAbs).sum < 9223372036854775808) :
    ∃ out, SplitBalanced rng data chunkCount = some out ∧
      ∃ kv ∈ data, (∀ kv' ∈ data, kv'.2 ≤ kv.2) ∧
        ∀ c ∈ out, ∀ c' ∈ out, c.Total - c'.Total ≤ kv.2 := by
  obtain ⟨kvm, hkm, hmax⟩ := exists_max_snd data hne
  have hS : Second = 1000000000 := rfl
  have htr : ∀ kv ∈ data, truncSeconds kv.2 = wholeSeconds kv.2 := by
    intro kv hkv
    have h1 := hnn kv hkv
    have h2 := hsmall kv hkv
    rw [hS] at h2
    exact truncSeconds_eq_wholeSeconds kv.2 (by norm_num; omega)
  have hb := sum_natAbs_trunc_le data htr
  obtain ⟨out, hout, hsp⟩ := SplitBalanced_spread_seconds rng data chunkCount h hnd
    (wholeSeconds kvm.2) (wholeSeconds_nonneg (hnn kvm hkm))
    (fun kv hkv => by
      rw [htr kv hkv]
      exact ⟨wholeSeconds_nonneg (hnn kv hkv), wholeSeconds_mono (hnn kv hkv) (hmax kv hkv)⟩)
    (by omega)
  refine ⟨out, hout, kvm, hkm, hmax, ?_⟩
  intro c hc c' hc'
  have h3 := hsp c hc c' hc'
  have h4 := wholeSeconds_mul_le (hnn kvm hkm)
  omega

theorem SplitBalanced_spread_le_largest_witness :
    (1 : Int) ≤ 2 ∧
    ([("a", 3000000000), ("b", 2000000000), ("c", 1000000000), ("d", 4500000000)] :
      List (String × Int)) ≠ [] ∧
    (([("a", 3000000000), ("b", 2000000000), ("c", 1000000000), ("d", 4500000000)] :
      List (String × Int)).map Prod.fst).Nodup ∧
    (∀ kv ∈ ([("a", 3000000000), ("b", 2000000000), ("c", 1000000000), ("d", 4500000000)] :
      List (String × Int)), 0 ≤ kv.2) ∧
    (∀ kv ∈ ([("a", 3000000000), ("b", 2000000000), ("c", 1000000000), ("d", 4500000000)] :
      List (String × Int)), kv.2 < 16777216 * Second) ∧
    (([("a", 3000000000), ("b", 2000000000), ("c", 1000000000), ("d", 4500000000)] :
      List (String × Int)).map fun kv => kv.2.natAbs).sum < 9223372036854775808 ∧
    ∃ out, SplitBalanced sampleRand
        [("a", 3000000000), ("b", 2000000000), ("c", 1000000000), ("d", 4500000000)] 2 =
          some out ∧
      ∃ kv ∈ ([("a", 3000000000), ("b", 2000000000), ("c", 1000000000), ("d", 4500000000)] :
          List (String × Int)),
        (∀ kv' ∈ ([("a", 3000000000), ("b", 2000000000), ("c", 1000000000),
          ("d", 4500000000)] : List (String × Int)), kv'.2 ≤ kv.2) ∧
        ∀ c ∈ out, ∀ c' ∈ out, c.Total - c'.Total ≤ kv.2 :=
  ⟨by decide, by decide, by decide, by decide, by decide, by decide,
    SplitBalanced_spread_le_largest sampleRand _ 2 (by decide) (by decide) (by decide)
      (by decide) (by decide) (by decide)⟩

/-- C5: for every non-empty chunk list, every iteration budget, every start and
end temperature, every weight map and every outcome of the random draws,
`simulatedAnnealing` returns a partition whose score does not exceed the score
of the partition it was given. -/
theorem simulatedAnnealing_score_le (rng : Rand) (chunks : List Chunk) (hne : chunks ≠ [])
    (iterations : Int) (hit : 0 ≤ iterations) (tempStart tempEnd : Rat)
    (durMap : String → Int) :
    ∃ best s0 sb, simulatedAnnealing rng chunks iterations tempStart tempEnd durMap = some best ∧
      score chunks = some s0 ∧ score best = some sb ∧ sb ≤ s0 := by
  obtain ⟨best, s0, sb, hsa, _, hs0, hsb, hle⟩ :=
    simulatedAnnealing_spec rng chunks hne iterations tempStart tempEnd durMap
  exact ⟨best, s0, sb, hsa, hs0, hsb, hle⟩

theorem simulatedAnnealing_score_le_witness :
    ([⟨["a", "b"], 5000000000⟩, ⟨["c"], 1000000000⟩] : List Chunk) ≠ [] ∧ (0 : Int) ≤ 40 ∧
    ∃ best s0 sb,
      simulatedAnnealing sampleRand [⟨["a", "b"], 5000000000⟩, ⟨["c"], 1000000000⟩] 40 1000
        (1 / 100) (fun k => if k = "a" then 3 else if k = "b" then 2 else 1) = some best ∧
      score [⟨["a", "b"], 5000000000⟩, ⟨["c"], 1000000000⟩] = some s0 ∧
      score best = some sb ∧ sb ≤ s0 :=
  ⟨by decide, by decide,
    simulatedAnnealing_score_le sampleRand _ (by decide) 40 (by decide) 1000 (1 / 100) _⟩

/-- C6: for every `chunkCount ≥ 1`, every input sequence and every outcome of
the random draws, `SplitBalanced` completes: no index or slice bound of
`greedyPartition`, `simulatedAnnealing` or `score` is out of range and no
`rand.Intn` receives a non-positive argument (each of these would make the
embedding return `none`). -/
theorem SplitBalanced_completes (rng : Rand) (data : List (String × Int)) (chunkCount : Int)
    (h : 1 ≤ chunkCount) :
    (SplitBalanced rng data chunkCount).isSome = true ∧
    ∃ g best, greedyPartition rng (collect data ([], fun _ => 0)).1 chunkCount = some g ∧
      simulatedAnnealing rng g 50000 1000 (1 / 100) (collect data ([], fun _ => 0)).2 =
        some best ∧
      (score g).isSome = true ∧ (score best).isSome = true := by
  obtain ⟨g, best, s0, sb, hg, _, _, hsa, _, hs0, hsb, _, hout⟩ :=
    SplitBalanced_spec rng data chunkCount h
  refine ⟨?_, g, best, hg, hsa, ?_, ?_⟩
  · rw [hout]; rfl
  · rw [hs0]; rfl
  · rw [hsb]; rfl

theorem SplitBalanced_completes_witness :
    (1 : Int) ≤ 2 ∧
    (SplitBalanced sampleRand [("a", 0), ("a", 2000000000), ("b", 0)] 2).isSome = true ∧
    ∃ g best, greedyPartition sampleRand
        (collect [("a", 0), ("a", 2000000000), ("b", 0)] ([], fun _ => 0)).1 2 = some g ∧
      simulatedAnnealing sampleRand g 50000 1000 (1 / 100)
        (collect [("a", 0), ("a", 2000000000), ("b", 0)] ([], fun _ => 0)).2 = some best ∧
      (score g).isSome = true ∧ (score best).isSome = true :=
  ⟨by decide, SplitBalanced_completes sampleRand _ 2 (by decide)⟩

/-- C7: for every `chunkCount < 1` and every input sequence, the empty one
included, `SplitBalanced` fails and returns no chunk list. -/
theorem SplitBalanced_fails_below_one (rng : Rand) (data : List (String × Int))
    (chunkCount : Int) (h : chunkCount < 1) : SplitBalanced rng data chunkCount = none := by
  by_cases hneg : chunkCount < 0
  · simp only [SplitBalanced, greedyPartition, if_pos hneg, Option.none_bind]
  · have h0 : chunkCount = 0 := by omega
    subst h0
    simp only [SplitBalanced, greedyPartition, lt_irrefl, if_false, Int.toNat_zero,
      List.replicate_zero]
    cases hs : (rng.shuffle (collect data ([], fun _ => 0)).1).val with
    | nil => rfl
    | cons e es => rfl

theorem SplitBalanced_fails_below_one_witness :
    (0 : Int) < 1 ∧ SplitBalanced sampleRand [("a", 1000000000)] 0 = none :=
  ⟨by decide, SplitBalanced_fails_below_one sampleRand _ 0 (by decide)⟩

/-- C8: for `n` pairwise distinct keys, every `chunkCount ≥ 1` with
`chunkCount > n` and every outcome of the random draws, at least
`chunkCount - n` of the returned chunks have no keys and `Total` 0; an empty
input yields `chunkCount` chunks that all have no keys and `Total` 0. -/
theorem SplitBalanced_excess_chunks_empty (rng : Rand) (data : List (String × Int))
    (chunkCount : Int) (h : 1 ≤ chunkCount) (hnd : (data.map Prod.fst).Nodup)
    (hlt : (data.length : Int) < chunkCount) :
    ∃ out, SplitBalanced rng data chunkCount = some out ∧
      chunkCount - data.length ≤ out.countP (fun c => decide (c.Keys = [] ∧ c.Total = 0)) ∧
      (data = [] → (out.length : Int) = chunkCount ∧ ∀ c ∈ out, c.Keys = [] ∧ c.Total = 0) := by
  obtain ⟨g, best, s0, sb, _, hlen, hkeys, _, hok, _, _, _, hout⟩ :=
    SplitBalanced_spec rng data chunkCount h
  have hbl : best.length = chunkCount.toNat := by rw [length_of_ok hok, hlen]
  have hkl : (allKeys best).length = data.length := by
    rw [((keys_of_ok hok).trans hkeys).length_eq, List.length_map]
  have hcnt := length_le_empty_add_keys (collect data ([], fun _ => 0)).2 best
  refine ⟨_, hout, ?_, ?_⟩
  · omega
  · intro hd
    subst hd
    refine ⟨?_, ?_⟩
    · rw [length_retotal, hbl]
      omega
    · simp only [List.length_nil, add_zero] at hkl hcnt
      rw [hkl, add_zero, ← length_retotal (collect [] ([], fun _ => 0)).2 best] at hcnt
      have hall := List.countP_eq_length.mp (le_antisymm (List.countP_le_length _) hcnt)
      intro c hc
      simpa using hall c hc

theorem SplitBalanced_excess_chunks_empty_witness :
    (1 : Int) ≤ 3 ∧
    (([("a", 1000000000), ("b", 2000000000)] : List (String × Int)).map Prod.fst).Nodup ∧
    ((([("a", 1000000000), ("b", 2000000000)] : List (String × Int)).length : Nat) : Int) < 3 ∧
    ∃ out, SplitBalanced sampleRand [("a", 1000000000), ("b", 2000000000)] 3 = some out ∧
      (3 : Int) - ([("a", 1000000000), ("b", 2000000000)] : List (String × Int)).length ≤
        out.countP (fun c => decide (c.Keys = [] ∧ c.Total = 0)) ∧
      (([("a", 1000000000), ("b", 2000000000)] : List (String × Int)) = [] →
        (out.length : Int) = 3 ∧ ∀ c ∈ out, c.Keys = [] ∧ c.Total = 0) :=
  ⟨by decide, by decide, by decide,
    SplitBalanced_excess_chunks_empty sampleRand _ 3 (by decide) (by decide) (by decide)⟩

/-- C9: for every non-empty chunk list whose totals are whole numbers of
seconds, `score` returns the largest `Total` minus the smallest `Total`, in
seconds, over all chunks (chunks without keys included); the result is
non-negative, and it is 0 exactly when all totals are equal. -/
theorem score_largest_minus_smallest (chunks : List Chunk) (hne : chunks ≠ [])
    (hw : ∀ c ∈ chunks, Second ∣ c.Total) :
    ∃ cmin ∈ chunks, ∃ cmax ∈ chunks,
      (∀ c ∈ chunks, cmin.Total ≤ c.Total ∧ c.Total ≤ cmax.Total) ∧
      ∃ s, score chunks = some s ∧ s * Second = cmax.Total - cmin.Total ∧ 0 ≤ s ∧
        (s = 0 ↔ ∀ c ∈ chunks, ∀ c' ∈ chunks, c.Total = c'.Total) := by
  have hw' : ∀ c ∈ chunks, ∃ n : Int, c.Total = n * Second := by
    intro c hc
    obtain ⟨n, hn⟩ := hw c hc
    exact ⟨n, by rw [hn, Int.mul_comm]⟩
  obtain ⟨cmin, hmin, cmax, hmax, hb, s, hs, hse⟩ := score_whole chunks hne hw'
  have hS := Second_pos
  have hle : cmin.Total ≤ cmax.Total := (hb cmax hmax).1
  have hs0 : 0 ≤ s := by
    by_contra hcon
    have : s * Second < 0 := Int.mul_neg_of_neg_of_pos (by omega) hS
    omega
  refine ⟨cmin, hmin, cmax, hmax, hb, s, hs, hse, hs0, ?_⟩
  constructor
  · intro hz
    rw [hz, Int.zero_mul] at hse
    intro c hc c' hc'
    have b1 := hb c hc
    have b2 := hb c' hc'
    omega
  · intro hall
    have := hall cmax hmax cmin hmin
    rw [this, Int.sub_self] at hse
    rcases Int.mul_eq_zero.mp hse with h0 | h0
    · exact h0
    · omega

theorem score_largest_minus_smallest_witness :
    ([⟨["a"], 3000000000⟩, ⟨[], 0⟩, ⟨["b", "c"], 7000000000⟩] : List Chunk) ≠ [] ∧
    (∀ c ∈ ([⟨["a"], 3000000000⟩, ⟨[], 0⟩, ⟨["b", "c"], 7000000000⟩] : List Chunk),
      Second ∣ c.Total) ∧
    ∃ cmin ∈ ([⟨["a"], 3000000000⟩, ⟨[], 0⟩, ⟨["b", "c"], 7000000000⟩] : List Chunk),
    ∃ cmax ∈ ([⟨["a"], 3000000000⟩, ⟨[], 0⟩, ⟨["b", "c"], 7000000000⟩] : List Chunk),
      (∀ c ∈ ([⟨["a"], 3000000000⟩, ⟨[], 0⟩, ⟨["b", "c"], 7000000000⟩] : List Chunk),
        cmin.Total ≤ c.Total ∧ c.Total ≤ cmax.Total) ∧
      ∃ s, score [⟨["a"], 3000000000⟩, ⟨[], 0⟩, ⟨["b", "c"], 7000000000⟩] = some s ∧
        s * Second = cmax.Total - cmin.Total ∧ 0 ≤ s ∧
        (s = 0 ↔ ∀ c ∈ ([⟨["a"], 3000000000⟩, ⟨[], 0⟩, ⟨["b", "c"], 7000000000⟩] : List Chunk),
          ∀ c' ∈ ([⟨["a"], 3000000000⟩, ⟨[], 0⟩, ⟨["b", "c"], 7000000000⟩] : List Chunk),
            c.Total = c'.Total) :=
  ⟨by decide, by decide, score_largest_minus_smallest _ (by decide) (by decide)⟩

/-- While the absolute weights sum to less than `2^63`, no running sum of the
greedy loop wraps around: each is bounded by the absolute weights handled so
far. -/
theorem greedyLoop_sums_bounded (m : Nat) (hm : 1 ≤ m) (es : List entry) :
    ∀ (B : Nat) (st st' : List Chunk × List Int), GInv m st →
      (∀ (j : Nat) (s : Int), st.2[j]? = some s → s.natAbs ≤ B) →
      B + (es.map fun x => x.Dur.natAbs).sum < 9223372036854775808 →
      greedyLoop m es st = some st' →
      ∀ (j : Nat) (s : Int), st'.2[j]? = some s →
        s.natAbs ≤ B + (es.map fun x => x.Dur.natAbs).sum := by
  induction es with
  | nil =>
    intro B st st' _ hp _ h
    simp only [greedyLoop, Option.some.injEq] at h
    subst h
    simpa using hp
  | cons e es ih =>
    intro B st st' hinv hp hB h
    obtain ⟨b, c, s, _, hsb, _, _, hs⟩ := greedyStep_spec m hm st hinv e
    simp only [greedyLoop, hs, Option.some_bind] at h
    simp only [List.map_cons, List.sum_cons] at hB ⊢
    have hsB := hp b s hsb
    have hw : wrap64 (s + e.Dur) = s + e.Dur := wrap64_of_range (by omega) (by omega)
    have hb2 := getElem?_lt_of_some hsb
    have h1 : ∀ (j : Nat) (x : Int), (st.2.set b (wrap64 (s + e.Dur)))[j]? = some x →
        x.natAbs ≤ B + e.Dur.natAbs := by
      intro j x hx
      simp only [List.getElem?_set] at hx
      by_cases hbj : b = j
      · simp only [hbj, if_true] at hx
        rw [if_pos (hbj ▸ hb2)] at hx
        cases hx
        rw [hw]
        omega
      · simp only [hbj, if_false] at hx
        have := hp j x hx
        omega
    have h2 := ih (B + e.Dur.natAbs) _ st' (greedyStep_GInv m hm st _ hinv e hs) h1
      (by omega) h
    intro j x hx
    have := h2 j x hx
    omega

/-- Counterexample to C10 as stated: with one chunk and two entries of
5 000 000 000 seconds each, the total after the first entry is
5 000 000 000 000 000 000 ns and the total after the second one is
-8 446 744 073 709 551 616 ns, not the former increased by the weight of the
second entry: the product of the running sum and `time.Second` wraps around
in `int64`. -/
theorem greedyPartition_total_wraps :
    greedyLoop 1 [⟨"a", 5000000000⟩]
        (List.replicate 1 { Keys := [], Total := 0 }, List.replicate 1 0) =
      some ([⟨["a"], 5000000000000000000⟩], [5000000000]) ∧
    greedyPartition idleRand [⟨"a", 5000000000⟩, ⟨"b", 5000000000⟩] 1 =
      some [⟨["a", "b"], -8446744073709551616⟩] ∧
    (-8446744073709551616 : Int) ≠ 5000000000000000000 + 5000000000 * Second := by
  decide

/-- C10, amended: for every `m ≥ 1` and every entry list, `greedyPartition`
handles the entries in the order left by the shuffle; while the absolute
weights of the entries handled so far, the current one included, sum to less
than `2^63` nanoseconds, each entry is appended to the chunk whose running
total is smallest at that moment, the lowest index winning among equal totals;
the total of that chunk grows by the weight of the entry and no other chunk
changes. -/
theorem greedyPartition_appends_to_smallest (rng : Rand) (entries : List entry) (m : Int)
    (hm : 1 ≤ m) (pre post : List entry) (e : entry)
    (hsplit : (rng.shuffle entries).val = pre ++ e :: post)
    (hsum : ((pre ++ [e]).map fun x => x.Dur.natAbs).sum * 1000000000 <
      9223372036854775808) :
    ∃ chunks sums b c s,
      greedyLoop m.toNat pre
        (List.replicate m.toNat { Keys := [], Total := 0 }, List.replicate m.toNat 0) =
          some (chunks, sums) ∧
      chunks.length = m.toNat ∧ sums.length = m.toNat ∧
      (∀ (j : Nat) (cj : Chunk) (sj : Int), chunks[j]? = some cj → sums[j]? = some sj →
        cj.Total = sj * Second) ∧
      chunks[b]? = some c ∧ sums[b]? = some s ∧
      (∀ j cj, chunks[j]? = some cj → c.Total ≤ cj.Total ∧ (j < b → c.Total < cj.Total)) ∧
      greedyLoop m.toNat (pre ++ [e])
        (List.replicate m.toNat { Keys := [], Total := 0 }, List.replicate m.toNat 0) =
          some (chunks.set b { Keys := c.Keys ++ [e.Key], Total := c.Total + e.Dur * Second },
                sums.set b (s + e.Dur)) ∧
      greedyPartition rng entries m =
        (greedyLoop m.toNat post
          (chunks.set b { Keys := c.Keys ++ [e.Key], Total := c.Total + e.Dur * Second },
           sums.set b (s + e.Dur))).map Prod.fst := by
  have hm1 : 1 ≤ m.toNat := by omega
  have hS : Second = 1000000000 := rfl
  simp only [List.map_append, List.sum_append, List.map_cons, List.map_nil, List.sum_cons,
    List.sum_nil] at hsum
  obtain ⟨st, hpre, hinv⟩ := greedyLoop_some m.toNat hm1 pre _ (GInv_init m.toNat)
  have hbd := greedyLoop_sums_bounded m.toNat hm1 pre 0 _ st (GInv_init m.toNat)
    (by
      intro j s hs
      have hj : j < m.toNat := by simpa using getElem?_lt_of_some hs
      simp only [List.getElem?_replicate, hj, if_true, Option.some.injEq] at hs
      subst hs
      exact le_refl _)
    (by omega) hpre
  obtain ⟨b, c, s, hc, hs, htot, hmin, hstep⟩ := greedyStep_spec m.toNat hm1 st hinv e
  have hex : ∀ (j : Nat) (cj : Chunk) (sj : Int), st.1[j]? = some cj → st.2[j]? = some sj →
      cj.Total = sj * Second := by
    intro j cj sj hcj hsj
    have h1 := hbd j sj hsj
    rw [hinv.2.2 j cj sj hcj hsj, hS]
    exact wrap64_of_range (by omega) (by omega)
  have hsB := hbd b s hs
  have hw1 : wrap64 (s + e.Dur) = s + e.Dur := wrap64_of_range (by omega) (by omega)
  have hw2 : wrap64 ((s + e.Dur) * Second) = c.Total + e.Dur * Second := by
    rw [hex b c s hc hs, ← Int.add_mul, hS]
    exact wrap64_of_range (by omega) (by omega)
  rw [hw1, hw2] at hstep
  have hminT : ∀ j cj, st.1[j]? = some cj →
      c.Total ≤ cj.Total ∧ (j < b → c.Total < cj.Total) := by
    intro j cj hj
    have hjl : j < st.2.length := by
      have := getElem?_lt_of_some hj
      rw [hinv.2.1, ← hinv.1]
      exact this
    have hsj : st.2[j]? = some st.2[j] := List.getElem?_eq_getElem hjl
    have e1 := hex j cj _ hj hsj
    have e2 := hmin j _ hsj
    rw [hex b c s hc hs, e1]
    constructor
    · exact Int.mul_le_mul_of_nonneg_right e2.1 (le_of_lt Second_pos)
    · intro hjb
      exact Int.mul_lt_mul_of_pos_right (e2.2 hjb) Second_pos
  refine ⟨st.1, st.2, b, c, s, hpre, hinv.1, hinv.2.1, hex, hc, hs, hminT, ?_, ?_⟩
  · rw [greedyLoop_append, hpre]
    simp only [Option.some_bind, greedyLoop, hstep]
  · have happ : pre ++ e :: post = (pre ++ [e]) ++ post := by simp
    simp only [greedyPartition, if_neg (show ¬ m < 0 by omega), hsplit]
    rw [happ, greedyLoop_append, greedyLoop_append, hpre]
    simp only [Option.some_bind, greedyLoop, hstep]

theorem greedyPartition_appends_to_smallest_witness :
    (1 : Int) ≤ 2 ∧
    (sampleRand.shuffle [⟨"a", 3⟩, ⟨"b", 2⟩, ⟨"c", 1⟩]).val =
      [⟨"c", 1⟩] ++ (⟨"b", 2⟩ : entry) :: [⟨"a", 3⟩] ∧
    ((([⟨"c", 1⟩] : List entry) ++ [(⟨"b", 2⟩ : entry)]).map fun x => x.Dur.natAbs).sum *
      1000000000 < 9223372036854775808 ∧
    ∃ chunks sums b c s,
      greedyLoop (2 : Int).toNat [⟨"c", 1⟩]
        (List.replicate (2 : Int).toNat { Keys := [], Total := 0 },
          List.replicate (2 : Int).toNat 0) = some (chunks, sums) ∧
      chunks.length = (2 : Int).toNat ∧ sums.length = (2 : Int).toNat ∧
      (∀ (j : Nat) (cj : Chunk) (sj : Int), chunks[j]? = some cj → sums[j]? = some sj →
        cj.Total = sj * Second) ∧
      chunks[b]? = some c ∧ sums[b]? = some s ∧
      (∀ j cj, chunks[j]? = some cj → c.Total ≤ cj.Total ∧ (j < b → c.Total < cj.Total)) ∧
      greedyLoop (2 : Int).toNat ([⟨"c", 1⟩] ++ [(⟨"b", 2⟩ : entry)])
        (List.replicate (2 : Int).toNat { Keys := [], Total := 0 },
          List.replicate (2 : Int).toNat 0) =
          some (chunks.set b
            { Keys := c.Keys ++ [(⟨"b", 2⟩ : entry).Key],
              Total := c.Total + (⟨"b", 2⟩ : entry).Dur * Second },
            sums.set b (s + (⟨"b", 2⟩ : entry).Dur)) ∧
      greedyPartition sampleRand [⟨"a", 3⟩, ⟨"b", 2⟩, ⟨"c", 1⟩] 2 =
        (greedyLoop (2 : Int).toNat [⟨"a", 3⟩]
          (chunks.set b
            { Keys := c.Keys ++ [(⟨"b", 2⟩ : entry).Key],
              Total := c.Total + (⟨"b", 2⟩ : entry).Dur * Second },
           sums.set b (s + (⟨"b", 2⟩ : entry).Dur))).map Prod.fst :=
  ⟨by decide, rfl, by decide,
    greedyPartition_appends_to_smallest sampleRand [⟨"a", 3⟩, ⟨"b", 2⟩, ⟨"c", 1⟩] 2 (by decide)
      [⟨"c", 1⟩] [⟨"a", 3⟩] ⟨"b", 2⟩ rfl (by decide)⟩

/-! ## Totals and truncation -/

theorem lookup_of_mem_nodup (data : List (String × Int)) (hnd : (data.map Prod.fst).Nodup) :
    ∀ kv ∈ data, data.lookup kv.1 = some kv.2 := by
  induction data with
  | nil => intro kv hkv; cases hkv
  | cons x xs ih =>
    intro kv hkv
    obtain ⟨k0, v0⟩ := x
    simp only [List.map_cons, List.nodup_cons] at hnd
    rcases List.mem_cons.mp hkv with h | h
    · subst h
      simp [List.lookup_cons]
    · have hne : kv.1 ≠ k0 := by
        intro hcon
        exact hnd.1 (hcon ▸ List.mem_map_of_mem Prod.fst h)
      rw [List.lookup_cons]
      have : (kv.1 == k0) = false := by simpa using hne
      rw [this]
      exact ih hnd.2 kv h

theorem collect_map_eq_trunc (data : List (String × Int)) (hnd : (data.map Prod.fst).Nodup)
    (k : String) (hk : k ∈ data.map Prod.fst) :
    (collect data ([], fun _ => 0)).2 k = truncSeconds (durationOf data k) := by
  obtain ⟨kv, hkv, rfl⟩ := List.mem_map.mp hk
  rw [collect_map_nodup data _ hnd kv hkv, durationOf, lookup_of_mem_nodup data hnd kv hkv]
  rfl

theorem mem_allKeys_of_mem {l : List Chunk} {c : Chunk} {k : String} (hc : c ∈ l)
    (hk : k ∈ c.Keys) : k ∈ allKeys l := by
  unfold allKeys
  exact List.mem_flatten.mpr ⟨c.Keys, List.mem_map_of_mem Chunk.Keys hc, hk⟩

/-- Counterexample to C17 as stated, in two ways.  The duration
16 777 216 999 999 999 ns truncates to 16 777 216 whole seconds, but its
conversion through `float64` gives the weight 16 777 217, and the chunk that
holds the key has the total 16 777 217 000 000 000 ns.  Two durations of
5 000 000 000 seconds each in one chunk give it the total
-8 446 744 073 709 551 616 ns, which is neither the sum of the truncated
durations nor a whole number of seconds. -/
theorem SplitBalanced_total_not_truncated :
    (SplitBalanced idleRand [("a", 16777216999999999)] 1 =
        some [⟨["a"], 16777217000000000⟩] ∧
      wholeSeconds (durationOf [("a", 16777216999999999)] "a") = 16777216 ∧
      (16777217000000000 : Int) ≠
        ((["a"] : List String).map fun k =>
          wholeSeconds (durationOf [("a", 16777216999999999)] k)).sum * Second) ∧
    (SplitBalanced idleRand [("a", 5000000000000000000), ("b", 5000000000000000000)] 1 =
        some [⟨["a", "b"], -8446744073709551616⟩] ∧
      (-8446744073709551616 : Int) ≠
        ((["a", "b"] : List String).map fun k => wholeSeconds (durationOf
          [("a", 5000000000000000000), ("b", 5000000000000000000)] k)).sum * Second ∧
      ¬ Second ∣ (-8446744073709551616 : Int)) := by
  refine ⟨⟨?_, by decide, by decide⟩, ⟨?_, by decide, by decide⟩⟩
  · have hg : greedyPartition idleRand
        (collect [("a", 16777216999999999)] ([], fun _ => 0)).1 1 =
        some [⟨["a"], 16777217000000000⟩] := by
      rw [collect_rounds_up]
      decide
    refine (SplitBalanced_idle _ 1 _ hg (by decide)).trans ?_
    rw [collect_rounds_up]
    decide
  · have hc := collect_large [("a", 5000000000000000000), ("b", 5000000000000000000)]
      (by decide)
    have hg : greedyPartition idleRand
        (collect [("a", 5000000000000000000), ("b", 5000000000000000000)]
          ([], fun _ => 0)).1 1 =
        some [⟨["a", "b"], -8446744073709551616⟩] := by
      rw [hc]
      decide
    refine (SplitBalanced_idle _ 1 _ hg (by decide)).trans ?_
    rw [hc]
    decide

/-- C17, amended: for pairwise distinct keys whose durations are each below
`2^24` seconds in absolute value and sum, in absolute value, to less than
`2^63` nanoseconds, every `chunkCount ≥ 1` and every outcome of the random
draws, each returned chunk has `Total` equal to the sum, over its own keys, of
the input duration truncated toward zero to whole seconds; so every `Total` is
a whole number of seconds, and a duration shorter than one second contributes
weight 0. -/
theorem SplitBalanced_totals_truncated (rng : Rand) (data : List (String × Int))
    (chunkCount : Int) (h : 1 ≤ chunkCount) (hnd : (data.map Prod.fst).Nodup)
    (hsmall : ∀ kv ∈ data, kv.2.natAbs < 16777216 * 1000000000)
    (hsum : (data.map fun kv => kv.2.natAbs).sum < 9223372036854775808) :
    ∃ out, SplitBalanced rng data chunkCount = some out ∧
      (∀ c ∈ out,
        c.Total = (c.Keys.map fun k => wholeSeconds (durationOf data k)).sum * Second ∧
        Second ∣ c.Total) ∧
      (∀ kv ∈ data, 0 ≤ kv.2 → kv.2 < Second → truncSeconds (durationOf data kv.1) = 0) := by
  have htr : ∀ kv ∈ data, truncSeconds kv.2 = wholeSeconds kv.2 := by
    intro kv hkv
    have h2 := hsmall kv hkv
    exact truncSeconds_eq_wholeSeconds kv.2 (by norm_num; omega)
  have hb := sum_natAbs_trunc_le data htr
  obtain ⟨g, best, s0, sb, _, _, _, _, hperm, _, hEb, _, hout⟩ :=
    SplitBalanced_exact rng data chunkCount h hnd (by omega)
  refine ⟨_, hout, ?_, ?_⟩
  · intro c hc
    have hsum : (c.Keys.map (collect data ([], fun _ => 0)).2) =
        c.Keys.map fun k => wholeSeconds (durationOf data k) := by
      apply List.map_congr_left
      intro k hk
      have hk' := hperm.mem_iff.mp (mem_allKeys_of_mem hc hk)
      obtain ⟨kv, hkv, rfl⟩ := List.mem_map.mp hk'
      rw [collect_map_nodup data _ hnd kv hkv, durationOf, lookup_of_mem_nodup data hnd kv hkv]
      exact htr kv hkv
    have := hEb c hc
    rw [hsum] at this
    exact ⟨this, this ▸ Dvd.intro_left _ rfl⟩
  · intro kv hkv h0 h1
    rw [durationOf, lookup_of_mem_nodup data hnd kv hkv]
    show truncSeconds kv.2 = 0
    rw [htr kv hkv]
    exact Int.tdiv_eq_zero_of_lt h0 h1

theorem SplitBalanced_totals_truncated_witness :
    (1 : Int) ≤ 2 ∧
    (([("a", 1500000000), ("b", 999999999), ("c", 2000000000)] :
      List (String × Int)).map Prod.fst).Nodup ∧
    (∀ kv ∈ ([("a", 1500000000), ("b", 999999999), ("c", 2000000000)] : List (String × Int)),
      kv.2.natAbs < 16777216 * 1000000000) ∧
    (([("a", 1500000000), ("b", 999999999), ("c", 2000000000)] :
      List (String × Int)).map fun kv => kv.2.natAbs).sum < 9223372036854775808 ∧
    ∃ out, SplitBalanced sampleRand [("a", 1500000000), ("b", 999999999), ("c", 2000000000)] 2 =
        some out ∧
      (∀ c ∈ out,
        c.Total = (c.Keys.map fun k => wholeSeconds
          (durationOf [("a", 1500000000), ("b", 999999999), ("c", 2000000000)] k)).sum * Second ∧
        Second ∣ c.Total) ∧
      (∀ kv ∈ ([("a", 1500000000), ("b", 999999999), ("c", 2000000000)] : List (String × Int)),
        0 ≤ kv.2 → kv.2 < Second → truncSeconds
          (durationOf [("a", 1500000000), ("b", 999999999), ("c", 2000000000)] kv.1) = 0) :=
  ⟨by decide, by decide, by decide, by decide,
    SplitBalanced_totals_truncated sampleRand _ 2 (by decide) (by decide) (by decide)
      (by decide)⟩

/-- Counterexample to C18 as stated: two keys of 5 000 000 000 seconds each
have the weights 5 000 000 000; `greedyPartition` with one chunk gives that
chunk the total -8 446 744 073 709 551 616 ns, while its weights sum to
10 000 000 000 seconds. -/
theorem cached_total_wraps :
    greedyPartition idleRand
        (collect [("a", 5000000000000000000), ("b", 5000000000000000000)]
          ([], fun _ => 0)).1 1 =
      some [⟨["a", "b"], -8446744073709551616⟩] ∧
    ((["a", "b"] : List String).map
      (collect [("a", 5000000000000000000), ("b", 5000000000000000000)]
        ([], fun _ => 0)).2).sum * Second = 10000000000000000000 := by
  rw [collect_large [("a", 5000000000000000000), ("b", 5000000000000000000)] (by decide)]
  decide

/-- C18, amended: cached-total invariant.  For an entry list with pairwise
distinct keys and the weight map built from it, while the absolute weights sum
to less than `2^63` nanoseconds, every chunk produced by `greedyPartition` has
`Total` equal to the sum of the weights of its keys, and `simulatedAnnealing`
started from that partition returns, for every iteration budget and every
outcome of the random draws, a partition with the same property; recomputing
the totals then changes nothing. -/
theorem cached_totals_invariant (rng : Rand) (data : List (String × Int)) (m : Int)
    (hm : 1 ≤ m) (hnd : (data.map Prod.fst).Nodup)
    (hsum : (data.map fun kv => (truncSeconds kv.2).natAbs).sum * 1000000000 <
      9223372036854775808)
    (iterations : Int) (tempStart tempEnd : Rat) :
    ∃ g, greedyPartition rng (collect data ([], fun _ => 0)).1 m = some g ∧
      (∀ c ∈ g, c.Total = (c.Keys.map (collect data ([], fun _ => 0)).2).sum * Second) ∧
      ∃ best, simulatedAnnealing rng g iterations tempStart tempEnd
          (collect data ([], fun _ => 0)).2 = some best ∧
        (∀ c ∈ best, c.Total = (c.Keys.map (collect data ([], fun _ => 0)).2).sum * Second) ∧
        retotal (collect data ([], fun _ => 0)).2 best = best := by
  obtain ⟨g, hg, hlen, hkeys, hret, _⟩ :=
    greedyPartition_spec rng (collect data ([], fun _ => 0)).1 m hm
  rw [collect_keys] at hkeys
  have hRg := hret _ (collect_consistent data hnd)
  have hgne : g ≠ [] := by
    intro hcon
    rw [hcon] at hlen
    simp only [List.length_nil] at hlen
    omega
  obtain ⟨best, s0, sb, hsa, hok, _, _, _⟩ :=
    simulatedAnnealing_spec rng g hgne iterations tempStart tempEnd
      (collect data ([], fun _ => 0)).2
  have hRb := retotal_of_ok _ g best hRg hok
  exact ⟨g, hg, ExactTotals_of_data data hnd g hkeys hRg hsum, best, hsa,
    ExactTotals_of_data data hnd best ((keys_of_ok hok).trans hkeys) hRb hsum,
    retotal_eq_of_Retotaled _ best hRb⟩

set_option maxRecDepth 100000 in
theorem cached_totals_invariant_witness :
    (1 : Int) ≤ 2 ∧
    (([("a", 3000000000), ("b", 2000000000), ("c", 1000000000)] :
      List (String × Int)).map Prod.fst).Nodup ∧
    (([("a", 3000000000), ("b", 2000000000), ("c", 1000000000)] :
      List (String × Int)).map fun kv => (truncSeconds kv.2).natAbs).sum * 1000000000 <
        9223372036854775808 ∧
    ∃ g, greedyPartition sampleRand
        (collect [("a", 3000000000), ("b", 2000000000), ("c", 1000000000)]
          ([], fun _ => 0)).1 2 = some g ∧
      (∀ c ∈ g, c.Total = (c.Keys.map (collect
        [("a", 3000000000), ("b", 2000000000), ("c", 1000000000)]
          ([], fun _ => 0)).2).sum * Second) ∧
      ∃ best, simulatedAnnealing sampleRand g 30 1000 (1 / 100)
          (collect [("a", 3000000000), ("b", 2000000000), ("c", 1000000000)]
            ([], fun _ => 0)).2 = some best ∧
        (∀ c ∈ best, c.Total = (c.Keys.map (collect
          [("a", 3000000000), ("b", 2000000000), ("c", 1000000000)]
            ([], fun _ => 0)).2).sum * Second) ∧
        retotal (collect [("a", 3000000000), ("b", 2000000000), ("c", 1000000000)]
          ([], fun _ => 0)).2 best = best :=
  ⟨by decide, by decide, by decide,
    cached_totals_invariant sampleRand _ 2 (by decide) (by decide) (by decide) 30 1000
      (1 / 100)⟩

/-! ## Which partition the annealing loop returns -/

theorem saIter_cases (durMap : String → Int) (d : Draw) (st : SAState) (h : st.current ≠ []) :
    (saAccepted durMap d st = none ∧
      (saIter durMap d st = some st ∨ saIter durMap d st = some (recordBest st))) ∨
    ∃ c s, saAccepted durMap d st = some (c, s) ∧ score c = some s ∧
      saIter durMap d st = some (recordBest { st with current := c, currentScore := s }) := by
  have hmove : (if d.coin = true then relocate d st.current else swapKeys d st.current) = some none ∨
      ∃ moved, (if d.coin = true then relocate d st.current else swapKeys d st.current) =
        some (some moved) ∧ moved.length = st.current.length := by
    by_cases hc : d.coin = true
    · rcases relocate_spec d st.current h with h1 | ⟨m, h1, h2, _⟩
      · exact Or.inl (by simpa only [if_pos hc] using h1)
      · exact Or.inr ⟨m, by simpa only [if_pos hc] using h1, h2⟩
    · rcases swapKeys_spec d st.current h with h1 | ⟨m, h1, h2, _⟩
      · exact Or.inl (by simpa only [if_neg hc] using h1)
      · exact Or.inr ⟨m, by simpa only [if_neg hc] using h1, h2⟩
  rcases hmove with hm | ⟨moved, hm, hl⟩
  · left
    refine ⟨?_, Or.inl ?_⟩
    · simp only [saAccepted, copyChunks_eq, hm]
    · simp only [saIter, copyChunks_eq, hm, Option.some_bind]
  · have hne : retotal durMap moved ≠ [] := by
      intro hcon
      have h1 := length_retotal durMap moved
      rw [hcon] at h1
      have h2 : 0 < st.current.length := List.length_pos.mpr h
      simp only [List.length_nil] at h1
      omega
    obtain ⟨ns, hs⟩ : ∃ ns, score (retotal durMap moved) = some ns := by
      obtain ⟨_, _, _, _, _, e⟩ := score_spec _ hne
      exact ⟨_, e⟩
    by_cases hacc : ns - st.currentScore < 0 ∨ d.accept = true
    · right
      refine ⟨retotal durMap moved, ns, ?_, hs, ?_⟩
      · simp only [saAccepted, copyChunks_eq, hm, hs, if_pos hacc]
      · simp only [saIter, copyChunks_eq, hm, Option.some_bind, hs, acceptNext, if_pos hacc]
    · left
      refine ⟨?_, Or.inr ?_⟩
      · simp only [saAccepted, copyChunks_eq, hm, hs, if_neg hacc]
      · simp only [saIter, copyChunks_eq, hm, Option.some_bind, hs, acceptNext, if_neg hacc]

theorem recordBest_of_le (st : SAState) (h : st.bestScore ≤ st.currentScore) :
    recordBest st = st := by
  unfold recordBest
  rw [if_neg (by omega)]

/-- The loop never fails on a non-empty current partition; its final `best`
is obtained from the initial `best` by running `keepBest` over the accepted
candidates, and every accepted candidate carries its own score. -/
theorem saLoop_trace (durMap : String → Int) (draw : Nat → Draw) :
    ∀ (k i : Nat) (st : SAState), st.current ≠ [] → st.bestScore ≤ st.currentScore →
      ∃ st', saLoop durMap draw i k st = some st' ∧
        (st'.best, st'.bestScore) =
          (acceptedRun durMap draw i k st).foldl keepBest (st.best, st.bestScore) ∧
        ∀ x ∈ acceptedRun durMap draw i k st, score x.1 = some x.2 := by
  intro k
  induction k with
  | zero =>
    intro i st _ _
    exact ⟨st, rfl, rfl, fun x hx => (by cases hx)⟩
  | succ k ih =>
    intro i st hne hle
    rcases saIter_cases durMap (draw i) st hne with ⟨hnone, hit⟩ | ⟨c, s, hsome, hsc, hit⟩
    · have hit' : saIter durMap (draw i) st = some st := by
        rcases hit with h | h
        · exact h
        · rw [h, recordBest_of_le st hle]
      obtain ⟨st', h1, h2, h3⟩ := ih (i + 1) st hne hle
      refine ⟨st', ?_, ?_, ?_⟩
      · simp only [saLoop, hit', Option.some_bind, h1]
      · simp only [acceptedRun, hit', hnone, Option.toList, List.nil_append]
        exact h2
      · simp only [acceptedRun, hit', hnone, Option.toList, List.nil_append]
        exact h3
    · have hne1 : (recordBest { st with current := c, currentScore := s }).current ≠ [] := by
        unfold recordBest
        split <;> exact ne_nil_of_score hsc
      have hle1 : (recordBest { st with current := c, currentScore := s }).bestScore ≤
          (recordBest { st with current := c, currentScore := s }).currentScore := by
        unfold recordBest
        split
        · exact le_refl _
        · next hn => simpa using hn
      obtain ⟨st', h1, h2, h3⟩ := ih (i + 1) _ hne1 hle1
      have hkb : ((recordBest { st with current := c, currentScore := s }).best,
          (recordBest { st with current := c, currentScore := s }).bestScore) =
          keepBest (st.best, st.bestScore) (c, s) := by
        unfold recordBest keepBest
        by_cases hlt : s < st.bestScore
        · simp only [if_pos hlt, copyChunks_eq]
        · simp only [if_neg hlt]
      refine ⟨st', ?_, ?_, ?_⟩
      · simp only [saLoop, hit, Option.some_bind, h1]
      · simp only [acceptedRun, hit, hsome, Option.toList, List.singleton_append,
          List.foldl_cons]
        rw [h2, hkb]
      · simp only [acceptedRun, hit, hsome, Option.toList, List.singleton_append,
          List.mem_cons]
        intro x hx
        rcases hx with hx | hx
        · rw [hx]; exact hsc
        · exact h3 x hx

/-- What `keepBest` leaves after a list: a score that is minimal, and either
the start value (no element scored strictly lower) or the first element that
attains the minimum. -/
theorem foldl_keepBest_spec (A : List (List Chunk × Int)) :
    ∀ b0 : List Chunk × Int,
      (A.foldl keepBest b0).2 ≤ b0.2 ∧ (∀ x ∈ A, (A.foldl keepBest b0).2 ≤ x.2) ∧
      ((A.foldl keepBest b0 = b0 ∧ ∀ x ∈ A, b0.2 ≤ x.2) ∨
        ∃ pre post, A = pre ++ A.foldl keepBest b0 :: post ∧
          (A.foldl keepBest b0).2 < b0.2 ∧ ∀ x ∈ pre, (A.foldl keepBest b0).2 < x.2) := by
  induction A with
  | nil =>
    intro b0
    exact ⟨le_refl _, fun x hx => (by cases hx), Or.inl ⟨rfl, fun x hx => (by cases hx)⟩⟩
  | cons a rest ih =>
    intro b0
    simp only [List.foldl_cons]
    obtain ⟨h1, h2, h3⟩ := ih (keepBest b0 a)
    by_cases hlt : a.2 < b0.2
    · have hk : keepBest b0 a = a := by simp only [keepBest, if_pos hlt]
      rw [hk] at h1 h2 h3 ⊢
      refine ⟨by omega, ?_, Or.inr ?_⟩
      · intro x hx
        rcases List.mem_cons.mp hx with hx | hx
        · rw [hx]; exact h1
        · exact h2 x hx
      · rcases h3 with ⟨he, _⟩ | ⟨pre, post, he, hl, hp⟩
        · refine ⟨[], rest, (by rw [he]; rfl), (by rw [he]; exact hlt), fun x hx => (by cases hx)⟩
        · refine ⟨a :: pre, post, (by rw [List.cons_append, ← he]), (by omega), ?_⟩
          intro x hx
          rcases List.mem_cons.mp hx with hx | hx
          · rw [hx]; exact hl
          · exact hp x hx
    · have hk : keepBest b0 a = b0 := by simp only [keepBest, if_neg hlt]
      rw [hk] at h1 h2 h3 ⊢
      refine ⟨h1, ?_, ?_⟩
      · intro x hx
        rcases List.mem_cons.mp hx with hx | hx
        · rw [hx]; omega
        · exact h2 x hx
      · rcases h3 with ⟨he, hall⟩ | ⟨pre, post, he, hl, hp⟩
        · left
          refine ⟨he, ?_⟩
          intro x hx
          rcases List.mem_cons.mp hx with hx | hx
          · rw [hx]; omega
          · exact hall x hx
        · right
          refine ⟨a :: pre, post, (by rw [List.cons_append, ← he]), hl, ?_⟩
          intro x hx
          rcases List.mem_cons.mp hx with hx | hx
          · rw [hx]; omega
          · exact hp x hx

/-- C19: for every run of `simulatedAnnealing` on a non-empty chunk list, the
score of the returned partition is the minimum of the initial score and the
scores of all candidates accepted as `current`; the returned partition is the
initial one when no accepted candidate scored strictly lower, and otherwise
the earliest accepted candidate that attains the minimum. -/
theorem simulatedAnnealing_returns_earliest_min (rng : Rand) (chunks : List Chunk)
    (hne : chunks ≠ []) (iterations : Int) (tempStart tempEnd : Rat) (durMap : String → Int) :
    ∃ best s0 sb,
      simulatedAnnealing rng chunks iterations tempStart tempEnd durMap = some best ∧
      score chunks = some s0 ∧ score best = some sb ∧
      (∀ x ∈ acceptedCandidates rng chunks iterations durMap, score x.1 = some x.2) ∧
      sb ≤ s0 ∧ (∀ x ∈ acceptedCandidates rng chunks iterations durMap, sb ≤ x.2) ∧
      ((∀ x ∈ acceptedCandidates rng chunks iterations durMap, s0 ≤ x.2) →
        best = chunks ∧ sb = s0) ∧
      ((∃ x ∈ acceptedCandidates rng chunks iterations durMap, x.2 < s0) →
        ∃ pre post, acceptedCandidates rng chunks iterations durMap = pre ++ (best, sb) :: post ∧
          sb < s0 ∧ ∀ x ∈ pre, sb < x.2) := by
  obtain ⟨s0, hs0⟩ : ∃ s0, score chunks = some s0 := by
    obtain ⟨_, _, _, _, _, e⟩ := score_spec chunks hne
    exact ⟨_, e⟩
  obtain ⟨st', hl, hfold, hsc⟩ := saLoop_trace durMap rng.draw iterations.toNat 0
    { best := chunks, bestScore := s0, current := chunks, currentScore := s0 } hne (le_refl _)
  have hA : acceptedCandidates rng chunks iterations durMap =
      acceptedRun durMap rng.draw 0 iterations.toNat
        { best := chunks, bestScore := s0, current := chunks, currentScore := s0 } := by
    simp only [acceptedCandidates, copyChunks_eq, hs0]
  have hSA : simulatedAnnealing rng chunks iterations tempStart tempEnd durMap =
      some st'.best := by
    simp only [simulatedAnnealing, copyChunks_eq, hs0, Option.some_bind, hl, Option.map_some']
  rw [hA]
  obtain ⟨h1, h2, h3⟩ := foldl_keepBest_spec
    (acceptedRun durMap rng.draw 0 iterations.toNat
      { best := chunks, bestScore := s0, current := chunks, currentScore := s0 }) (chunks, s0)
  simp only [← hfold] at h1 h2 h3
  have hscore : score st'.best = some st'.bestScore := by
    rcases h3 with ⟨he, _⟩ | ⟨pre, post, he, _, _⟩
    · simp only [Prod.mk.injEq] at he
      rw [he.1, he.2]
      exact hs0
    · exact hsc (st'.best, st'.bestScore) (by rw [he]; simp)
  refine ⟨st'.best, s0, st'.bestScore, hSA, hs0, hscore, hsc, h1, h2, ?_, ?_⟩
  · intro hall
    rcases h3 with ⟨he, _⟩ | ⟨pre, post, he, hlt, _⟩
    · simpa only [Prod.mk.injEq] using he
    · have := hall (st'.best, st'.bestScore) (by rw [he]; simp)
      simp only at this hlt
      omega
  · intro hex
    rcases h3 with ⟨_, hall⟩ | ⟨pre, post, he, hlt, hp⟩
    · obtain ⟨x, hx, hxl⟩ := hex
      have := hall x hx
      simp only at this
      omega
    · exact ⟨pre, post, he, hlt, hp⟩

theorem simulatedAnnealing_returns_earliest_min_witness :
    ([⟨["a", "b"], 5000000000⟩, ⟨["c"], 1000000000⟩] : List Chunk) ≠ [] ∧
    ∃ best s0 sb,
      simulatedAnnealing sampleRand [⟨["a", "b"], 5000000000⟩, ⟨["c"], 1000000000⟩] 6 1000
        (1 / 100) (fun k => if k = "a" then 3 else if k = "b" then 2 else 1) = some best ∧
      score [⟨["a", "b"], 5000000000⟩, ⟨["c"], 1000000000⟩] = some s0 ∧
      score best = some sb ∧
      (∀ x ∈ acceptedCandidates sampleRand [⟨["a", "b"], 5000000000⟩, ⟨["c"], 1000000000⟩] 6
        (fun k => if k = "a" then 3 else if k = "b" then 2 else 1), score x.1 = some x.2) ∧
      sb ≤ s0 ∧
      (∀ x ∈ acceptedCandidates sampleRand [⟨["a", "b"], 5000000000⟩, ⟨["c"], 1000000000⟩] 6
        (fun k => if k = "a" then 3 else if k = "b" then 2 else 1), sb ≤ x.2) ∧
      ((∀ x ∈ acceptedCandidates sampleRand [⟨["a", "b"], 5000000000⟩, ⟨["c"], 1000000000⟩] 6
        (fun k => if k = "a" then 3 else if k = "b" then 2 else 1), s0 ≤ x.2) →
        best = [⟨["a", "b"], 5000000000⟩, ⟨["c"], 1000000000⟩] ∧ sb = s0) ∧
      ((∃ x ∈ acceptedCandidates sampleRand [⟨["a", "b"], 5000000000⟩, ⟨["c"], 1000000000⟩] 6
        (fun k => if k = "a" then 3 else if k = "b" then 2 else 1), x.2 < s0) →
        ∃ pre post, acceptedCandidates sampleRand
            [⟨["a", "b"], 5000000000⟩, ⟨["c"], 1000000000⟩] 6
            (fun k => if k = "a" then 3 else if k = "b" then 2 else 1) =
              pre ++ (best, sb) :: post ∧
          sb < s0 ∧ ∀ x ∈ pre, sb < x.2) :=
  ⟨by decide,
    simulatedAnnealing_returns_earliest_min sampleRand _ (by decide) 6 1000 (1 / 100) _⟩

/-! ## Inputs below one second -/

theorem score_nonneg {l : List Chunk} {s : Int} (h : score l = some s) : 0 ≤ s := by
  obtain ⟨cmin, hmin, cmax, hmax, hb, hs⟩ := score_spec l (ne_nil_of_score h)
  rw [h] at hs
  cases hs
  have := (hb cmax hmax).1
  exact wholeSeconds_nonneg (by omega)

/-- A partition of score 0 is returned unchanged by `simulatedAnnealing`. -/
theorem simulatedAnnealing_of_score_zero (rng : Rand) (chunks : List Chunk)
    (hs0 : score chunks = some 0) (iterations : Int) (tempStart tempEnd : Rat)
    (durMap : String → Int) :
    simulatedAnnealing rng chunks iterations tempStart tempEnd durMap = some chunks := by
  have hne := ne_nil_of_score hs0
  obtain ⟨st', hl, hfold, hsc⟩ := saLoop_trace durMap rng.draw iterations.toNat 0
    { best := chunks, bestScore := 0, current := chunks, currentScore := 0 } hne (le_refl _)
  obtain ⟨_, _, h3⟩ := foldl_keepBest_spec
    (acceptedRun durMap rng.draw 0 iterations.toNat
      { best := chunks, bestScore := 0, current := chunks, currentScore := 0 }) (chunks, 0)
  simp only [← hfold] at h3
  have hbest : st'.best = chunks := by
    rcases h3 with ⟨he, _⟩ | ⟨pre, post, he, hlt, _⟩
    · simp only [Prod.mk.injEq] at he
      exact he.1
    · have := score_nonneg (hsc (st'.best, st'.bestScore) (by rw [he]; simp))
      simp only at this hlt
      omega
  simp only [simulatedAnnealing, copyChunks_eq, hs0, Option.some_bind, hl, Option.map_some',
    hbest]

theorem pickBest_replicate_zero (n : Nat) :
    pickBest (List.replicate (n + 1) 0) (n + 1) = some 0 := by
  obtain ⟨b, sb, hp, hsb, hmin⟩ :=
    pickBest_spec (List.replicate (n + 1) 0) (n + 1) (by omega) (by simp)
  have hb : b < n + 1 := by simpa using getElem?_lt_of_some hsb
  have hsb0 : sb = 0 := by
    simp only [List.getElem?_replicate, hb, if_true, Option.some.injEq] at hsb
    exact hsb.symm
  have h0 : (List.replicate (n + 1) (0 : Int))[0]? = some 0 := by simp
  have := (hmin 0 0 h0).2
  have hb0 : b = 0 := by
    by_contra hcon
    have := this (Nat.pos_of_ne_zero hcon)
    omega
  rw [hp, hb0]

/-- With weights that are all 0 the greedy loop puts every key into chunk 0. -/
theorem greedyLoop_all_zero (n : Nat) (es : List entry) :
    (∀ e ∈ es, e.Dur = 0) → ∀ ks : List String,
      greedyLoop (n + 1) es
        ({ Keys := ks, Total := 0 } :: List.replicate n { Keys := [], Total := 0 },
          List.replicate (n + 1) 0) =
        some ({ Keys := ks ++ es.map entry.Key, Total := 0 } ::
          List.replicate n { Keys := [], Total := 0 }, List.replicate (n + 1) 0) := by
  induction es with
  | nil => intro _ ks; simp [greedyLoop]
  | cons e es ih =>
    intro hz ks
    have he : e.Dur = 0 := hz e (List.mem_cons_self _ _)
    have hstep : greedyStep (n + 1)
        ({ Keys := ks, Total := 0 } :: List.replicate n { Keys := [], Total := 0 },
          List.replicate (n + 1) 0) e =
        some ({ Keys := ks ++ [e.Key], Total := 0 } ::
          List.replicate n { Keys := [], Total := 0 }, List.replicate (n + 1) 0) := by
      simp only [greedyStep, pickBest_replicate_zero, Option.some_bind]
      simp only [List.getElem?_cons_zero, List.replicate_succ, Option.some_bind,
        List.set_cons_zero, he, add_zero, wrap64_zero, Int.zero_mul]
    simp only [greedyLoop, hstep, Option.some_bind]
    rw [ih (fun x hx => hz x (List.mem_cons_of_mem _ hx))]
    simp

theorem score_all_zero (ks : List String) (n : Nat) :
    score ({ Keys := ks, Total := 0 } :: List.replicate n { Keys := [], Total := 0 }) =
      some 0 := by
  obtain ⟨cmin, hmin, cmax, hmax, _, hs⟩ :=
    score_spec ({ Keys := ks, Total := 0 } :: List.replicate n { Keys := [], Total := 0 })
      (by simp)
  have hz : ∀ c ∈ ({ Keys := ks, Total := 0 } :: List.replicate n ({ Keys := [], Total := 0 } :
      Chunk)), c.Total = 0 := by
    intro c hc
    rcases List.mem_cons.mp hc with h | h
    · rw [h]
    · rw [(List.mem_replicate.mp h).2]
  rw [hs, hz cmin hmin, hz cmax hmax]
  rfl

/-- C20: for pairwise distinct keys whose durations all lie in `[0, 1 s)`,
every `chunkCount ≥ 1` and every outcome of the random draws, `SplitBalanced`
puts every key into the first chunk and leaves every other chunk empty, all
with `Total` 0. -/
theorem SplitBalanced_subsecond_first_chunk (rng : Rand) (data : List (String × Int))
    (chunkCount : Int) (h : 1 ≤ chunkCount) (hnd : (data.map Prod.fst).Nodup)
    (hsub : ∀ kv ∈ data, 0 ≤ kv.2 ∧ kv.2 < Second) :
    ∃ ks, ks.Perm (data.map Prod.fst) ∧
      SplitBalanced rng data chunkCount =
        some ({ Keys := ks, Total := 0 } ::
          List.replicate (chunkCount.toNat - 1) { Keys := [], Total := 0 }) := by
  obtain ⟨n, hn⟩ : ∃ n, chunkCount.toNat = n + 1 := ⟨chunkCount.toNat - 1, by omega⟩
  have hz : ∀ e ∈ (rng.shuffle (collect data ([], fun _ => 0)).1).val, e.Dur = 0 := by
    intro e he
    have he' := (rng.shuffle _).property.subset he
    rw [collect_entries] at he'
    simp only [List.nil_append, List.mem_map] at he'
    obtain ⟨kv, hkv, rfl⟩ := he'
    have h0 := (hsub kv hkv).1
    have h1 := (hsub kv hkv).2
    have hS : Second = 1000000000 := rfl
    show truncSeconds kv.2 = 0
    rw [truncSeconds_eq_wholeSeconds kv.2 (by rw [hS] at h1; norm_num; omega)]
    exact Int.tdiv_eq_zero_of_lt h0 h1
  have hg : greedyPartition rng (collect data ([], fun _ => 0)).1 chunkCount =
      some (⟨(rng.shuffle (collect data ([], fun _ => 0)).1).val.map entry.Key, 0⟩ ::
        List.replicate n { Keys := [], Total := 0 }) := by
    have := greedyLoop_all_zero n _ hz []
    simp only [List.nil_append] at this
    simp only [greedyPartition, if_neg (show ¬ chunkCount < 0 by omega), hn,
      List.replicate_succ]
    simp only [List.replicate_succ] at this
    rw [this]
    rfl
  obtain ⟨g', hg', _, _, hret, _⟩ :=
    greedyPartition_spec rng (collect data ([], fun _ => 0)).1 chunkCount h
  rw [hg] at hg'
  cases hg'
  have hR := hret _ (collect_consistent data hnd)
  refine ⟨(rng.shuffle (collect data ([], fun _ => 0)).1).val.map entry.Key, ?_, ?_⟩
  · rw [← collect_keys]
    exact (rng.shuffle _).property.map entry.Key
  · simp only [SplitBalanced, hg, Option.some_bind,
      simulatedAnnealing_of_score_zero rng _ (score_all_zero _ n), retotal_eq_of_Retotaled _ _ hR,
      hn, Nat.add_sub_cancel]

theorem SplitBalanced_subsecond_first_chunk_witness :
    (1 : Int) ≤ 3 ∧
    (([("a", 0), ("b", 999999999), ("c", 500000000)] : List (String × Int)).map Prod.fst).Nodup ∧
    (∀ kv ∈ ([("a", 0), ("b", 999999999), ("c", 500000000)] : List (String × Int)),
      0 ≤ kv.2 ∧ kv.2 < Second) ∧
    ∃ ks, ks.Perm (([("a", 0), ("b", 999999999), ("c", 500000000)] :
        List (String × Int)).map Prod.fst) ∧
      SplitBalanced sampleRand [("a", 0), ("b", 999999999), ("c", 500000000)] 3 =
        some ({ Keys := ks, Total := 0 } ::
          List.replicate ((3 : Int).toNat - 1) { Keys := [], Total := 0 }) :=
  ⟨by decide, by decide, by decide,
    SplitBalanced_subsecond_first_chunk sampleRand _ 3 (by decide) (by decide) (by decide)⟩

/-! ## The test input of ten keys -/

theorem manyChunksData_whole :
    ∀ kv ∈ manyChunksData, truncSeconds kv.2 = wholeSeconds kv.2 := by
  have hb : ∀ kv ∈ manyChunksData, kv.2.natAbs < 16777216 * 10 ^ 9 := by decide
  exact fun kv hkv => truncSeconds_eq_wholeSeconds kv.2 (hb kv hkv)

/-- Counterexample to C11 as stated: with the shuffle that keeps the input
order and draws that end every iteration at `continue`, the ten keys are split
into totals of 11, 9, 7, 13 and 15 seconds, which differ by 8 seconds. -/
theorem manyChunks_spread_exceeds_three :
    SplitBalanced idleRand manyChunksData 5 =
      some [⟨["a", "h"], 11000000000⟩, ⟨["b", "g"], 9000000000⟩, ⟨["c", "f"], 7000000000⟩,
        ⟨["d", "i"], 13000000000⟩, ⟨["e", "j"], 15000000000⟩] ∧
    ¬ ((15000000000 : Int) - 7000000000 ≤ 3 * Second) := by
  refine ⟨?_, by decide⟩
  have hc := collect_of_whole manyChunksData ([], fun _ => 0) manyChunksData_whole
  have hg : greedyPartition idleRand (collect manyChunksData ([], fun _ => 0)).1 5 =
      some [⟨["a", "h"], 11000000000⟩, ⟨["b", "g"], 9000000000⟩, ⟨["c", "f"], 7000000000⟩,
        ⟨["d", "i"], 13000000000⟩, ⟨["e", "j"], 15000000000⟩] := by
    rw [hc]
    decide
  have hsa := simulatedAnnealing_same_index idleRand (fun _ => ⟨rfl, rfl⟩)
    [⟨["a", "h"], 11000000000⟩, ⟨["b", "g"], 9000000000⟩, ⟨["c", "f"], 7000000000⟩,
      ⟨["d", "i"], 13000000000⟩, ⟨["e", "j"], 15000000000⟩] (by decide) 50000 1000 (1 / 100)
    (collect manyChunksData ([], fun _ => 0)).2
  exact (SplitBalanced_of_parts idleRand manyChunksData 5 _ _ hg hsa).trans
    (by rw [hc]; decide)

/-- C11, amended: for the ten keys a..j with 3, 2, 1, 4, 5, 6, 7, 8, 9 and 10
seconds, given in any order, and `chunkCount = 5`, for every outcome of the
random draws the largest chunk `Total` exceeds the smallest by at most 10
seconds, the largest single duration. -/
theorem manyChunks_spread_le_ten (rng : Rand) (data : List (String × Int))
    (hperm : data.Perm manyChunksData) :
    ∃ out, SplitBalanced rng data 5 = some out ∧
      ∀ c ∈ out, ∀ c' ∈ out, c.Total - c'.Total ≤ 10 * Second := by
  have hnd : (data.map Prod.fst).Nodup :=
    (hperm.map Prod.fst).nodup_iff.mpr (by decide)
  have hw : ∀ kv ∈ manyChunksData, 0 ≤ wholeSeconds kv.2 ∧ wholeSeconds kv.2 ≤ 10 := by
    decide
  have hall : ∀ kv ∈ manyChunksData, 0 ≤ truncSeconds kv.2 ∧ truncSeconds kv.2 ≤ 10 := by
    intro kv hkv
    rw [manyChunksData_whole kv hkv]
    exact hw kv hkv
  have hsum : (data.map fun kv => (truncSeconds kv.2).natAbs).sum * 1000000000 <
      9223372036854775808 := by
    rw [(hperm.map _).sum_eq]
    have h1 := sum_natAbs_trunc_le manyChunksData manyChunksData_whole
    have h2 : (manyChunksData.map fun kv => kv.2.natAbs).sum < 9223372036854775808 := by
      decide
    omega
  exact SplitBalanced_spread_seconds rng data 5 (by decide) hnd 10 (by decide)
    (fun kv hkv => hall kv (hperm.mem_iff.mp hkv)) hsum

theorem manyChunks_spread_le_ten_witness :
    manyChunksData.Perm manyChunksData ∧
    ∃ out, SplitBalanced sampleRand manyChunksData 5 = some out ∧
      ∀ c ∈ out, ∀ c' ∈ out, c.Total - c'.Total ≤ 10 * Second :=
  ⟨List.Perm.refl _, manyChunks_spread_le_ten sampleRand manyChunksData (List.Perm.refl _)⟩

/-- For at least one chunk `SplitBalanced` returns `chunkCount` chunks whose
keys are, taken together, a permutation of the input keys. -/
theorem SplitBalanced_keys_perm (rng : Rand) (data : List (String × Int)) (chunkCount : Int)
    (h : 1 ≤ chunkCount) :
    ∃ out, SplitBalanced rng data chunkCount = some out ∧ out.length = chunkCount.toNat ∧
      (allKeys out).Perm (data.map Prod.fst) := by
  obtain ⟨g, best, s0, sb, _, hlen, hkeys, _, hok, _, _, _, hout⟩ :=
    SplitBalanced_spec rng data chunkCount h
  refine ⟨_, hout, ?_, ?_⟩
  · rw [length_retotal, length_of_ok hok, hlen]
  · rw [allKeys_retotal]
    exact (keys_of_ok hok).trans hkeys

end Durchunk

namespace Command

open Durchunk

/-! ## createTestInfos -/

/-- Counterexample to C12 as stated: a history entry that records 0 for
`pkg.TestZ` exists, yet the test info gets 5 seconds, not the recorded 0. -/
theorem createTestInfos_zero_history_replaced :
    ([("pkg.TestZ", 0)] : List (String × Int)).lookup "pkg.TestZ" = some 0 ∧
    createTestInfos [("pkg", ["TestZ"])] [("pkg.TestZ", 0)] =
      [{ Package := "pkg", Function := "TestZ", Duration := 5000000000 }] ∧
    (5000000000 : Int) ≠ 0 := by
  decide

/-- C12, amended: `createTestInfos` produces exactly one test info per listed
(package, function) occurrence, in order, and nothing else; its duration is the
one recorded under `"<package>.<function>"` when that record exists and is not
0, and 5 seconds when no record exists or the record is 0. -/
theorem createTestInfos_spec (testFunctions : List (String × List String))
    (testDurations : List (String × Int)) :
    (createTestInfos testFunctions testDurations).map (fun ti => (ti.Package, ti.Function)) =
      testFunctions.flatMap (fun pf => pf.2.map fun fn => (pf.1, fn)) ∧
    ∀ ti ∈ createTestInfos testFunctions testDurations,
      ti.Duration =
        match testDurations.lookup (ti.Package ++ "." ++ ti.Function) with
        | some d => if d = 0 then 5 * Second else d
        | none => 5 * Second := by
  constructor
  · induction testFunctions with
    | nil => rfl
    | cons pf rest ih =>
      simp only [createTestInfos, List.flatMap_cons, List.map_append, List.map_map] at ih ⊢
      rw [ih]
      rfl
  · intro ti hti
    simp only [createTestInfos, List.mem_flatMap, List.mem_map] at hti
    obtain ⟨pf, _, fn, _, rfl⟩ := hti
    dsimp only
    cases testDurations.lookup (pf.1 ++ "." ++ fn) with
    | none => simp
    | some d => simp

/-- C13, the code at the input of `TestCreateTestInfos`: the durations stored
under `pkg1:TestA` and `pkg2:TestC` are not found, because the lookup key is
built with a dot, and every test info gets the default 5 seconds. -/
theorem createTestInfos_colon_history_ignored :
    createTestInfos [("pkg1", ["TestA", "TestB"]), ("pkg2", ["TestC"])]
        [("pkg1:TestA", 10000000000), ("pkg2:TestC", 5000000000)] =
      [{ Package := "pkg1", Function := "TestA", Duration := 5000000000 },
       { Package := "pkg1", Function := "TestB", Duration := 5000000000 },
       { Package := "pkg2", Function := "TestC", Duration := 5000000000 }] := by
  decide

/-! ## The line groups of generateScriptFiles -/

theorem chunkLoop_spec (n : Nat) (hn : 1 ≤ n) :
    ∀ (fuel : Nat) (s : List String), s.length ≤ fuel →
      (chunkLoop n fuel s).flatten = s ∧
      (∀ g ∈ chunkLoop n fuel s, 1 ≤ g.length ∧ g.length ≤ n) ∧
      (chunkLoop n fuel s).length = (s.length + n - 1) / n := by
  intro fuel
  induction fuel with
  | zero =>
    intro s hs
    have : s = [] := List.length_eq_zero.mp (by omega)
    subst this
    refine ⟨rfl, fun g hg => (by cases hg), ?_⟩
    simp only [chunkLoop, List.length_nil, Nat.zero_add]
    exact (Nat.div_eq_of_lt (by omega)).symm
  | succ fuel ih =>
    intro s hs
    by_cases h0 : s.length = 0
    · have : s = [] := List.length_eq_zero.mp h0
      subst this
      refine ⟨by simp [chunkLoop], fun g hg => (by simp [chunkLoop] at hg), ?_⟩
      simp only [chunkLoop, List.length_nil, Nat.zero_add, if_true]
      exact (Nat.div_eq_of_lt (by omega)).symm
    · obtain ⟨h1, h2, h3⟩ := ih (s.drop n) (by simp only [List.length_drop]; omega)
      simp only [chunkLoop, if_neg h0]
      refine ⟨?_, ?_, ?_⟩
      · rw [List.flatten_cons, h1, List.take_append_drop]
      · intro g hg
        rcases List.mem_cons.mp hg with hg | hg
        · rw [hg, List.length_take]
          omega
        · exact h2 g hg
      · rw [List.length_cons, h3, List.length_drop]
        have e1 : s.length + n - 1 = (s.length - 1) + n := by omega
        rw [e1, Nat.add_div_right _ (by omega)]
        by_cases hle : n ≤ s.length
        · have e2 : s.length - n + n - 1 = s.length - 1 := by omega
          rw [e2]
        · have e2 : s.length - n + n - 1 = n - 1 := by omega
          rw [e2, Nat.div_eq_of_lt (by omega), Nat.div_eq_of_lt (by omega)]

/-- C15: for a package with function list `fs`: when `MaxFunctions = m > 0`
the emitted test lines are `ceil(len(fs)/m)` contiguous groups of `fs`, each
holding between 1 and `m` functions, whose concatenation in order is `fs`; when
`MaxFunctions = z ≤ 0` exactly one test line holding all of `fs` is emitted;
in both cases the pattern of a line is `^(` followed by the names of its group
joined by `|` followed by `)$`. -/
theorem packageLines_groups (m : Int) (hm : 0 < m) (z : Int) (hz : z ≤ 0) (pkg : String)
    (fs : List String) (flags : String) :
    (∃ groups : List (List String),
      packageLines m pkg fs flags =
        some (groups.map fun g =>
          { Package := pkg, TestPattern := "^(" ++ "|".intercalate g ++ ")$",
            Flags := flags }) ∧
      groups.flatten = fs ∧
      (∀ g ∈ groups, 1 ≤ g.length ∧ (g.length : Int) ≤ m) ∧
      groups.length = (fs.length + m.toNat - 1) / m.toNat) ∧
    packageLines z pkg fs flags =
      some [{ Package := pkg, TestPattern := "^(" ++ "|".intercalate fs ++ ")$",
              Flags := flags }] := by
  constructor
  · obtain ⟨h1, h2, h3⟩ := chunkLoop_spec m.toNat (by omega) fs.length fs (le_refl _)
    refine ⟨chunkLoop m.toNat fs.length fs, ?_, h1, ?_, h3⟩
    · simp only [packageLines, gt_iff_lt, if_pos hm, slicesChunk,
        if_neg (show ¬ m < 1 by omega), Option.map_some']
    · intro g hg
      have := h2 g hg
      omega
  · simp only [packageLines, gt_iff_lt, if_neg (show ¬ 0 < z by omega)]

theorem packageLines_groups_witness :
    (0 : Int) < 2 ∧ (0 : Int) ≤ 0 ∧
    (∃ groups : List (List String),
      packageLines 2 "pkg1" ["TestA", "TestB", "TestC", "TestD", "TestE"] "-v" =
        some (groups.map fun g =>
          { Package := "pkg1", TestPattern := "^(" ++ "|".intercalate g ++ ")$",
            Flags := "-v" }) ∧
      groups.flatten = ["TestA", "TestB", "TestC", "TestD", "TestE"] ∧
      (∀ g ∈ groups, 1 ≤ g.length ∧ (g.length : Int) ≤ 2) ∧
      groups.length =
        (["TestA", "TestB", "TestC", "TestD", "TestE"].length + (2 : Int).toNat - 1) /
          (2 : Int).toNat) ∧
    packageLines 0 "pkg1" ["TestA", "TestB", "TestC", "TestD", "TestE"] "-v" =
      some [{ Package := "pkg1",
              TestPattern := "^(" ++ "|".intercalate
                ["TestA", "TestB", "TestC", "TestD", "TestE"] ++ ")$",
              Flags := "-v" }] :=
  ⟨by decide, by decide,
    packageLines_groups 2 (by decide) 0 (by decide) "pkg1"
      ["TestA", "TestB", "TestC", "TestD", "TestE"] "-v"⟩

/-! ## splitTests -/

theorem splitKey_testKey (p f : String) (hp : ':' ∉ p.data) :
    splitKey (testKey p f) = some (p, f) := by
  have hd : (testKey p f).data = p.data ++ ':' :: f.data := by
    simp only [testKey, String.data_append]
    rw [List.append_assoc]
    rfl
  have hi : (p.data ++ ':' :: f.data).indexOf ':' = p.data.length := by
    rw [List.indexOf_append_of_not_mem hp, List.indexOf_cons_self, Nat.add_zero]
  have hlt : p.data.length < (p.data ++ ':' :: f.data).length := by
    simp only [List.length_append, List.length_cons]
    omega
  have hdrop : List.drop (p.data.length + 1) (p.data ++ ':' :: f.data) = f.data := by
    rw [← List.drop_drop, List.drop_left' rfl]
    rfl
  have htake : List.take p.data.length (p.data ++ ':' :: f.data) = p.data :=
    List.take_left' rfl
  unfold splitKey
  rw [hd]
  simp only [hi, if_pos hlt, hdrop, htake]

theorem funcPairs_cons (pf : String × List String) (rest : List (String × List String)) :
    funcPairs (pf :: rest) = (pf.2.map fun fn => (pf.1, fn)) ++ funcPairs rest := by
  simp [funcPairs]

theorem funcPairs_appendFunc (funcs : List (String × List String)) (p f : String) :
    (funcPairs (appendFunc funcs p f)).Perm (funcPairs funcs ++ [(p, f)]) := by
  induction funcs with
  | nil => simp [appendFunc, funcPairs]
  | cons x xs ih =>
    obtain ⟨p0, fs⟩ := x
    by_cases h : p0 = p
    · subst h
      simp only [appendFunc, if_true, funcPairs_cons, List.map_append, List.map_cons,
        List.map_nil, List.append_assoc]
      exact List.Perm.append_left _ List.perm_append_comm
    · simp only [appendFunc, if_neg h, funcPairs_cons, List.append_assoc]
      exact List.Perm.append_left _ ih

theorem mem_keys_appendFunc (funcs : List (String × List String)) (p f k : String) :
    k ∈ (appendFunc funcs p f).map Prod.fst ↔ k = p ∨ k ∈ funcs.map Prod.fst := by
  induction funcs with
  | nil => simp [appendFunc]
  | cons x xs ih =>
    obtain ⟨p0, fs⟩ := x
    by_cases h : p0 = p
    · subst h
      simp [appendFunc]
    · simp only [appendFunc, if_neg h, List.map_cons, List.mem_cons, ih]
      tauto

theorem nodup_keys_appendFunc (funcs : List (String × List String)) (p f : String)
    (hnd : (funcs.map Prod.fst).Nodup) : ((appendFunc funcs p f).map Prod.fst).Nodup := by
  induction funcs with
  | nil => simp [appendFunc]
  | cons x xs ih =>
    obtain ⟨p0, fs⟩ := x
    simp only [List.map_cons, List.nodup_cons] at hnd
    by_cases h : p0 = p
    · subst h
      simpa [appendFunc] using hnd
    · simp only [appendFunc, if_neg h, List.map_cons, List.nodup_cons, mem_keys_appendFunc]
      refine ⟨?_, ih hnd.2⟩
      intro hcon
      rcases hcon with hcon | hcon
      · exact h hcon
      · exact hnd.1 hcon

theorem buildFuncs_spec (keys : List String) :
    ∀ funcs : List (String × List String),
      (∀ key ∈ keys, ∃ pf, splitKey key = some pf) → (funcs.map Prod.fst).Nodup →
      ∃ out, buildFuncs keys funcs = some out ∧
        (funcPairs out).Perm (funcPairs funcs ++ keys.filterMap splitKey) ∧
        (out.map Prod.fst).Nodup := by
  induction keys with
  | nil =>
    intro funcs _ hnd
    exact ⟨funcs, rfl, by simp, hnd⟩
  | cons key rest ih =>
    intro funcs hk hnd
    obtain ⟨pf, hpf⟩ := hk key (List.mem_cons_self _ _)
    obtain ⟨out, ho, hperm, hnd1⟩ := ih (appendFunc funcs pf.1 pf.2)
      (fun k hk1 => hk k (List.mem_cons_of_mem _ hk1)) (nodup_keys_appendFunc funcs _ _ hnd)
    refine ⟨out, ?_, ?_, hnd1⟩
    · simp only [buildFuncs, hpf, Option.some_bind, ho]
    · refine hperm.trans ?_
      simp only [List.filterMap_cons, hpf]
      have := (funcPairs_appendFunc funcs pf.1 pf.2).append_right (rest.filterMap splitKey)
      simpa using this

theorem nodeTestsFrom_spec (flags : String) (chunks : List Chunk) :
    ∀ i : Nat, (∀ c ∈ chunks, ∀ key ∈ c.Keys, ∃ pf, splitKey key = some pf) →
      ∃ nodes, nodeTestsFrom flags i chunks = some nodes ∧ nodes.length = chunks.length ∧
        (∀ (j : Nat) (nt : NodeTest), nodes[j]? = some nt →
          nt.NodeIndex = i + j ∧ nt.Flags = flags ∧ (nt.Funcs.map Prod.fst).Nodup) ∧
        (nodes.flatMap fun nt => funcPairs nt.Funcs).Perm
          ((allKeys chunks).filterMap splitKey) := by
  induction chunks with
  | nil =>
    intro i _
    exact ⟨[], rfl, rfl, fun j nt h => (by simp at h), by simp [allKeys]⟩
  | cons c cs ih =>
    intro i hk
    obtain ⟨funcs, hf, hperm, hnd⟩ := buildFuncs_spec c.Keys []
      (hk c (List.mem_cons_self _ _)) (by simp)
    obtain ⟨nodes, hn, hlen, hidx, hp⟩ := ih (i + 1)
      (fun c1 hc1 => hk c1 (List.mem_cons_of_mem _ hc1))
    refine ⟨{ NodeIndex := i, TotalDuration := c.Total, Funcs := funcs, Flags := flags } ::
      nodes, ?_, ?_, ?_, ?_⟩
    · simp only [nodeTestsFrom, hf, Option.some_bind, hn, Option.map_some']
    · simp only [List.length_cons, hlen]
    · intro j nt hj
      cases j with
      | zero =>
        simp only [List.getElem?_cons_zero, Option.some.injEq] at hj
        subst hj
        exact ⟨rfl, rfl, hnd⟩
      | succ j =>
        simp only [List.getElem?_cons_succ] at hj
        obtain ⟨h1, h2, h3⟩ := hidx j nt hj
        exact ⟨by omega, h2, h3⟩
    · simp only [List.flatMap_cons, allKeys_cons, List.filterMap_append]
      have hperm1 : (funcPairs funcs).Perm (c.Keys.filterMap splitKey) := by
        simpa [funcPairs] using hperm
      exact hperm1.append hp

theorem filterMap_splitKey_keys (testInfos : List TestInfo)
    (hcolon : ∀ ti ∈ testInfos, ':' ∉ ti.Package.data) :
    (testInfos.map fun ti => testKey ti.Package ti.Function).filterMap splitKey =
      testInfos.map fun ti => (ti.Package, ti.Function) := by
  induction testInfos with
  | nil => rfl
  | cons ti rest ih =>
    have h1 := splitKey_testKey ti.Package ti.Function (hcolon ti (List.mem_cons_self _ _))
    simp only [List.map_cons, List.filterMap_cons, h1,
      ih fun t ht => hcolon t (List.mem_cons_of_mem _ ht)]

/-- C14: for every `Nodes ≥ 1` and every list of test infos whose (package,
function) pairs are pairwise distinct and whose package names hold no colon,
and for every outcome of the random draws, `splitTests` yields exactly `Nodes`
node tests with `NodeIndex` 0, 1, ... in order; every pair of the test infos
occurs exactly once over the `Funcs` of all nodes, under its own package, and
no other function occurs; the `Flags` of every node is `TestFlags` joined by
single spaces. -/
theorem splitTests_assigns_each_function_once (rng : Rand) (Nodes : Int) (hN : 1 ≤ Nodes)
    (TestFlags : List String) (testInfos : List TestInfo)
    (hnd : (testInfos.map fun ti => (ti.Package, ti.Function)).Nodup)
    (hcolon : ∀ ti ∈ testInfos, ':' ∉ ti.Package.data) :
    ∃ nodes, splitTests rng Nodes TestFlags testInfos = some nodes ∧
      (nodes.length : Int) = Nodes ∧
      (∀ (j : Nat) (nt : NodeTest), nodes[j]? = some nt →
        nt.NodeIndex = j ∧ nt.Flags = " ".intercalate TestFlags ∧
          (nt.Funcs.map Prod.fst).Nodup) ∧
      (nodes.flatMap fun nt => funcPairs nt.Funcs).Perm
        (testInfos.map fun ti => (ti.Package, ti.Function)) ∧
      (nodes.flatMap fun nt => funcPairs nt.Funcs).Nodup := by
  obtain ⟨out, hout, hlen, hkeys⟩ := SplitBalanced_keys_perm rng
    (testInfos.map fun test => (testKey test.Package test.Function, test.Duration)) Nodes hN
  have hkeys1 : (allKeys out).Perm (testInfos.map fun ti => testKey ti.Package ti.Function) := by
    simpa [List.map_map, Function.comp_def] using hkeys
  have hsplit : ∀ c ∈ out, ∀ key ∈ c.Keys, ∃ pf, splitKey key = some pf := by
    intro c hc key hkey
    have hmem := hkeys1.mem_iff.mp (mem_allKeys_of_mem hc hkey)
    obtain ⟨ti, hti, rfl⟩ := List.mem_map.mp hmem
    exact ⟨_, splitKey_testKey ti.Package ti.Function (hcolon ti hti)⟩
  obtain ⟨nodes, hn, hnl, hidx, hp⟩ := nodeTestsFrom_spec (" ".intercalate TestFlags) out 0 hsplit
  have hperm : (nodes.flatMap fun nt => funcPairs nt.Funcs).Perm
      (testInfos.map fun ti => (ti.Package, ti.Function)) := by
    refine hp.trans ?_
    rw [← filterMap_splitKey_keys testInfos hcolon]
    exact hkeys1.filterMap splitKey
  refine ⟨nodes, ?_, ?_, ?_, hperm, hperm.nodup_iff.mpr hnd⟩
  · simp only [splitTests, hout, Option.some_bind, hn]
  · rw [hnl, hlen]
    omega
  · intro j nt hj
    obtain ⟨h1, h2, h3⟩ := hidx j nt hj
    exact ⟨by omega, h2, h3⟩

theorem splitTests_assigns_each_function_once_witness :
    (1 : Int) ≤ 2 ∧
    (sampleTestInfos.map fun ti => (ti.Package, ti.Function)).Nodup ∧
    (∀ ti ∈ sampleTestInfos, ':' ∉ ti.Package.data) ∧
    ∃ nodes, splitTests sampleRand 2 ["-test.timeout=20m"] sampleTestInfos = some nodes ∧
      (nodes.length : Int) = 2 ∧
      (∀ (j : Nat) (nt : NodeTest), nodes[j]? = some nt →
        nt.NodeIndex = j ∧ nt.Flags = " ".intercalate ["-test.timeout=20m"] ∧
          (nt.Funcs.map Prod.fst).Nodup) ∧
      (nodes.flatMap fun nt => funcPairs nt.Funcs).Perm
        (sampleTestInfos.map fun ti => (ti.Package, ti.Function)) ∧
      (nodes.flatMap fun nt => funcPairs nt.Funcs).Nodup :=
  ⟨by decide, by decide, by decide,
    splitTests_assigns_each_function_once sampleRand 2 (by decide) ["-test.timeout=20m"]
      sampleTestInfos (by decide) (by decide)⟩

end Command

namespace Scanner

/-! ## ScanTestFunctions -/

theorem lookup_mapSet_self (m : List (String × List String)) (k : String) (v : List String) :
    (mapSet m k v).lookup k = some v := by
  induction m with
  | nil => simp [mapSet, List.lookup_cons]
  | cons x xs ih =>
    obtain ⟨k0, v0⟩ := x
    by_cases h : k0 = k
    · simp [mapSet, h, List.lookup_cons]
    · have hb : (k == k0) = false := by simpa using fun e => h e.symm
      simp only [mapSet, if_neg h, List.lookup_cons, hb, ih]

theorem lookup_mapSet_other (m : List (String × List String)) (k k1 : String)
    (v : List String) (hne : k1 ≠ k) : (mapSet m k v).lookup k1 = m.lookup k1 := by
  induction m with
  | nil =>
    have hb : (k1 == k) = false := by simpa using hne
    simp only [mapSet, List.lookup_cons, hb, List.lookup_nil]
  | cons x xs ih =>
    obtain ⟨k0, v0⟩ := x
    by_cases h : k0 = k
    · have hb : (k1 == k) = false := by simpa using hne
      have hb0 : (k1 == k0) = false := by rw [h]; exact hb
      simp only [mapSet, if_pos h, List.lookup_cons, hb, hb0]
    · simp only [mapSet, if_neg h, List.lookup_cons, ih]

theorem scanLoop_lookup (isUpper : Char → Bool) (parseDir : String → Option (List String))
    (packages : List String) :
    ∀ funcs : List (String × List String),
      (∀ p, funcs.lookup p = none ∨ funcs.lookup p = expectedEntry isUpper parseDir p) →
      ∀ p, (scanLoop isUpper parseDir packages funcs).lookup p =
        if p ∈ packages then expectedEntry isUpper parseDir p else funcs.lookup p := by
  induction packages with
  | nil => intro funcs _ p; simp [scanLoop]
  | cons q rest ih =>
    intro funcs hinv p
    have hskip : expectedEntry isUpper parseDir q = none →
        (scanLoop isUpper parseDir rest funcs).lookup p =
          if p ∈ q :: rest then expectedEntry isUpper parseDir p else funcs.lookup p := by
      intro hq
      rw [ih funcs hinv p]
      by_cases hr : p ∈ rest
      · simp only [if_pos hr, List.mem_cons, hr, or_true, if_true]
      · by_cases hpq : p = q
        · subst hpq
          simp only [if_neg hr, List.mem_cons, true_or, if_true, hq]
          rcases hinv p with h | h
          · exact h
          · rw [h, hq]
        · simp only [if_neg hr, List.mem_cons, hpq, false_or]
    cases hpd : parseDir q with
    | none =>
      simp only [scanLoop, hpd]
      exact hskip (by simp only [expectedEntry, hpd])
    | some decls =>
      by_cases hf : decls.filter (isTestName isUpper) = []
      · simp only [scanLoop, hpd, hf, List.length_nil, gt_iff_lt, lt_irrefl, if_false]
        exact hskip (by simp only [expectedEntry, hpd, hf, if_true])
      · have hpos : (decls.filter (isTestName isUpper)).length > 0 := List.length_pos.mpr hf
        have hq : expectedEntry isUpper parseDir q = some (decls.filter (isTestName isUpper)) := by
          simp only [expectedEntry, hpd, if_neg hf]
        simp only [scanLoop, hpd, if_pos hpos]
        rw [ih (mapSet funcs q (decls.filter (isTestName isUpper))) ?_ p]
        · by_cases hr : p ∈ rest
          · simp only [if_pos hr, List.mem_cons, hr, or_true, if_true]
          · by_cases hpq : p = q
            · subst hpq
              simp only [if_neg hr, List.mem_cons, true_or, if_true, hq, lookup_mapSet_self]
            · simp only [if_neg hr, List.mem_cons, hpq, false_or,
                lookup_mapSet_other _ _ _ _ hpq]
        · intro p1
          by_cases hpq : p1 = q
          · subst hpq
            right
            rw [lookup_mapSet_self, hq]
          · rw [lookup_mapSet_other _ _ _ _ hpq]
            exact hinv p1

/-- C16: for every package directory of `packages` that parses, the function
list that `ScanTestFunctions` reports for it consists of exactly the names of
the function declarations of its `_test.go` files that are exported, begin
with `Test` and are neither `Test` nor `TestMain`; a package with no such
declaration has no entry in the returned map. -/
theorem ScanTestFunctions_reports_test_names (isUpper : Char → Bool)
    (parseDir : String → Option (List String)) (packages : List String) (pkg : String)
    (decls : List String) (hp : pkg ∈ packages) (hd : parseDir pkg = some decls) :
    (ScanTestFunctions isUpper parseDir packages).lookup pkg =
      (if decls.filter (fun name => IsExported isUpper name &&
            "Test".data.isPrefixOf name.data && name != "Test" && name != "TestMain") = []
        then none
        else some (decls.filter fun name => IsExported isUpper name &&
            "Test".data.isPrefixOf name.data && name != "Test" && name != "TestMain")) ∧
    ∀ name, name ∈ (decls.filter fun name => IsExported isUpper name &&
          "Test".data.isPrefixOf name.data && name != "Test" && name != "TestMain") ↔
      name ∈ decls ∧ IsExported isUpper name = true ∧
        "Test".data.isPrefixOf name.data = true ∧ name ≠ "Test" ∧ name ≠ "TestMain" := by
  constructor
  · have h := scanLoop_lookup isUpper parseDir packages [] (fun p => Or.inl rfl) pkg
    rw [if_pos hp] at h
    unfold ScanTestFunctions
    rw [h]
    simp only [expectedEntry, hd]
    rfl
  · intro name
    simp only [List.mem_filter, Bool.and_eq_true, bne_iff_ne, ne_eq, and_assoc]

theorem ScanTestFunctions_reports_test_names_witness :
    "example" ∈ ["example", "missing", "plain"] ∧
    sampleParseDir "example" =
      some ["TestExample", "TestAnother", "BenchmarkExample", "helperFunction", "TestMain",
        "Test"] ∧
    ((ScanTestFunctions Char.isUpper sampleParseDir ["example", "missing", "plain"]).lookup
        "example" =
      (if ["TestExample", "TestAnother", "BenchmarkExample", "helperFunction", "TestMain",
            "Test"].filter (fun name => IsExported Char.isUpper name &&
            "Test".data.isPrefixOf name.data && name != "Test" && name != "TestMain") = []
        then none
        else some (["TestExample", "TestAnother", "BenchmarkExample", "helperFunction",
            "TestMain", "Test"].filter fun name => IsExported Char.isUpper name &&
            "Test".data.isPrefixOf name.data && name != "Test" && name != "TestMain")) ∧
    ∀ name, name ∈ (["TestExample", "TestAnother", "BenchmarkExample", "helperFunction",
          "TestMain", "Test"].filter fun name => IsExported Char.isUpper name &&
          "Test".data.isPrefixOf name.data && name != "Test" && name != "TestMain") ↔
      name ∈ ["TestExample", "TestAnother", "BenchmarkExample", "helperFunction", "TestMain",
          "Test"] ∧ IsExported Char.isUpper name = true ∧
        "Test".data.isPrefixOf name.data = true ∧ name ≠ "Test" ∧ name ≠ "TestMain") :=
  ⟨by decide, by decide,
    ScanTestFunctions_reports_test_names Char.isUpper sampleParseDir
      ["example", "missing", "plain"] "example" _ (by decide) (by decide)⟩

end Scanner
